import Mathlib

/-!
Lemire's bounded random integer generator: a verification development.

Shallow embedding of `emul.hpp`, `distributions-lemire.hpp`, `distributions.hpp`
and `distributions-others.hpp`.

Machine integers are natural numbers with explicit reduction modulo `2 ^ W`
where the source operates on a `W`-bit unsigned type.  Values of a signed
`IntegerType` are mathematical integers in the two's-complement range.
A uniform random bit generator is a list of its successive outputs; a call
that needs a draw when the list is empty stops with `Fault.outOfDraws`.
-/

namespace Lemire

/-! ## emul.hpp -/

/-- The struct `ext_mul_result`: the two 64-bit halves of a 128-bit product. -/
structure ext_mul_result where
  upper : Nat
  lower : Nat
  deriving DecidableEq, Repr

/-- The macro `CarryBits( x )`, that is `( x >> 32 )`. -/
def CarryBits (x : Nat) : Nat := x >>> 32

/-- The macro `Digits( x )`, that is `( x & 0xFF'FF'FF'FF )`. -/
def Digits (x : Nat) : Nat := x &&& 0xFFFFFFFF

/-- Wrapping of a value to `std::uint64_t`. -/
def u64 (x : Nat) : Nat := x % 2 ^ 64

/-- The function `ext_mul_naive` of `emul.hpp`; every 64-bit operation wraps. -/
def ext_mul_naive (lhs rhs : Nat) : ext_mul_result :=
  let r2l2 := u64 (Digits rhs * Digits lhs)
  let r2l1 := u64 (Digits rhs * CarryBits lhs)
  let r1l2 := u64 (CarryBits rhs * Digits lhs)
  let r1l1 := u64 (CarryBits rhs * CarryBits lhs)
  -- Sum to columns first
  let d := Digits r2l2
  let c := u64 (u64 (CarryBits r2l2 + Digits r2l1) + Digits r1l2)
  let b := u64 (u64 (CarryBits r2l1 + CarryBits r1l2) + Digits r1l1)
  let a := CarryBits r1l1
  -- Propagate carries between columns
  let c := u64 (c + CarryBits d)
  let b := u64 (b + CarryBits c)
  let a := u64 (a + CarryBits b)
  -- Remove the used carries
  let c := Digits c
  let b := Digits b
  let a := Digits a
  { upper := u64 (a <<< 32) ||| b, lower := u64 (c <<< 32) ||| d }

/-- The function `ext_mul_optimized` of `emul.hpp`; every 64-bit operation wraps. -/
def ext_mul_optimized (lhs rhs : Nat) : ext_mul_result :=
  let lhs_low := Digits lhs
  let rhs_low := Digits rhs
  let low_low := u64 (lhs_low * rhs_low)
  let high_high := u64 (CarryBits lhs * CarryBits rhs)
  -- We add in carry bits from low-low already
  let high_low := u64 (u64 (CarryBits lhs * rhs_low) + CarryBits low_low)
  let low_high := u64 (u64 (lhs_low * CarryBits rhs) + Digits high_low)
  { upper := u64 (u64 (high_high + CarryBits high_low) + CarryBits low_high),
    lower := u64 (low_high <<< 32) ||| Digits low_low }

/-- The function `ext_mul_intrinsic` of `emul.hpp`, in its `USE_UINT128` branch:
the `__uint128_t` product, shifted right by 64 for the upper word and
truncated to 64 bits for the lower word. -/
def ext_mul_intrinsic (lhs rhs : Nat) : ext_mul_result :=
  let result := (lhs * rhs) % 2 ^ 128
  { upper := u64 (result >>> 64), lower := u64 result }

/-! ## Machine arithmetic, faults and the random bit source -/

/-- Addition of two `W`-bit unsigned values, wrapping. -/
def uadd (W x y : Nat) : Nat := (x + y) % 2 ^ W

/-- Subtraction `x - y` of two `W`-bit unsigned values, wrapping. -/
def usub (W x y : Nat) : Nat := (x + 2 ^ W - y) % 2 ^ W

/-- Unary minus `-x` of a `W`-bit unsigned value, wrapping. -/
def uneg (W x : Nat) : Nat := (2 ^ W - x) % 2 ^ W

/-- Bitwise complement `~x` of a `W`-bit unsigned value. -/
def unot (W x : Nat) : Nat := 2 ^ W - 1 - x

/-- The ways in which a constructor or a call can stop without a result. -/
inductive Fault where
  /-- The check `assert(a <= b)` failed. -/
  | assertion
  /-- The operator `%` was evaluated with a zero divisor. -/
  | divByZero
  /-- The draw sequence ended before the call returned. -/
  | outOfDraws
  deriving DecidableEq, Repr

/-- The operator `%` on unsigned values; a zero divisor is a fault. -/
def umod (x d : Nat) : Except Fault Nat :=
  if d = 0 then .error .divByZero else .ok (x % d)

/-- A uniform random bit generator, given by the draws it will produce. -/
abbrev Generator := List Nat

/-- Modelled from the spec: `Catch::Detail::fillBitsFrom<UnsignedIntegerType>(g)`
(called `drawNumber` in the templated classes), the bit source adapter, whose
code is in Catch2: it returns the next `W` uniformly random bits and advances
the generator. -/
def fillBitsFrom (W : Nat) (g : Generator) : Except Fault (Nat × Generator) :=
  match g with
  | [] => .error .outOfDraws
  | r :: rest => .ok (r % 2 ^ W, rest)

/-- Modelled from the spec: `Catch::Detail::extendedMult(lhs, rhs)`, whose code
is in Catch2: the pair `(upper, lower)` of `W`-bit words with
`upper * 2^W + lower == lhs * rhs` exactly. -/
def extendedMult (W lhs rhs : Nat) : ext_mul_result :=
  { upper := (lhs * rhs) / 2 ^ W, lower := (lhs * rhs) % 2 ^ W }

/-- The loop shared by all Lemire classes,
`while (emul.lower < threshold) { random_number = draw(g); emul = mult(random_number, distance); }`,
where `mult` already has the distance as its second argument.  The draw is
`fillBitsFrom W`, written out so that the recursion follows the draw list. -/
def rejectionLoop (W : Nat) (mult : Nat → ext_mul_result) (threshold : Nat) :
    Generator → ext_mul_result → Except Fault (ext_mul_result × Generator)
  | [], emul => if emul.lower < threshold then .error .outOfDraws else .ok (emul, [])
  | r :: rest, emul =>
      if emul.lower < threshold then rejectionLoop W mult threshold rest (mult (r % 2 ^ W))
      else .ok (emul, r :: rest)

/-- Runs `n` consecutive calls of a distribution on one generator, collecting
the results, the final state of the distribution and the draws left over. -/
def consecutive_calls {σ α : Type} (call : σ → Generator → Except Fault (α × σ × Generator)) :
    Nat → σ → Generator → Except Fault (List α × σ × Generator)
  | 0, s, g => .ok ([], s, g)
  | n + 1, s, g =>
      match call s g with
      | .error e => .error e
      | .ok (x, s1, g1) =>
          match consecutive_calls call n s1 g1 with
          | .error e => .error e
          | .ok (xs, s2, g2) => .ok (x :: xs, s2, g2)

/-- What a test observes of a run: the results and the draws left over. -/
def observed {σ α : Type} (r : Except Fault (List α × σ × Generator)) :
    Except Fault (List α × Generator) :=
  match r with
  | .error e => .error e
  | .ok (xs, _, g) => .ok (xs, g)

/-- A distribution whose call operator does not change its state. -/
def constCall {σ α : Type} (call : σ → Generator → Except Fault (α × Generator)) :
    σ → Generator → Except Fault (α × σ × Generator) :=
  fun s g =>
    match call s g with
    | .error e => .error e
    | .ok (x, g1) => .ok (x, s, g1)

/-! ## Integer types and the ordering transposition -/

/-- The template parameter `IntegerType`: signedness and width in bits. -/
structure IntegerType where
  isSigned : Bool
  bits : Nat
  deriving DecidableEq, Repr

/-- The value `std::numeric_limits<IntegerType>::min()`. -/
def IntegerType.minValue (T : IntegerType) : Int :=
  if T.isSigned then -(2 ^ (T.bits - 1)) else 0

/-- The value `std::numeric_limits<IntegerType>::max()`. -/
def IntegerType.maxValue (T : IntegerType) : Int :=
  if T.isSigned then 2 ^ (T.bits - 1) - 1 else 2 ^ T.bits - 1

/-- The integer `v` is a value of the type `T`. -/
def IntegerType.Holds (T : IntegerType) (v : Int) : Prop :=
  T.minValue ≤ v ∧ v ≤ T.maxValue

instance (T : IntegerType) (v : Int) : Decidable (T.Holds v) := by
  unfold IntegerType.Holds
  infer_instance

/-- The conversion `static_cast<UnsignedIntegerType>(in)`: reduction modulo `2^W`. -/
def toUnsignedBits (T : IntegerType) (v : Int) : Nat :=
  (v % 2 ^ T.bits).toNat

/-- The conversion `static_cast<IntegerType>(in)` of a `W`-bit unsigned value
(two's complement for a signed type). -/
def fromUnsignedBits (T : IntegerType) (u : Nat) : Int :=
  if T.isSigned ∧ 2 ^ (T.bits - 1) ≤ u then (u : Int) - 2 ^ T.bits else (u : Int)

/-- Modelled from the spec: `Catch::Detail::transposeToNaturalOrder<IntegerType>(in)`,
whose code is in Catch2: XOR with the sign bit mask (flips the top bit) for a
signed type, the identity for an unsigned type. -/
def transposeToNaturalOrder (T : IntegerType) (u : Nat) : Nat :=
  if T.isSigned then u ^^^ (1 <<< (T.bits - 1)) else u

/-- The static member `transposeTo` of the three `lemire_algorithm_*` classes. -/
def transposeTo (T : IntegerType) (v : Int) : Nat :=
  transposeToNaturalOrder T (toUnsignedBits T v)

/-- The static member `transposeBack` of the three `lemire_algorithm_*` classes. -/
def transposeBack (T : IntegerType) (u : Nat) : Int :=
  fromUnsignedBits T (transposeToNaturalOrder T u)

/-- The member `computeDistance` of the three `lemire_algorithm_*` classes:
`transposeTo(b) - transposeTo(a) + 1`. -/
def computeDistance (T : IntegerType) (a b : Int) : Nat :=
  uadd T.bits (usub T.bits (transposeTo T b) (transposeTo T a)) 1

/-! ## distributions-lemire.hpp and distributions.hpp: `lemire_algorithm_no_reuse` -/

namespace lemire_algorithm_no_reuse

/-- The fields `IntegerType m_a, m_b`. -/
structure State where
  m_a : Int
  m_b : Int
  deriving DecidableEq, Repr

/-- The unguarded `computeRejectionThreshold`: `(~ab_distance + 1) % ab_distance`. -/
def computeRejectionThreshold (T : IntegerType) (ab_distance : Nat) : Except Fault Nat :=
  umod (uadd T.bits (unot T.bits ab_distance) 1) ab_distance

/-- The constructor: stores `a` and `b`, then `assert(a <= b)`. -/
def ctor (_T : IntegerType) (a b : Int) : Except Fault State :=
  if a ≤ b then .ok { m_a := a, m_b := b } else .error .assertion

/-- The call operator.  In `m_a + emul.upper` the signed `m_a` is converted to
the unsigned type by the usual arithmetic conversions. -/
def call (T : IntegerType) (s : State) (g : Generator) : Except Fault (Int × Generator) := do
  let ab_distance := computeDistance T s.m_a s.m_b
  -- All possible values of result_type are valid.
  if ab_distance = 0 then
    let (r, g) ← fillBitsFrom T.bits g
    return (transposeBack T r, g)
  else
    let (random_number, g) ← fillBitsFrom T.bits g
    let emul := extendedMult T.bits random_number ab_distance
    if emul.lower < ab_distance then
      let rejection_threshold ← computeRejectionThreshold T ab_distance
      let (emul, g) ←
        rejectionLoop T.bits (fun r => extendedMult T.bits r ab_distance) rejection_threshold g emul
      return (transposeBack T (uadd T.bits (toUnsignedBits T s.m_a) emul.upper), g)
    else
      return (transposeBack T (uadd T.bits (toUnsignedBits T s.m_a) emul.upper), g)

end lemire_algorithm_no_reuse

/-! ## `lemire_algorithm_reuse` -/

namespace lemire_algorithm_reuse

/-- The fields `UnsignedIntegerType m_a, m_ab_distance, m_rejection_threshold`. -/
structure State where
  m_a : Nat
  m_ab_distance : Nat
  m_rejection_threshold : Nat
  deriving DecidableEq, Repr

/-- The guarded `computeRejectionThreshold`:
`if (ab_distance == 0) { return 0; } return (~ab_distance + 1) % ab_distance;`. -/
def computeRejectionThreshold (T : IntegerType) (ab_distance : Nat) : Except Fault Nat :=
  if ab_distance = 0 then .ok 0
  else umod (uadd T.bits (unot T.bits ab_distance) 1) ab_distance

/-- The constructor: the member initialisers run first, then `assert(a <= b)`. -/
def ctor (T : IntegerType) (a b : Int) : Except Fault State := do
  let m_a := transposeTo T a
  let m_ab_distance := computeDistance T a b
  let m_rejection_threshold ← computeRejectionThreshold T m_ab_distance
  if a ≤ b then
    return { m_a := m_a, m_ab_distance := m_ab_distance,
             m_rejection_threshold := m_rejection_threshold }
  else throw .assertion

/-- The call operator. -/
def call (T : IntegerType) (s : State) (g : Generator) : Except Fault (Int × Generator) := do
  -- All possible values of result_type are valid.
  if s.m_ab_distance = 0 then
    let (r, g) ← fillBitsFrom T.bits g
    return (transposeBack T r, g)
  else
    let (random_number, g) ← fillBitsFrom T.bits g
    let emul := extendedMult T.bits random_number s.m_ab_distance
    let (emul, g) ←
      rejectionLoop T.bits (fun r => extendedMult T.bits r s.m_ab_distance)
        s.m_rejection_threshold g emul
    return (transposeBack T (uadd T.bits s.m_a emul.upper), g)

end lemire_algorithm_reuse

/-! ## `lemire_algorithm_lazy_reuse` -/

namespace lemire_algorithm_lazy_reuse

/-- The fields `UnsignedIntegerType m_a, m_ab_distance, m_rejection_threshold`. -/
structure State where
  m_a : Nat
  m_ab_distance : Nat
  m_rejection_threshold : Nat
  deriving DecidableEq, Repr

/-- The constant `NONE = static_cast<UnsignedIntegerType>(-1)`. -/
def NONE (T : IntegerType) : Nat := 2 ^ T.bits - 1

/-- The guarded `computeRejectionThreshold`:
`if (ab_distance == 0) { return 0; } return (~ab_distance + 1) % ab_distance;`. -/
def computeRejectionThreshold (T : IntegerType) (ab_distance : Nat) : Except Fault Nat :=
  if ab_distance = 0 then .ok 0
  else umod (uadd T.bits (unot T.bits ab_distance) 1) ab_distance

/-- The constructor: the member initialisers run first, then `assert(a <= b)`. -/
def ctor (T : IntegerType) (a b : Int) : Except Fault State :=
  if a ≤ b then
    .ok { m_a := transposeTo T a, m_ab_distance := computeDistance T a b,
          m_rejection_threshold := NONE T }
  else .error .assertion

/-- The call operator; it may fill in the cached `m_rejection_threshold`. -/
def call (T : IntegerType) (s : State) (g : Generator) :
    Except Fault (Int × State × Generator) := do
  -- All possible values of result_type are valid.
  if s.m_ab_distance = 0 then
    let (r, g) ← fillBitsFrom T.bits g
    return (transposeBack T r, s, g)
  else
    let (random_number, g) ← fillBitsFrom T.bits g
    let emul := extendedMult T.bits random_number s.m_ab_distance
    if emul.lower < s.m_ab_distance then
      let m_rejection_threshold ←
        (if s.m_rejection_threshold = NONE T then computeRejectionThreshold T s.m_ab_distance
          else pure s.m_rejection_threshold)
      let s := { s with m_rejection_threshold := m_rejection_threshold }
      let (emul, g) ←
        rejectionLoop T.bits (fun r => extendedMult T.bits r s.m_ab_distance)
          s.m_rejection_threshold g emul
      return (transposeBack T (uadd T.bits s.m_a emul.upper), s, g)
    else
      return (transposeBack T (uadd T.bits s.m_a emul.upper), s, g)

end lemire_algorithm_lazy_reuse

/-! ## benches-part2.cpp: the multiplication backends -/

/-- The structs `NaiveMult`, `OptimizedMult` and `IntrinsicMult`. -/
inductive MultImplementation where
  | NaiveMult
  | OptimizedMult
  | IntrinsicMult
  deriving DecidableEq, Repr

/-- The static member `Mult` of each backend. -/
def MultImplementation.Mult : MultImplementation → Nat → Nat → ext_mul_result
  | .NaiveMult, a, b => ext_mul_naive a b
  | .OptimizedMult, a, b => ext_mul_optimized a b
  | .IntrinsicMult, a, b => ext_mul_intrinsic a b

/-! ## `lemire_plain_templated_mult` -/

namespace lemire_plain_templated_mult

/-- The fields `uint64_t m_a, m_b`. -/
structure State where
  m_a : Nat
  m_b : Nat
  deriving DecidableEq, Repr

/-- The member `computeDistance`: `b - a + 1`. -/
def computeDistance (a b : Nat) : Nat := uadd 64 (usub 64 b a) 1

/-- The unguarded `computeRejectionThreshold`: `(~ab_distance + 1) % ab_distance`. -/
def computeRejectionThreshold (ab_distance : Nat) : Except Fault Nat :=
  umod (uadd 64 (unot 64 ab_distance) 1) ab_distance

/-- The constructor: stores `a` and `b`, then `assert(a <= b)`. -/
def ctor (a b : Nat) : Except Fault State :=
  if a ≤ b then .ok { m_a := a, m_b := b } else .error .assertion

/-- The call operator. -/
def call (M : MultImplementation) (s : State) (g : Generator) :
    Except Fault (Nat × Generator) := do
  let ab_distance := computeDistance s.m_a s.m_b
  -- All possible values of result_type are valid.
  if ab_distance = 0 then
    fillBitsFrom 64 g
  else
    let (random_number, g) ← fillBitsFrom 64 g
    let emul := M.Mult random_number ab_distance
    if emul.lower < ab_distance then
      let rejection_threshold ← computeRejectionThreshold ab_distance
      let (emul, g) ← rejectionLoop 64 (fun r => M.Mult r ab_distance) rejection_threshold g emul
      return (uadd 64 s.m_a emul.upper, g)
    else
      return (uadd 64 s.m_a emul.upper, g)

end lemire_plain_templated_mult

/-! ## `lemire_reuse_templated_mult` -/

namespace lemire_reuse_templated_mult

/-- The fields `uint64_t m_a, m_ab_distance, m_threshold`. -/
structure State where
  m_a : Nat
  m_ab_distance : Nat
  m_threshold : Nat
  deriving DecidableEq, Repr

/-- The member `computeDistance`: `b - a + 1`. -/
def computeDistance (a b : Nat) : Nat := uadd 64 (usub 64 b a) 1

/-- The unguarded `computeRejectionThreshold`: `(~ab_distance + 1) % ab_distance`. -/
def computeRejectionThreshold (ab_distance : Nat) : Except Fault Nat :=
  umod (uadd 64 (unot 64 ab_distance) 1) ab_distance

/-- The constructor: the member initialisers run first, then `assert(a <= b)`. -/
def ctor (a b : Nat) : Except Fault State := do
  let m_ab_distance := computeDistance a b
  let m_threshold ← computeRejectionThreshold m_ab_distance
  if a ≤ b then
    return { m_a := a, m_ab_distance := m_ab_distance, m_threshold := m_threshold }
  else throw .assertion

/-- The call operator. -/
def call (M : MultImplementation) (s : State) (g : Generator) :
    Except Fault (Nat × Generator) := do
  -- All possible values of result_type are valid.
  if s.m_ab_distance = 0 then
    fillBitsFrom 64 g
  else
    let (random_number, g) ← fillBitsFrom 64 g
    let emul := M.Mult random_number s.m_ab_distance
    let (emul, g) ← rejectionLoop 64 (fun r => M.Mult r s.m_ab_distance) s.m_threshold g emul
    return (uadd 64 s.m_a emul.upper, g)

end lemire_reuse_templated_mult

/-! ## distributions-others.hpp: the Java-style comparator -/

/-- The loop of `java_plain` and `java_reuse`,
`while (x - r > (-distance)) { x = drawNumber(g); r = x % distance; }`,
with the draw `fillBitsFrom 64` written out. -/
def javaLoop (distance : Nat) : Generator → Nat → Nat → Except Fault (Nat × Generator)
  | [], x, r =>
      if usub 64 x r > uneg 64 distance then .error .outOfDraws else .ok (r, [])
  | y :: rest, x, r =>
      if usub 64 x r > uneg 64 distance then
        match umod (y % 2 ^ 64) distance with
        | .error e => .error e
        | .ok r1 => javaLoop distance rest (y % 2 ^ 64) r1
      else .ok (r, y :: rest)

namespace java_plain

/-- The fields `std::uint64_t m_a, m_b`. -/
structure State where
  m_a : Nat
  m_b : Nat
  deriving DecidableEq, Repr

/-- The constructor; it has no assertion. -/
def ctor (a b : Nat) : Except Fault State := .ok { m_a := a, m_b := b }

/-- The call operator. -/
def call (s : State) (g : Generator) : Except Fault (Nat × Generator) := do
  let distance := uadd 64 (usub 64 s.m_b s.m_a) 1
  if distance = 0 then
    fillBitsFrom 64 g
  else
    let (x, g) ← fillBitsFrom 64 g
    let r ← umod x distance
    let (r, g) ← javaLoop distance g x r
    return (uadd 64 s.m_a r, g)

end java_plain

namespace java_reuse

/-- The fields `std::uint64_t m_a, m_distance`. -/
structure State where
  m_a : Nat
  m_distance : Nat
  deriving DecidableEq, Repr

/-- The constructor; it has no assertion. -/
def ctor (a b : Nat) : Except Fault State :=
  .ok { m_a := a, m_distance := uadd 64 (usub 64 b a) 1 }

/-- The call operator. -/
def call (s : State) (g : Generator) : Except Fault (Nat × Generator) := do
  if s.m_distance = 0 then
    fillBitsFrom 64 g
  else
    let (x, g) ← fillBitsFrom 64 g
    let r ← umod x s.m_distance
    let (r, g) ← javaLoop s.m_distance g x r
    return (uadd 64 s.m_a r, g)

end java_reuse

/-! ## The OpenBSD-style comparator -/

/-- The loop of `OpenBSD_plain` and `OpenBSD_reuse`,
`while (x < threshold) { x = drawNumber(g); }`, with the draw `fillBitsFrom 64`
written out. -/
def openBSDLoop (threshold : Nat) : Generator → Nat → Except Fault (Nat × Generator)
  | [], x => if x < threshold then .error .outOfDraws else .ok (x, [])
  | y :: rest, x =>
      if x < threshold then openBSDLoop threshold rest (y % 2 ^ 64) else .ok (x, y :: rest)

namespace OpenBSD_plain

/-- The fields `std::uint64_t m_a, m_b`. -/
structure State where
  m_a : Nat
  m_b : Nat
  deriving DecidableEq, Repr

/-- The constructor; it has no assertion. -/
def ctor (a b : Nat) : Except Fault State := .ok { m_a := a, m_b := b }

/-- The call operator. -/
def call (s : State) (g : Generator) : Except Fault (Nat × Generator) := do
  let distance := uadd 64 (usub 64 s.m_b s.m_a) 1
  if distance = 0 then
    fillBitsFrom 64 g
  else
    let threshold ← umod (uneg 64 distance) distance
    let (x, g) ← fillBitsFrom 64 g
    let (x, g) ← openBSDLoop threshold g x
    let r ← umod x distance
    return (uadd 64 s.m_a r, g)

end OpenBSD_plain

namespace OpenBSD_reuse

/-- The fields `std::uint64_t m_a, m_distance, m_threshold`. -/
structure State where
  m_a : Nat
  m_distance : Nat
  m_threshold : Nat
  deriving DecidableEq, Repr

/-- The constructor: `m_threshold((-m_distance) % m_distance)` is unguarded. -/
def ctor (a b : Nat) : Except Fault State := do
  let m_distance := uadd 64 (usub 64 b a) 1
  let m_threshold ← umod (uneg 64 m_distance) m_distance
  return { m_a := a, m_distance := m_distance, m_threshold := m_threshold }

/-- The call operator. -/
def call (s : State) (g : Generator) : Except Fault (Nat × Generator) := do
  if s.m_distance = 0 then
    fillBitsFrom 64 g
  else
    let (x, g) ← fillBitsFrom 64 g
    let (x, g) ← openBSDLoop s.m_threshold g x
    let r ← umod x s.m_distance
    return (uadd 64 s.m_a r, g)

end OpenBSD_reuse

/-! ## pcg.hpp -/

/-- The function `rotate_right` of `pcg.hpp` on `uint32_t`:
`count &= mask; return (val >> count) | (val << (-count & mask));` with
`mask = 31`; the left shift drops the bits above bit 31. -/
def rotate_right (val count : Nat) : Nat :=
  let mask := 31
  let count := count &&& mask
  (val >>> count) ||| ((val <<< (uneg 32 count &&& mask)) % 2 ^ 32)

/-- The right rotation of a 32-bit value by `c < 32` bits: the low `c` bits
move to the top. -/
def rotr32 (val c : Nat) : Nat :=
  val / 2 ^ c + (val % 2 ^ c) * 2 ^ (32 - c)

/-! ## Auxiliary definitions for the proofs -/

/-- The distance by which the ordering transposition shifts values. -/
def IntegerType.offset (T : IntegerType) : Int :=
  if T.isSigned then 2 ^ (T.bits - 1) else 0

/-- Draws until the first draw whose low product word is not below the
threshold; returns its product and the draws that follow it. -/
def firstAccept (W : Nat) (mult : Nat → ext_mul_result) (threshold : Nat) :
    Generator → Except Fault (ext_mul_result × Generator)
  | [] => .error .outOfDraws
  | r :: rest =>
      if (mult (r % 2 ^ W)).lower < threshold then firstAccept W mult threshold rest
      else .ok (mult (r % 2 ^ W), rest)

/-- The result of a Lemire call with a non-zero distance, given the offset `m_a`
in the unsigned domain and a conversion `back` to the result type. -/
def lemireResult {α : Type} (W : Nat) (mult : Nat → ext_mul_result) (threshold m_a : Nat)
    (back : Nat → α) (g : Generator) : Except Fault (α × Generator) :=
  match firstAccept W mult threshold g with
  | .error e => .error e
  | .ok (emul, g1) => .ok (back (uadd W m_a emul.upper), g1)

/-- The lazy state agrees with the eager one, its threshold being the sentinel or the eager value. -/
def LazyAgrees (T : IntegerType) (sr : lemire_algorithm_reuse.State)
    (sl : lemire_algorithm_lazy_reuse.State) : Prop :=
  sl.m_a = sr.m_a ∧ sl.m_ab_distance = sr.m_ab_distance ∧
    (sl.m_rejection_threshold = lemire_algorithm_lazy_reuse.NONE T ∨
      sl.m_rejection_threshold = sr.m_rejection_threshold)

instance (T : IntegerType) (sr : lemire_algorithm_reuse.State)
    (sl : lemire_algorithm_lazy_reuse.State) : Decidable (LazyAgrees T sr sl) := by
  unfold LazyAgrees
  infer_instance

/-- The sum assigned to `high_low` in `ext_mul_optimized`, as a natural number
before any reduction modulo `2^64`. -/
def ext_mul_optimized_high_low (lhs rhs : Nat) : Nat :=
  CarryBits lhs * Digits rhs + CarryBits (Digits lhs * Digits rhs)

/-- The sum assigned to `low_high` in `ext_mul_optimized`, as a natural number
before any reduction modulo `2^64`. -/
def ext_mul_optimized_low_high (lhs rhs : Nat) : Nat :=
  Digits lhs * CarryBits rhs + Digits (ext_mul_optimized_high_low lhs rhs)

/-- The sum returned as the upper word by `ext_mul_optimized`, as a natural number
before any reduction modulo `2^64`. -/
def ext_mul_optimized_upper_sum (lhs rhs : Nat) : Nat :=
  CarryBits lhs * CarryBits rhs + CarryBits (ext_mul_optimized_high_low lhs rhs)
    + CarryBits (ext_mul_optimized_low_high lhs rhs)

/-- The guarded `computeRejectionThreshold` of `lemire_algorithm_lazy_reuse` once
more, returning in addition the number of `%` operations it evaluated. -/
def lemire_algorithm_lazy_reuse.computeRejectionThresholdCounting (T : IntegerType)
    (ab_distance : Nat) : Except Fault (Nat × Nat) :=
  if ab_distance = 0 then .ok (0, 0)
  else
    match umod (uadd T.bits (unot T.bits ab_distance) 1) ab_distance with
    | .error e => .error e
    | .ok t => .ok (t, 1)

/-- The call operator of `lemire_algorithm_lazy_reuse` once more, returning in
addition the number of `%` operations evaluated during the call; the only `%`
of the class is the one in `computeRejectionThreshold`. -/
def lemire_algorithm_lazy_reuse.callCounting (T : IntegerType)
    (s : lemire_algorithm_lazy_reuse.State) (g : Generator) :
    Except Fault (Int × lemire_algorithm_lazy_reuse.State × Generator × Nat) := do
  -- All possible values of result_type are valid.
  if s.m_ab_distance = 0 then
    let (r, g) ← fillBitsFrom T.bits g
    return (transposeBack T r, s, g, 0)
  else
    let (random_number, g) ← fillBitsFrom T.bits g
    let emul := extendedMult T.bits random_number s.m_ab_distance
    if emul.lower < s.m_ab_distance then
      let (m_rejection_threshold, mods) ←
        (if s.m_rejection_threshold = lemire_algorithm_lazy_reuse.NONE T then
            lemire_algorithm_lazy_reuse.computeRejectionThresholdCounting T s.m_ab_distance
          else pure (s.m_rejection_threshold, 0))
      let s := { s with m_rejection_threshold := m_rejection_threshold }
      let (emul, g) ←
        rejectionLoop T.bits (fun r => extendedMult T.bits r s.m_ab_distance)
          s.m_rejection_threshold g emul
      return (transposeBack T (uadd T.bits s.m_a emul.upper), s, g, mods)
    else
      return (transposeBack T (uadd T.bits s.m_a emul.upper), s, g, 0)

/-- Forgets the count of `%` operations. -/
def forgetCount {α σ : Type} (r : Except Fault (α × σ × Generator × Nat)) :
    Except Fault (α × σ × Generator) :=
  match r with
  | .error e => .error e
  | .ok (x, s, g, _) => .ok (x, s, g)

/-- The invariant of the lazy state constructed for offset `A` and distance `D`. -/
def LazyInvariant (T : IntegerType) (A D : Nat) (s : lemire_algorithm_lazy_reuse.State) :
    Prop :=
  s.m_a = A ∧ s.m_ab_distance = D ∧
    (s.m_rejection_threshold = lemire_algorithm_lazy_reuse.NONE T ∨
      (D ≠ 0 ∧ s.m_rejection_threshold = 2 ^ T.bits % D))

instance (T : IntegerType) (A D : Nat) (s : lemire_algorithm_lazy_reuse.State) :
    Decidable (LazyInvariant T A D s) := by
  unfold LazyInvariant
  infer_instance

/-! ## Arithmetic of the digit macros -/

theorem CarryBits_eq (x : Nat) : CarryBits x = x / 2 ^ 32 := by
  unfold CarryBits
  exact Nat.shiftRight_eq_div_pow x 32

theorem Digits_eq (x : Nat) : Digits x = x % 2 ^ 32 := by
  unfold Digits
  have h : (0xFFFFFFFF : Nat) = 2 ^ 32 - 1 := by norm_num
  rw [h, Nat.and_pow_two_sub_one_eq_mod]

theorem shl32_or (a b : Nat) (ha : a < 2 ^ 32) (hb : b < 2 ^ 32) :
    u64 (a <<< 32) ||| b = a * 2 ^ 32 + b := by
  have h1 : u64 (a <<< 32) = 2 ^ 32 * a := by
    unfold u64
    rw [Nat.shiftLeft_eq, Nat.mod_eq_of_lt]
    · ring
    · omega
  rw [h1, ← Nat.mul_add_lt_is_or hb]
  ring

/-- Long multiplication in base `2 ^ 32`, as computed by `ext_mul_naive`. -/
theorem ext_mul_naive_exact (lhs rhs : Nat) (hl : lhs < 2 ^ 64) (hr : rhs < 2 ^ 64) :
    (ext_mul_naive lhs rhs).upper * 2 ^ 64 + (ext_mul_naive lhs rhs).lower = lhs * rhs ∧
      (ext_mul_naive lhs rhs).upper < 2 ^ 64 ∧ (ext_mul_naive lhs rhs).lower < 2 ^ 64 := by
  simp only [ext_mul_naive, Digits_eq, CarryBits_eq]
  rw [shl32_or _ _ (Nat.mod_lt _ (by norm_num)) (Nat.mod_lt _ (by norm_num)),
    shl32_or _ _ (Nat.mod_lt _ (by norm_num)) (Nat.mod_lt _ (by norm_num))]
  unfold u64
  have hL1 : lhs / 2 ^ 32 < 2 ^ 32 := by omega
  have hL2 : lhs % 2 ^ 32 < 2 ^ 32 := by omega
  have hR1 : rhs / 2 ^ 32 < 2 ^ 32 := by omega
  have hR2 : rhs % 2 ^ 32 < 2 ^ 32 := by omega
  have hprod : lhs * rhs =
      (rhs / 2 ^ 32) * (lhs / 2 ^ 32) * 2 ^ 64
        + ((rhs % 2 ^ 32) * (lhs / 2 ^ 32) + (rhs / 2 ^ 32) * (lhs % 2 ^ 32)) * 2 ^ 32
        + (rhs % 2 ^ 32) * (lhs % 2 ^ 32) := by
    conv_lhs => rw [← Nat.div_add_mod lhs (2 ^ 32), ← Nat.div_add_mod rhs (2 ^ 32)]
    ring
  have b22 : (rhs % 2 ^ 32) * (lhs % 2 ^ 32) ≤ (2 ^ 32 - 1) * (2 ^ 32 - 1) :=
    Nat.mul_le_mul (by omega) (by omega)
  have b21 : (rhs % 2 ^ 32) * (lhs / 2 ^ 32) ≤ (2 ^ 32 - 1) * (2 ^ 32 - 1) :=
    Nat.mul_le_mul (by omega) (by omega)
  have b12 : (rhs / 2 ^ 32) * (lhs % 2 ^ 32) ≤ (2 ^ 32 - 1) * (2 ^ 32 - 1) :=
    Nat.mul_le_mul (by omega) (by omega)
  have b11 : (rhs / 2 ^ 32) * (lhs / 2 ^ 32) ≤ (2 ^ 32 - 1) * (2 ^ 32 - 1) :=
    Nat.mul_le_mul (by omega) (by omega)
  generalize (rhs % 2 ^ 32) * (lhs % 2 ^ 32) = p22 at hprod b22
  generalize (rhs % 2 ^ 32) * (lhs / 2 ^ 32) = p21 at hprod b21
  generalize (rhs / 2 ^ 32) * (lhs % 2 ^ 32) = p12 at hprod b12
  generalize (rhs / 2 ^ 32) * (lhs / 2 ^ 32) = p11 at hprod b11
  rw [hprod]
  refine ⟨?_, ?_, ?_⟩ <;> omega

theorem shl32_or_digits (a b : Nat) (hb : b < 2 ^ 32) :
    u64 (a <<< 32) ||| b = (a % 2 ^ 32) * 2 ^ 32 + b := by
  have h1 : u64 (a <<< 32) = 2 ^ 32 * (a % 2 ^ 32) := by
    unfold u64
    rw [Nat.shiftLeft_eq]
    omega
  rw [h1, ← Nat.mul_add_lt_is_or hb]
  ring

/-- The folded-carry multiplication `ext_mul_optimized` is exact. -/
theorem ext_mul_optimized_exact (lhs rhs : Nat) (hl : lhs < 2 ^ 64) (hr : rhs < 2 ^ 64) :
    (ext_mul_optimized lhs rhs).upper * 2 ^ 64 + (ext_mul_optimized lhs rhs).lower = lhs * rhs ∧
      (ext_mul_optimized lhs rhs).upper < 2 ^ 64 ∧ (ext_mul_optimized lhs rhs).lower < 2 ^ 64 := by
  simp only [ext_mul_optimized, Digits_eq, CarryBits_eq]
  rw [shl32_or_digits _ _ (Nat.mod_lt _ (by norm_num))]
  unfold u64
  have hL1 : lhs / 2 ^ 32 < 2 ^ 32 := by omega
  have hL2 : lhs % 2 ^ 32 < 2 ^ 32 := by omega
  have hR1 : rhs / 2 ^ 32 < 2 ^ 32 := by omega
  have hR2 : rhs % 2 ^ 32 < 2 ^ 32 := by omega
  have hprod : lhs * rhs =
      (lhs / 2 ^ 32) * (rhs / 2 ^ 32) * 2 ^ 64
        + ((lhs / 2 ^ 32) * (rhs % 2 ^ 32) + (lhs % 2 ^ 32) * (rhs / 2 ^ 32)) * 2 ^ 32
        + (lhs % 2 ^ 32) * (rhs % 2 ^ 32) := by
    conv_lhs => rw [← Nat.div_add_mod lhs (2 ^ 32), ← Nat.div_add_mod rhs (2 ^ 32)]
    ring
  have b22 : (lhs % 2 ^ 32) * (rhs % 2 ^ 32) ≤ (2 ^ 32 - 1) * (2 ^ 32 - 1) :=
    Nat.mul_le_mul (by omega) (by omega)
  have b21 : (lhs / 2 ^ 32) * (rhs % 2 ^ 32) ≤ (2 ^ 32 - 1) * (2 ^ 32 - 1) :=
    Nat.mul_le_mul (by omega) (by omega)
  have b12 : (lhs % 2 ^ 32) * (rhs / 2 ^ 32) ≤ (2 ^ 32 - 1) * (2 ^ 32 - 1) :=
    Nat.mul_le_mul (by omega) (by omega)
  have b11 : (lhs / 2 ^ 32) * (rhs / 2 ^ 32) ≤ (2 ^ 32 - 1) * (2 ^ 32 - 1) :=
    Nat.mul_le_mul (by omega) (by omega)
  generalize (lhs % 2 ^ 32) * (rhs % 2 ^ 32) = p22 at hprod b22 ⊢
  generalize (lhs / 2 ^ 32) * (rhs % 2 ^ 32) = p21 at hprod b21 ⊢
  generalize (lhs % 2 ^ 32) * (rhs / 2 ^ 32) = p12 at hprod b12 ⊢
  generalize (lhs / 2 ^ 32) * (rhs / 2 ^ 32) = p11 at hprod b11 ⊢
  rw [hprod]
  refine ⟨?_, ?_, ?_⟩ <;> omega

/-- The double-width multiplication `ext_mul_intrinsic` is exact. -/
theorem ext_mul_intrinsic_exact (lhs rhs : Nat) (hl : lhs < 2 ^ 64) (hr : rhs < 2 ^ 64) :
    (ext_mul_intrinsic lhs rhs).upper * 2 ^ 64 + (ext_mul_intrinsic lhs rhs).lower = lhs * rhs ∧
      (ext_mul_intrinsic lhs rhs).upper < 2 ^ 64 ∧ (ext_mul_intrinsic lhs rhs).lower < 2 ^ 64 := by
  have hlt : lhs * rhs < 2 ^ 64 * 2 ^ 64 := Nat.mul_lt_mul'' hl hr
  simp only [ext_mul_intrinsic, u64, Nat.shiftRight_eq_div_pow]
  generalize lhs * rhs = p at hlt ⊢
  refine ⟨?_, ?_, ?_⟩ <;> omega

/-- A pair of words below `2 ^ W` is determined by the number it denotes. -/
theorem words_unique (W u l u2 l2 : Nat) (hl : l < 2 ^ W) (hl2 : l2 < 2 ^ W)
    (h : u * 2 ^ W + l = u2 * 2 ^ W + l2) : u = u2 ∧ l = l2 := by
  have h1 : (u * 2 ^ W + l) / 2 ^ W = u := by
    rw [Nat.add_comm, Nat.add_mul_div_right _ _ (Nat.two_pow_pos W), Nat.div_eq_of_lt hl]
    simp
  have h2 : (u2 * 2 ^ W + l2) / 2 ^ W = u2 := by
    rw [Nat.add_comm, Nat.add_mul_div_right _ _ (Nat.two_pow_pos W), Nat.div_eq_of_lt hl2]
    simp
  have hu : u = u2 := by rw [← h1, ← h2, h]
  subst hu
  exact ⟨rfl, by omega⟩

/-! ## Wrapping arithmetic -/

theorem two_pow_pred_double (W : Nat) (hW : 0 < W) : 2 ^ (W - 1) + 2 ^ (W - 1) = 2 ^ W := by
  obtain ⟨k, rfl⟩ : ∃ k, W = k + 1 := ⟨W - 1, by omega⟩
  simp only [Nat.add_sub_cancel, pow_succ]
  omega

/-- The value `~d + 1` is `2^W - d` for a non-zero `W`-bit `d`. -/
theorem uadd_unot_one (W d : Nat) (hd0 : 0 < d) (hd : d < 2 ^ W) :
    uadd W (unot W d) 1 = 2 ^ W - d := by
  unfold uadd unot
  rw [Nat.mod_eq_of_lt (by omega)]
  omega

theorem sub_self_mod (M d : Nat) (hd : d ≤ M) : (M - d) % d = M % d := by
  conv_rhs => rw [show M = (M - d) + d by omega]
  rw [Nat.add_mod_right]

/-- The rejection threshold `(~d + 1) % d` is `2^W mod d`. -/
theorem threshold_eq (W d : Nat) (hd0 : 0 < d) (hd : d < 2 ^ W) :
    uadd W (unot W d) 1 % d = 2 ^ W % d := by
  rw [uadd_unot_one W d hd0 hd, sub_self_mod _ _ (le_of_lt hd)]

theorem umod_pos (x d : Nat) (hd0 : 0 < d) : umod x d = .ok (x % d) := by
  unfold umod
  rw [if_neg (by omega)]

/-- For a flipped-top-bit value: XOR with the sign bit mask adds or removes `2^(W-1)`. -/
theorem xor_two_pow_of_lt (k u : Nat) (hu : u < 2 ^ k) : u ^^^ 2 ^ k = 2 ^ k + u := by
  apply Nat.eq_of_testBit_eq
  intro i
  rw [Nat.testBit_xor, Nat.testBit_two_pow]
  rcases Nat.lt_trichotomy i k with h | h | h
  · rw [Nat.testBit_two_pow_add_gt h]
    have : ¬ k = i := by omega
    simp [this]
  · subst h
    rw [Nat.testBit_two_pow_add_eq, Nat.testBit_lt_two_pow hu]
    simp
  · have h1 : 2 ^ k + u < 2 ^ i := by
      have : 2 ^ (k + 1) ≤ 2 ^ i := Nat.pow_le_pow_right (by norm_num) h
      rw [pow_succ] at this
      omega
    have h2 : u < 2 ^ i := by omega
    rw [Nat.testBit_lt_two_pow h1, Nat.testBit_lt_two_pow h2]
    have : ¬ k = i := by omega
    simp [this]

theorem xor_two_pow_of_ge (k u : Nat) (hu : 2 ^ k ≤ u) (hu2 : u < 2 ^ k + 2 ^ k) :
    u ^^^ 2 ^ k = u - 2 ^ k := by
  have h := xor_two_pow_of_lt k (u - 2 ^ k) (by omega)
  have h2 : 2 ^ k + (u - 2 ^ k) = u := by omega
  rw [h2] at h
  conv_lhs => rw [← h]
  rw [Nat.xor_assoc, Nat.xor_self, Nat.xor_zero]

/-! ## The ordering transposition as arithmetic -/

theorem holds_iff (T : IntegerType) (hW : 0 < T.bits) (v : Int) :
    T.Holds v ↔ 0 ≤ v + T.offset ∧ v + T.offset < 2 ^ T.bits := by
  have h2 := two_pow_pred_double T.bits hW
  have h3 : ((2 : Int) ^ (T.bits - 1)) + 2 ^ (T.bits - 1) = 2 ^ T.bits := by exact_mod_cast h2
  unfold IntegerType.Holds IntegerType.minValue IntegerType.maxValue IntegerType.offset
  cases T.isSigned <;> simp <;> omega

theorem transposeToNaturalOrder_lt (T : IntegerType) (hW : 0 < T.bits) (u : Nat)
    (hu : u < 2 ^ T.bits) : transposeToNaturalOrder T u < 2 ^ T.bits := by
  unfold transposeToNaturalOrder
  split
  · apply Nat.xor_lt_two_pow hu
    rw [Nat.one_shiftLeft]
    exact Nat.pow_lt_pow_right (by norm_num) (by omega)
  · exact hu

/-- XOR with the sign bit, as arithmetic on a `W`-bit value. -/
theorem xor_sign_bit (W u : Nat) (hW : 0 < W) (hu : u < 2 ^ W) :
    u ^^^ (1 <<< (W - 1)) = if u < 2 ^ (W - 1) then u + 2 ^ (W - 1) else u - 2 ^ (W - 1) := by
  have h2 := two_pow_pred_double W hW
  rw [Nat.one_shiftLeft]
  split
  · rw [xor_two_pow_of_lt _ _ (by assumption)]; omega
  · rw [xor_two_pow_of_ge _ _ (by omega) (by omega)]

theorem toUnsignedBits_cast (T : IntegerType) (v : Int) :
    ((toUnsignedBits T v : Nat) : Int) = v % 2 ^ T.bits := by
  unfold toUnsignedBits
  exact Int.toNat_of_nonneg (Int.emod_nonneg _ (by positivity))

theorem transposeTo_eq (T : IntegerType) (hW : 0 < T.bits) (v : Int) (hv : T.Holds v) :
    (transposeTo T v : Int) = v + T.offset := by
  have h2 := two_pow_pred_double T.bits hW
  have h3 : ((2 : Int) ^ (T.bits - 1)) + 2 ^ (T.bits - 1) = 2 ^ T.bits := by exact_mod_cast h2
  have hp : (0 : Int) < 2 ^ (T.bits - 1) := by positivity
  have hc := toUnsignedBits_cast T v
  have hlt : toUnsignedBits T v < 2 ^ T.bits := by
    have := Int.emod_lt_of_pos v (show (0 : Int) < 2 ^ T.bits by positivity)
    rw [← hc] at this
    exact_mod_cast this
  unfold IntegerType.Holds IntegerType.minValue IntegerType.maxValue at hv
  unfold transposeTo transposeToNaturalOrder IntegerType.offset
  cases hs : T.isSigned
  · simp only [hs, Bool.false_eq_true, if_false] at hv ⊢
    rw [hc, Int.emod_eq_of_lt hv.1 (by omega)]
    omega
  · simp only [hs, if_true] at hv ⊢
    rw [xor_sign_bit _ _ hW hlt]
    by_cases hneg : v < 0
    · have e : v % 2 ^ T.bits = v + 2 ^ T.bits := by
        rw [← Int.add_emod_self, Int.emod_eq_of_lt (by omega) (by omega)]
      rw [e] at hc
      have hge : ¬ toUnsignedBits T v < 2 ^ (T.bits - 1) := by
        intro hcon
        have : ((toUnsignedBits T v : Nat) : Int) < 2 ^ (T.bits - 1) := by exact_mod_cast hcon
        omega
      rw [if_neg hge, Nat.cast_sub (by omega)]
      push_cast
      omega
    · have e : v % 2 ^ T.bits = v := Int.emod_eq_of_lt (by omega) (by omega)
      rw [e] at hc
      have hl : toUnsignedBits T v < 2 ^ (T.bits - 1) := by
        have : ((toUnsignedBits T v : Nat) : Int) < 2 ^ (T.bits - 1) := by omega
        exact_mod_cast this
      rw [if_pos hl]
      push_cast
      omega

theorem transposeTo_lt (T : IntegerType) (hW : 0 < T.bits) (v : Int) (hv : T.Holds v) :
    transposeTo T v < 2 ^ T.bits := by
  have h := transposeTo_eq T hW v hv
  have h2 := (holds_iff T hW v).1 hv
  have : ((transposeTo T v : Nat) : Int) < 2 ^ T.bits := by omega
  exact_mod_cast this

theorem transposeBack_eq (T : IntegerType) (hW : 0 < T.bits) (u : Nat) (hu : u < 2 ^ T.bits) :
    transposeBack T u = (u : Int) - T.offset := by
  have h2 := two_pow_pred_double T.bits hW
  have h3 : ((2 : Int) ^ (T.bits - 1)) + 2 ^ (T.bits - 1) = 2 ^ T.bits := by exact_mod_cast h2
  unfold transposeBack fromUnsignedBits transposeToNaturalOrder IntegerType.offset
  cases hs : T.isSigned
  · simp
  · simp only [if_true, true_and]
    rw [xor_sign_bit _ _ hW hu]
    by_cases hl : u < 2 ^ (T.bits - 1)
    · rw [if_pos hl, if_pos (by omega)]
      push_cast
      omega
    · rw [if_neg hl, if_neg (by omega), Nat.cast_sub (by omega)]
      push_cast
      ring

theorem transposeBack_holds (T : IntegerType) (hW : 0 < T.bits) (u : Nat) (hu : u < 2 ^ T.bits) :
    T.Holds (transposeBack T u) := by
  rw [holds_iff T hW, transposeBack_eq T hW u hu]
  have : ((u : Nat) : Int) < 2 ^ T.bits := by exact_mod_cast hu
  omega

/-- The distance of an ordered range, as a count. -/
theorem computeDistance_eq (T : IntegerType) (hW : 0 < T.bits) (a b : Int)
    (ha : T.Holds a) (hb : T.Holds b) (hab : a ≤ b) :
    computeDistance T a b = ((b - a + 1) % 2 ^ T.bits).toNat := by
  have ea := transposeTo_eq T hW a ha
  have eb := transposeTo_eq T hW b hb
  have la := transposeTo_lt T hW a ha
  have lb := transposeTo_lt T hW b hb
  have hle : transposeTo T a ≤ transposeTo T b := by
    have : ((transposeTo T a : Nat) : Int) ≤ transposeTo T b := by omega
    exact_mod_cast this
  unfold computeDistance uadd usub
  generalize transposeTo T a = x at *
  generalize transposeTo T b = y at *
  have e1 : (y + 2 ^ T.bits - x) % 2 ^ T.bits = y - x := by
    rw [show y + 2 ^ T.bits - x = (y - x) + 2 ^ T.bits by omega, Nat.add_mod_right,
      Nat.mod_eq_of_lt (by omega)]
  rw [e1]
  have e2 : b - a + 1 = ((y - x + 1 : Nat) : Int) := by
    push_cast [Nat.cast_sub hle]
    omega
  rw [e2]
  norm_cast

/-! ## The rejection loop -/

theorem rejectionLoop_eq (W : Nat) (mult : Nat → ext_mul_result) (t : Nat) (g : Generator)
    (e : ext_mul_result) :
    rejectionLoop W mult t g e = if e.lower < t then firstAccept W mult t g else .ok (e, g) := by
  induction g generalizing e with
  | nil => simp [rejectionLoop, firstAccept]
  | cons r rest ih =>
    simp only [rejectionLoop, firstAccept]
    rw [ih]

theorem reuse_call_eq (T : IntegerType) (s : lemire_algorithm_reuse.State) (g : Generator)
    (hd : s.m_ab_distance ≠ 0) :
    lemire_algorithm_reuse.call T s g =
      lemireResult T.bits (fun r => extendedMult T.bits r s.m_ab_distance) s.m_rejection_threshold
        s.m_a (transposeBack T) g := by
  unfold lemire_algorithm_reuse.call lemireResult
  rw [if_neg hd]
  cases g with
  | nil => rfl
  | cons r rest =>
    simp only [fillBitsFrom, bind, Except.bind, rejectionLoop_eq, firstAccept, pure, Except.pure]
    by_cases h1 : (extendedMult T.bits (r % 2 ^ T.bits) s.m_ab_distance).lower
        < s.m_rejection_threshold
    · simp only [h1, if_true]
      rcases firstAccept T.bits (fun r => extendedMult T.bits r s.m_ab_distance)
        s.m_rejection_threshold rest with e | ⟨v, g1⟩ <;> rfl
    · simp only [h1, if_false]

theorem no_reuse_call_eq (T : IntegerType) (s : lemire_algorithm_no_reuse.State) (g : Generator)
    (d t : Nat) (hd : computeDistance T s.m_a s.m_b = d) (hd0 : d ≠ 0) 
    (ht : uadd T.bits (unot T.bits d) 1 % d = t) (htd : t ≤ d) :
    lemire_algorithm_no_reuse.call T s g =
      lemireResult T.bits (fun r => extendedMult T.bits r d) t
        (toUnsignedBits T s.m_a) (transposeBack T) g := by
  unfold lemire_algorithm_no_reuse.call lemireResult
  rw [hd, if_neg hd0]
  cases g with
  | nil => rfl
  | cons r rest =>
    simp only [fillBitsFrom, bind, Except.bind, rejectionLoop_eq, firstAccept, pure, Except.pure,
      lemire_algorithm_no_reuse.computeRejectionThreshold, umod, if_neg hd0, ht]
    by_cases h1 : (extendedMult T.bits (r % 2 ^ T.bits) d).lower < t
    · have h2 : (extendedMult T.bits (r % 2 ^ T.bits) d).lower < d := by omega
      simp only [h1, h2, if_true]
      rcases firstAccept T.bits (fun r => extendedMult T.bits r d) t rest with e | ⟨v, g1⟩ <;> rfl
    · simp only [h1, if_false]
      split <;> rfl

/-- The draws consumed by a successful search: rejected ones, then the accepted one. -/
theorem firstAccept_ok (W : Nat) (mult : Nat → ext_mul_result) (t : Nat) (g g1 : Generator)
    (e : ext_mul_result) (h : firstAccept W mult t g = .ok (e, g1)) :
    ∃ pre r, g = pre ++ r :: g1 ∧ (∀ x ∈ pre, (mult (x % 2 ^ W)).lower < t) ∧
      ¬ (mult (r % 2 ^ W)).lower < t ∧ e = mult (r % 2 ^ W) := by
  induction g with
  | nil => simp [firstAccept] at h
  | cons y rest ih =>
    simp only [firstAccept] at h
    by_cases hy : (mult (y % 2 ^ W)).lower < t
    · rw [if_pos hy] at h
      obtain ⟨pre, r, hg, hpre, hr, he⟩ := ih h
      refine ⟨y :: pre, r, by rw [hg]; rfl, ?_, hr, he⟩
      intro x hx
      rcases List.mem_cons.1 hx with rfl | hx
      · exact hy
      · exact hpre x hx
    · rw [if_neg hy] at h
      simp only [Except.ok.injEq, Prod.mk.injEq] at h
      exact ⟨[], y, by rw [← h.2]; rfl, by simp, hy, h.1.symm⟩

/-- Rejected draws followed by an accepted one make the search succeed. -/
theorem firstAccept_of_prefix (W : Nat) (mult : Nat → ext_mul_result) (t : Nat)
    (pre : List Nat) (r : Nat) (g1 : Generator)
    (hpre : ∀ x ∈ pre, (mult (x % 2 ^ W)).lower < t) (hr : ¬ (mult (r % 2 ^ W)).lower < t) :
    firstAccept W mult t (pre ++ r :: g1) = .ok (mult (r % 2 ^ W), g1) := by
  induction pre with
  | nil => simp [firstAccept, hr]
  | cons y pre ih =>
    have hy := hpre y (List.mem_cons_self _ _)
    simp only [List.cons_append, firstAccept, if_pos hy]
    exact ih (fun x hx => hpre x (List.mem_cons_of_mem _ hx))

theorem lemireResult_ok {α : Type} (W : Nat) (mult : Nat → ext_mul_result) (t m_a : Nat)
    (back : Nat → α) (g g1 : Generator) (res : α)
    (h : lemireResult W mult t m_a back g = .ok (res, g1)) :
    ∃ pre r, g = pre ++ r :: g1 ∧ (∀ x ∈ pre, (mult (x % 2 ^ W)).lower < t) ∧
      ¬ (mult (r % 2 ^ W)).lower < t ∧ res = back (uadd W m_a (mult (r % 2 ^ W)).upper) := by
  unfold lemireResult at h
  cases hfa : firstAccept W mult t g with
  | error e => rw [hfa] at h; simp at h
  | ok v =>
    rcases v with ⟨e, g2⟩
    rw [hfa] at h
    simp only [Except.ok.injEq, Prod.mk.injEq] at h
    obtain ⟨h1, h2⟩ := h
    subst h2
    obtain ⟨pre, r, hg, hpre, hr, he⟩ := firstAccept_ok W mult t g g2 e hfa
    exact ⟨pre, r, hg, hpre, hr, by rw [← h1, he]⟩

/-- The high word of `r * d` is a valid offset and the two words denote the product. -/
theorem extendedMult_upper_lt (W r d : Nat) (hr : r < 2 ^ W) (hd0 : 0 < d) :
    (extendedMult W r d).upper < d := by
  unfold extendedMult
  simp only
  rw [Nat.div_lt_iff_lt_mul (Nat.two_pow_pos W)]
  calc r * d < 2 ^ W * d := Nat.mul_lt_mul_of_pos_right hr hd0
    _ = d * 2 ^ W := Nat.mul_comm _ _

theorem extendedMult_lower_lt (W r d : Nat) : (extendedMult W r d).lower < 2 ^ W :=
  Nat.mod_lt _ (Nat.two_pow_pos W)

/-- Each backend computes the exact product: it agrees with the double-width model. -/
theorem Mult_eq_extendedMult (M : MultImplementation) (x y : Nat) (hx : x < 2 ^ 64)
    (hy : y < 2 ^ 64) : M.Mult x y = extendedMult 64 x y := by
  have key : ∀ e : ext_mul_result, (e.upper * 2 ^ 64 + e.lower = x * y ∧ e.upper < 2 ^ 64 ∧
      e.lower < 2 ^ 64) → e = extendedMult 64 x y := by
    intro e he
    have h1 : (extendedMult 64 x y).upper * 2 ^ 64 + (extendedMult 64 x y).lower = x * y := by
      unfold extendedMult
      simp only
      rw [Nat.mul_comm]
      exact Nat.div_add_mod _ _
    have h2 := words_unique 64 _ _ _ _ he.2.2 (extendedMult_lower_lt 64 x y) (he.1.trans h1.symm)
    cases e
    cases h3 : extendedMult 64 x y
    rw [h3] at h2
    simp only at h2
    rw [h2.1, h2.2]
  cases M
  · exact key _ (ext_mul_naive_exact x y hx hy)
  · exact key _ (ext_mul_optimized_exact x y hx hy)
  · exact key _ (ext_mul_intrinsic_exact x y hx hy)

/-! ## Counting accepted draws -/

theorem ceil_div_le_iff (B d r : Nat) (hd : 0 < d) : (B + d - 1) / d ≤ r ↔ B ≤ r * d := by
  rw [← Nat.lt_succ_iff, Nat.div_lt_iff_lt_mul hd, Nat.succ_mul]
  omega

/-- Lemire's counting argument over an arbitrary modulus `M`: the multiples
`r * d` that fall in the accepted part of the `k`-th block of length `M` come
from `M / d` consecutive values of `r`. -/
theorem accepted_card_aux (M d k : Nat) (hM : 0 < M) (hd0 : 0 < d) (hk : k < d) :
    ((Finset.range M).filter (fun r => M % d ≤ (r * d) % M ∧ (r * d) / M = k)).card
      = M / d := by
  have hdm : d * (M / d) + M % d = M := Nat.div_add_mod M d
  have hset : (Finset.range M).filter (fun r => M % d ≤ (r * d) % M ∧ (r * d) / M = k) =
      Finset.Ico ((k * M + M % d + d - 1) / d) ((k * M + M % d + d - 1) / d + M / d) := by
    ext r
    have hlo := ceil_div_le_iff (k * M + M % d) d r hd0
    have hhi : r < (k * M + M % d + d - 1) / d + M / d ↔ r * d < k * M + M := by
      rw [← Nat.add_mul_div_right _ _ hd0, ← not_le,
        show k * M + M % d + d - 1 + M / d * d = (k * M + M) + d - 1 by
          rw [Nat.mul_comm (M / d) d]; omega,
        ceil_div_le_iff _ d r hd0, not_le]
    simp only [Finset.mem_filter, Finset.mem_range, Finset.mem_Ico, hlo, hhi]
    have hdiv := Nat.div_add_mod (r * d) M
    constructor
    · rintro ⟨_, h1, h2⟩
      have hlt := Nat.mod_lt (r * d) hM
      rw [h2, Nat.mul_comm M k] at hdiv
      constructor <;> omega
    · rintro ⟨h1, h2⟩
      have hq : r * d / M = k := Nat.div_eq_of_lt_le (by omega) (by rw [Nat.succ_mul]; omega)
      rw [hq, Nat.mul_comm M k] at hdiv
      refine ⟨?_, by omega, hq⟩
      have h3 : k * M + M ≤ d * M := by
        have : (k + 1) * M ≤ d * M := Nat.mul_le_mul_right M hk
        rw [Nat.succ_mul] at this
        exact this
      have h4 : r * d < M * d := by rw [Nat.mul_comm M d]; omega
      exact Nat.lt_of_mul_lt_mul_right h4
  rw [hset, Nat.card_Ico, Nat.add_sub_cancel_left]

theorem accepted_card (W d k : Nat) (hd0 : 0 < d) (hk : k < d) :
    ((Finset.range (2 ^ W)).filter (fun r =>
        2 ^ W % d ≤ (extendedMult W r d).lower ∧ (extendedMult W r d).upper = k)).card
      = 2 ^ W / d := by
  simp only [extendedMult]
  exact accepted_card_aux (2 ^ W) d k (Nat.two_pow_pos W) hd0 hk

/-! ## Distances and results -/

theorem bits_pos (T : IntegerType) (hW : T.bits = 32 ∨ T.bits = 64) : 0 < T.bits := by
  rcases hW with h | h <;> omega

/-- A non-zero distance is the number of values in the range. -/
theorem computeDistance_cast (T : IntegerType) (hW : 0 < T.bits) (a b : Int)
    (ha : T.Holds a) (hb : T.Holds b) (hab : a ≤ b) (hd : computeDistance T a b ≠ 0) :
    ((computeDistance T a b : Nat) : Int) = b - a + 1 := by
  have h := computeDistance_eq T hW a b ha hb hab
  have h1 := (holds_iff T hW a).1 ha
  have h2 := (holds_iff T hW b).1 hb
  have hp : (0 : Int) < 2 ^ T.bits := by positivity
  by_cases hfull : b - a + 1 = 2 ^ T.bits
  · rw [hfull, Int.emod_self] at h
    exact absurd h hd
  · rw [Int.emod_eq_of_lt (by omega) (by omega)] at h
    rw [h, Int.toNat_of_nonneg (by omega)]

theorem computeDistance_lt (T : IntegerType) (a b : Int) :
    computeDistance T a b < 2 ^ T.bits := by
  unfold computeDistance uadd
  exact Nat.mod_lt _ (Nat.two_pow_pos _)

/-- The value `transposeBack(m_a + upper)` of the reuse variants is `a + upper`. -/
theorem reuse_result_eq (T : IntegerType) (hW : 0 < T.bits) (a b : Int)
    (ha : T.Holds a) (hb : T.Holds b) (hab : a ≤ b) (hd : computeDistance T a b ≠ 0)
    (u : Nat) (hu : u < computeDistance T a b) :
    transposeBack T (uadd T.bits (transposeTo T a) u) = a + u := by
  have hc := computeDistance_cast T hW a b ha hb hab hd
  have h1 := (holds_iff T hW a).1 ha
  have h2 := (holds_iff T hW b).1 hb
  have ea := transposeTo_eq T hW a ha
  have hu' : ((u : Nat) : Int) < (computeDistance T a b : Nat) := by exact_mod_cast hu
  have hlt : transposeTo T a + u < 2 ^ T.bits := by
    have : ((transposeTo T a + u : Nat) : Int) < 2 ^ T.bits := by push_cast; omega
    exact_mod_cast this
  unfold uadd
  rw [Nat.mod_eq_of_lt hlt, transposeBack_eq T hW _ hlt]
  push_cast
  omega

theorem reuse_threshold (T : IntegerType) (d : Nat) (hd0 : d ≠ 0) (hd : d < 2 ^ T.bits) :
    lemire_algorithm_reuse.computeRejectionThreshold T d = .ok (2 ^ T.bits % d) := by
  unfold lemire_algorithm_reuse.computeRejectionThreshold
  rw [if_neg hd0, umod_pos _ _ (by omega), threshold_eq _ _ (by omega) hd]

/-! ## The lazy variant and consecutive calls -/

theorem lazy_threshold (T : IntegerType) (d : Nat) (hd0 : d ≠ 0) (hd : d < 2 ^ T.bits) :
    lemire_algorithm_lazy_reuse.computeRejectionThreshold T d = .ok (2 ^ T.bits % d) := by
  unfold lemire_algorithm_lazy_reuse.computeRejectionThreshold
  rw [if_neg hd0, umod_pos _ _ (by omega), threshold_eq _ _ (by omega) hd]

theorem lazy_call_eq (T : IntegerType) (sr : lemire_algorithm_reuse.State)
    (sl : lemire_algorithm_lazy_reuse.State) (g : Generator)
    (hagree : LazyAgrees T sr sl) (hd : sr.m_ab_distance < 2 ^ T.bits)
    (ht : sr.m_ab_distance ≠ 0 → sr.m_rejection_threshold = 2 ^ T.bits % sr.m_ab_distance) :
    (∀ e, lemire_algorithm_reuse.call T sr g = .error e →
        lemire_algorithm_lazy_reuse.call T sl g = .error e) ∧
      (∀ x g1, lemire_algorithm_reuse.call T sr g = .ok (x, g1) →
        ∃ sl1, LazyAgrees T sr sl1 ∧ lemire_algorithm_lazy_reuse.call T sl g = .ok (x, sl1, g1)) := by
  obtain ⟨ha, hdist, hthr⟩ := hagree
  by_cases hd0 : sr.m_ab_distance = 0
  · unfold lemire_algorithm_reuse.call lemire_algorithm_lazy_reuse.call
    rw [if_pos hd0, if_pos (hdist.trans hd0)]
    cases g with
    | nil => 
      simp [fillBitsFrom, bind, Except.bind]
    | cons r rest =>
      simp only [fillBitsFrom, bind, Except.bind, pure, Except.pure]
      refine ⟨by simp, ?_⟩
      intro x g1 h
      simp only [Except.ok.injEq, Prod.mk.injEq] at h
      exact ⟨sl, ⟨ha, hdist, hthr⟩, by rw [h.1, h.2]⟩
  · have htv := ht hd0
    have htlt : sr.m_rejection_threshold < sr.m_ab_distance := by
      rw [htv]; exact Nat.mod_lt _ (by omega)
    rw [reuse_call_eq T sr g hd0]
    unfold lemire_algorithm_lazy_reuse.call lemireResult
    rw [if_neg (by rw [hdist]; exact hd0), hdist, ha]
    cases g with
    | nil => simp [fillBitsFrom, bind, Except.bind, firstAccept]
    | cons r rest =>
      have hupd : (if sl.m_rejection_threshold = lemire_algorithm_lazy_reuse.NONE T then
            lemire_algorithm_lazy_reuse.computeRejectionThreshold T sr.m_ab_distance
          else pure sl.m_rejection_threshold) = Except.ok sr.m_rejection_threshold := by
        split
        · rw [lazy_threshold T _ hd0 hd, htv]
        · rcases hthr with h | h
          · contradiction
          · rw [h]; rfl
      rw [hupd]
      simp only [fillBitsFrom, bind, Except.bind, pure, Except.pure, rejectionLoop_eq, firstAccept]
      have hagree1 : LazyAgrees T sr
          (⟨sr.m_a, sr.m_ab_distance, sr.m_rejection_threshold⟩ :
            lemire_algorithm_lazy_reuse.State) := ⟨rfl, rfl, Or.inr rfl⟩
      by_cases h1 : (extendedMult T.bits (r % 2 ^ T.bits) sr.m_ab_distance).lower
          < sr.m_rejection_threshold
      · have h2 : (extendedMult T.bits (r % 2 ^ T.bits) sr.m_ab_distance).lower
            < sr.m_ab_distance := by omega
        simp only [h1, h2, if_true]
        rcases firstAccept T.bits (fun r => extendedMult T.bits r sr.m_ab_distance)
          sr.m_rejection_threshold rest with e | ⟨v, g2⟩
        · simp
        · refine ⟨by simp, ?_⟩
          intro x g1 h
          simp only [Except.ok.injEq, Prod.mk.injEq] at h
          exact ⟨_, hagree1, by rw [← h.1, ← h.2]⟩
      · simp only [h1, if_false]
        refine ⟨by simp, ?_⟩
        intro x g1 h
        simp only [Except.ok.injEq, Prod.mk.injEq] at h
        by_cases h2 : (extendedMult T.bits (r % 2 ^ T.bits) sr.m_ab_distance).lower
            < sr.m_ab_distance
        · simp only [h2, if_true]
          exact ⟨_, hagree1, by rw [← h.1, ← h.2]⟩
        · simp only [h2, if_false]
          exact ⟨sl, ⟨ha, hdist, hthr⟩, by rw [← h.1, ← h.2]⟩

theorem observed_consecutive_succ {σ α : Type}
    (call : σ → Generator → Except Fault (α × σ × Generator)) (n : Nat) (s : σ) (g : Generator) :
    observed (consecutive_calls call (n + 1) s g) =
      match call s g with
      | .error e => .error e
      | .ok (x, s1, g1) =>
          match observed (consecutive_calls call n s1 g1) with
          | .error e => .error e
          | .ok (xs, g2) => .ok (x :: xs, g2) := by
  simp only [consecutive_calls]
  rcases call s g with e | ⟨x, s1, g1⟩
  · rfl
  · simp only
    rcases consecutive_calls call n s1 g1 with e | ⟨xs, s2, g2⟩ <;> rfl

/-- Consecutive calls of the lazy variant are observed like those of the eager one. -/
theorem lazy_consecutive_eq (T : IntegerType) (sr : lemire_algorithm_reuse.State)
    (hd : sr.m_ab_distance < 2 ^ T.bits)
    (ht : sr.m_ab_distance ≠ 0 → sr.m_rejection_threshold = 2 ^ T.bits % sr.m_ab_distance)
    (n : Nat) (sl : lemire_algorithm_lazy_reuse.State) (g : Generator)
    (hagree : LazyAgrees T sr sl) :
    observed (consecutive_calls (lemire_algorithm_lazy_reuse.call T) n sl g) =
      observed (consecutive_calls (constCall (lemire_algorithm_reuse.call T)) n sr g) := by
  induction n generalizing sl g with
  | zero => rfl
  | succ n ih =>
    rw [observed_consecutive_succ, observed_consecutive_succ]
    obtain ⟨herr, hok⟩ := lazy_call_eq T sr sl g hagree hd ht
    cases hc : lemire_algorithm_reuse.call T sr g with
    | error e =>
      have e2 : constCall (lemire_algorithm_reuse.call T) sr g = .error e := by
        simp only [constCall, hc]
      rw [herr e hc, e2]
    | ok v =>
      rcases v with ⟨x, g1⟩
      obtain ⟨sl1, hag1, hl⟩ := hok x g1 hc
      have e2 : constCall (lemire_algorithm_reuse.call T) sr g = .ok (x, sr, g1) := by
        simp only [constCall, hc]
      rw [hl, e2]
      simp only
      rw [ih sl1 g1 hag1]

/-- Consecutive calls of two stateless distributions that agree call by call. -/
theorem const_consecutive_eq {σ τ α : Type} (c1 : σ → Generator → Except Fault (α × Generator))
    (c2 : τ → Generator → Except Fault (α × Generator)) (s1 : σ) (s2 : τ)
    (h : ∀ g, c1 s1 g = c2 s2 g) (n : Nat) (g : Generator) :
    observed (consecutive_calls (constCall c1) n s1 g) =
      observed (consecutive_calls (constCall c2) n s2 g) := by
  induction n generalizing g with
  | zero => rfl
  | succ n ih =>
    rw [observed_consecutive_succ, observed_consecutive_succ]
    cases hc : c2 s2 g with
    | error e =>
      have e1 : constCall c1 s1 g = .error e := by simp only [constCall, h, hc]
      have e2 : constCall c2 s2 g = .error e := by simp only [constCall, hc]
      rw [e1, e2]
    | ok v =>
      rcases v with ⟨x, g1⟩
      have e1 : constCall c1 s1 g = .ok (x, s1, g1) := by simp only [constCall, h, hc]
      have e2 : constCall c2 s2 g = .ok (x, s2, g1) := by simp only [constCall, hc]
      rw [e1, e2]
      simp only
      rw [ih g1]

theorem reuse_ctor_eq (T : IntegerType) (a b : Int) (hab : a ≤ b) :
    lemire_algorithm_reuse.ctor T a b =
      .ok { m_a := transposeTo T a, m_ab_distance := computeDistance T a b,
            m_rejection_threshold :=
              if computeDistance T a b = 0 then 0 else 2 ^ T.bits % computeDistance T a b } := by
  by_cases hd : computeDistance T a b = 0
  · simp only [lemire_algorithm_reuse.ctor, lemire_algorithm_reuse.computeRejectionThreshold, hd,
      hab, bind, Except.bind, pure, Except.pure, if_true]
  · simp only [lemire_algorithm_reuse.ctor, reuse_threshold T _ hd (computeDistance_lt T a b), hd,
      hab, bind, Except.bind, pure, Except.pure, if_true, if_false]

theorem consecutive_calls_length {σ α : Type}
    (call : σ → Generator → Except Fault (α × σ × Generator)) (n : Nat) (s : σ) (g : Generator)
    (xs : List α) (g1 : Generator) (h : observed (consecutive_calls call n s g) = .ok (xs, g1)) :
    xs.length = n := by
  induction n generalizing s g xs g1 with
  | zero =>
    simp only [consecutive_calls, observed, Except.ok.injEq, Prod.mk.injEq] at h
    rw [← h.1]; rfl
  | succ n ih =>
    rw [observed_consecutive_succ] at h
    rcases hc : call s g with e | ⟨x, s1, g2⟩
    · rw [hc] at h; simp at h
    · rw [hc] at h
      simp only at h
      rcases ho : observed (consecutive_calls call n s1 g2) with e | ⟨ys, g3⟩
      · rw [ho] at h; simp at h
      · rw [ho] at h
        simp only [Except.ok.injEq, Prod.mk.injEq] at h
        rw [← h.1, List.length_cons, ih s1 g2 ys g3 ho]

/-- On an unsigned type the no-reuse call agrees with the reuse call. -/
theorem unsigned_no_reuse_call_eq (T : IntegerType) (hs : T.isSigned = false) (a b : Int)
    (g : Generator) :
    lemire_algorithm_no_reuse.call T { m_a := a, m_b := b } g =
      lemire_algorithm_reuse.call T
        { m_a := transposeTo T a, m_ab_distance := computeDistance T a b,
          m_rejection_threshold :=
            if computeDistance T a b = 0 then 0 else 2 ^ T.bits % computeDistance T a b } g := by
  by_cases hd : computeDistance T a b = 0
  · unfold lemire_algorithm_no_reuse.call lemire_algorithm_reuse.call
    simp only
    rw [if_pos hd, if_pos hd]
  · have hlt := computeDistance_lt T a b
    rw [reuse_call_eq T
        { m_a := transposeTo T a, m_ab_distance := computeDistance T a b,
          m_rejection_threshold :=
            if computeDistance T a b = 0 then 0 else 2 ^ T.bits % computeDistance T a b } g hd,
      no_reuse_call_eq T { m_a := a, m_b := b } g (computeDistance T a b)
        (2 ^ T.bits % computeDistance T a b) rfl hd
        (threshold_eq _ _ (by omega) hlt) (le_of_lt (Nat.mod_lt _ (by omega)))]
    simp only [hd, if_false]
    have : transposeTo T a = toUnsignedBits T a := by
      unfold transposeTo transposeToNaturalOrder
      simp [hs]
    rw [this]

/-! ## The templated classes -/

theorem firstAccept_congr (W : Nat) (m1 m2 : Nat → ext_mul_result) (t : Nat)
    (h : ∀ x, x < 2 ^ W → m1 x = m2 x) (g : Generator) :
    firstAccept W m1 t g = firstAccept W m2 t g := by
  induction g with
  | nil => rfl
  | cons r rest ih =>
    simp only [firstAccept]
    rw [h _ (Nat.mod_lt _ (Nat.two_pow_pos W)), ih]

theorem templated_distance (a b : Nat) (hab : a ≤ b) :
    uadd 64 (usub 64 b a) 1 = (b - a + 1) % 2 ^ 64 := by
  unfold uadd usub
  omega

theorem templated_distance_pos (a b : Nat) (hab : a ≤ b) (hb : b < 2 ^ 64)
    (hd : uadd 64 (usub 64 b a) 1 ≠ 0) : uadd 64 (usub 64 b a) 1 = b - a + 1 := by
  rw [templated_distance a b hab] at hd ⊢
  omega

/-- A call of `lemire_plain_templated_mult` with a non-zero distance. -/
theorem plain_templated_call_eq (M : MultImplementation)
    (s : lemire_plain_templated_mult.State) (g : Generator) (d : Nat)
    (hd : lemire_plain_templated_mult.computeDistance s.m_a s.m_b = d) (hd0 : d ≠ 0)
    (hdlt : d < 2 ^ 64) :
    lemire_plain_templated_mult.call M s g =
      lemireResult 64 (fun r => extendedMult 64 r d) (2 ^ 64 % d) s.m_a id g := by
  have hcongr := firstAccept_congr 64 (fun r => M.Mult r d) (fun r => extendedMult 64 r d)
    (2 ^ 64 % d) (fun x hx => Mult_eq_extendedMult M x d hx hdlt)
  have ht : 2 ^ 64 % d < d := Nat.mod_lt _ (by omega)
  unfold lemire_plain_templated_mult.call lemireResult
  rw [hd, if_neg hd0]
  cases g with
  | nil => rfl
  | cons r rest =>
    simp only [fillBitsFrom, bind, Except.bind, rejectionLoop_eq, firstAccept, pure, Except.pure,
      lemire_plain_templated_mult.computeRejectionThreshold, umod, if_neg hd0,
      threshold_eq 64 d (by omega) hdlt, hcongr,
      Mult_eq_extendedMult M (r % 2 ^ 64) d (Nat.mod_lt _ (by norm_num)) hdlt, id]
    by_cases h1 : (extendedMult 64 (r % 2 ^ 64) d).lower < 2 ^ 64 % d
    · have h2 : (extendedMult 64 (r % 2 ^ 64) d).lower < d := by omega
      simp only [h1, h2, if_true]
      rcases firstAccept 64 (fun r => extendedMult 64 r d) (2 ^ 64 % d) rest with e | ⟨v, g1⟩ <;> rfl
    · simp only [h1, if_false]
      split <;> rfl

/-- A call of `lemire_reuse_templated_mult` with a non-zero distance. -/
theorem reuse_templated_call_eq (M : MultImplementation)
    (s : lemire_reuse_templated_mult.State) (g : Generator)
    (hd0 : s.m_ab_distance ≠ 0) (hdlt : s.m_ab_distance < 2 ^ 64) :
    lemire_reuse_templated_mult.call M s g =
      lemireResult 64 (fun r => extendedMult 64 r s.m_ab_distance) s.m_threshold s.m_a id g := by
  have hcongr := firstAccept_congr 64 (fun r => M.Mult r s.m_ab_distance)
    (fun r => extendedMult 64 r s.m_ab_distance)
    s.m_threshold (fun x hx => Mult_eq_extendedMult M x s.m_ab_distance hx hdlt)
  unfold lemire_reuse_templated_mult.call lemireResult
  rw [if_neg hd0]
  cases g with
  | nil => rfl
  | cons r rest =>
    simp only [fillBitsFrom, bind, Except.bind, rejectionLoop_eq, firstAccept, pure, Except.pure,
      hcongr, Mult_eq_extendedMult M (r % 2 ^ 64) s.m_ab_distance (Nat.mod_lt _ (by norm_num)) hdlt,
      id]
    by_cases h1 : (extendedMult 64 (r % 2 ^ 64) s.m_ab_distance).lower < s.m_threshold
    · simp only [h1, if_true]
      rcases firstAccept 64 (fun r => extendedMult 64 r s.m_ab_distance) s.m_threshold rest
        with e | ⟨v, g1⟩ <;> rfl
    · simp only [h1, if_false]

theorem reuse_templated_ctor_eq (a b : Nat) (hab : a ≤ b)
    (hd0 : lemire_reuse_templated_mult.computeDistance a b ≠ 0) :
    lemire_reuse_templated_mult.ctor a b =
      .ok { m_a := a, m_ab_distance := lemire_reuse_templated_mult.computeDistance a b,
            m_threshold := 2 ^ 64 % lemire_reuse_templated_mult.computeDistance a b } := by
  have hlt : lemire_reuse_templated_mult.computeDistance a b < 2 ^ 64 := by
    unfold lemire_reuse_templated_mult.computeDistance uadd
    exact Nat.mod_lt _ (by norm_num)
  simp only [lemire_reuse_templated_mult.ctor, lemire_reuse_templated_mult.computeRejectionThreshold,
    umod, if_neg hd0, threshold_eq 64 _ (Nat.pos_of_ne_zero hd0) hlt, hab, bind, Except.bind, pure,
    Except.pure, if_true]

/-- A Lemire result over the unsigned 64-bit domain lies in the range. -/
theorem lemireResult_range (a b d t : Nat) (hab : a ≤ b) (hb : b < 2 ^ 64)
    (hd : d = b - a + 1) (g g1 : Generator) (res : Nat)
    (h : lemireResult 64 (fun r => extendedMult 64 r d) t a id g = .ok (res, g1)) :
    a ≤ res ∧ res ≤ b ∧
      ∃ pre r, g = pre ++ r :: g1 ∧ a + (extendedMult 64 (r % 2 ^ 64) d).upper < 2 ^ 64 ∧
        res = a + (extendedMult 64 (r % 2 ^ 64) d).upper := by
  obtain ⟨pre, r, hg, _, _, hres⟩ := lemireResult_ok 64 _ t a id g g1 res h
  have hu := extendedMult_upper_lt 64 (r % 2 ^ 64) d (Nat.mod_lt _ (by norm_num)) (by omega)
  simp only [id, uadd] at hres
  rw [Nat.mod_eq_of_lt (by omega)] at hres
  exact ⟨by omega, by omega, pre, r, hg, by omega, hres⟩

/-! ## The degenerate range -/

theorem unit_distance (a : Nat) (_ha : a < 2 ^ 64) : uadd 64 (usub 64 a a) 1 = 1 := by
  unfold uadd usub
  omega

theorem javaLoop_unit (g : Generator) (x : Nat) (_hx : x < 2 ^ 64) :
    javaLoop 1 g x 0 = .ok (0, g) := by
  have h : ¬ usub 64 x 0 > uneg 64 1 := by
    unfold usub uneg
    omega
  cases g <;> simp only [javaLoop, if_neg h]

theorem openBSDLoop_zero (g : Generator) (x : Nat) : openBSDLoop 0 g x = .ok (x, g) := by
  cases g <;> simp only [openBSDLoop, Nat.not_lt_zero, if_false]

theorem uadd_zero (a : Nat) (ha : a < 2 ^ 64) : uadd 64 a 0 = a := by
  unfold uadd
  omega

theorem lemireResult_unit (a : Nat) (ha : a < 2 ^ 64) (r : Nat) (g : Generator) :
    lemireResult 64 (fun r => extendedMult 64 r 1) 0 a id (r :: g) = .ok (a, g) := by
  have hu : (extendedMult 64 (r % 2 ^ 64) 1).upper = 0 := by
    unfold extendedMult
    simp only [Nat.mul_one]
    exact Nat.div_eq_of_lt (Nat.mod_lt _ (by norm_num))
  simp only [lemireResult, firstAccept, Nat.not_lt_zero, if_false, hu, id, uadd_zero a ha]

/-! ## The full-width range -/

theorem minValue_holds (T : IntegerType) (hW : 0 < T.bits) : T.Holds T.minValue := by
  have h2 := two_pow_pred_double T.bits hW
  have h3 : ((2 : Int) ^ (T.bits - 1)) + 2 ^ (T.bits - 1) = 2 ^ T.bits := by exact_mod_cast h2
  have hp : (0 : Int) < 2 ^ (T.bits - 1) := by positivity
  unfold IntegerType.Holds IntegerType.minValue IntegerType.maxValue
  cases T.isSigned <;> simp <;> omega

theorem maxValue_holds (T : IntegerType) (hW : 0 < T.bits) : T.Holds T.maxValue := by
  have h2 := two_pow_pred_double T.bits hW
  have h3 : ((2 : Int) ^ (T.bits - 1)) + 2 ^ (T.bits - 1) = 2 ^ T.bits := by exact_mod_cast h2
  have hp : (0 : Int) < 2 ^ (T.bits - 1) := by positivity
  unfold IntegerType.Holds IntegerType.minValue IntegerType.maxValue
  cases T.isSigned <;> simp <;> omega

theorem max_sub_min (T : IntegerType) (hW : 0 < T.bits) :
    T.maxValue - T.minValue + 1 = 2 ^ T.bits := by
  have h2 := two_pow_pred_double T.bits hW
  have h3 : ((2 : Int) ^ (T.bits - 1)) + 2 ^ (T.bits - 1) = 2 ^ T.bits := by exact_mod_cast h2
  unfold IntegerType.minValue IntegerType.maxValue
  cases T.isSigned <;> simp
  omega

theorem full_distance (T : IntegerType) (hW : 0 < T.bits) :
    computeDistance T T.minValue T.maxValue = 0 := by
  have hp : (0 : Int) < 2 ^ T.bits := by positivity
  have hm := max_sub_min T hW
  rw [computeDistance_eq T hW _ _ (minValue_holds T hW) (maxValue_holds T hW) (by omega), hm,
    Int.emod_self]
  rfl

/-- The map `transposeBack` is a bijection from `W`-bit patterns to the values of the type. -/
theorem transposeBack_bijective (T : IntegerType) (hW : 0 < T.bits) (v : Int) (hv : T.Holds v) :
    ∃! r, r < 2 ^ T.bits ∧ transposeBack T r = v := by
  have h1 := (holds_iff T hW v).1 hv
  have hlt : (v + T.offset).toNat < 2 ^ T.bits := by
    have : (((v + T.offset).toNat : Nat) : Int) < 2 ^ T.bits := by
      rw [Int.toNat_of_nonneg h1.1]; exact h1.2
    exact_mod_cast this
  refine ⟨(v + T.offset).toNat, ⟨hlt, ?_⟩, ?_⟩
  · rw [transposeBack_eq T hW _ hlt, Int.toNat_of_nonneg h1.1]
    ring
  · rintro r ⟨hr, hrv⟩
    rw [transposeBack_eq T hW _ hr] at hrv
    have : ((r : Nat) : Int) = v + T.offset := by omega
    rw [← this, Int.toNat_ofNat]

/-! ## The no-reuse variant on signed types -/

/-- On a signed type with a non-zero distance, the no-reuse call consumes the
same draws as the reuse call but returns a value shifted by `2^(W-1)`. -/
theorem no_reuse_signed_call_shifted (T : IntegerType) (hs : T.isSigned = true)
    (hW : 0 < T.bits) (a b : Int) (ha : T.Holds a) (hb : T.Holds b) (hab : a ≤ b)
    (hd : computeDistance T a b ≠ 0) (g : Generator) :
    (∀ e, lemire_algorithm_reuse.call T
          { m_a := transposeTo T a, m_ab_distance := computeDistance T a b,
            m_rejection_threshold := 2 ^ T.bits % computeDistance T a b } g = .error e →
        lemire_algorithm_no_reuse.call T { m_a := a, m_b := b } g = .error e) ∧
      (∀ res g1, lemire_algorithm_reuse.call T
          { m_a := transposeTo T a, m_ab_distance := computeDistance T a b,
            m_rejection_threshold := 2 ^ T.bits % computeDistance T a b } g = .ok (res, g1) →
        ∃ res2, lemire_algorithm_no_reuse.call T { m_a := a, m_b := b } g = .ok (res2, g1) ∧
          res2 ≠ res ∧ (res2 = res + 2 ^ (T.bits - 1) ∨ res2 = res - 2 ^ (T.bits - 1))) := by
  have hlt := computeDistance_lt T a b
  rw [reuse_call_eq T
      { m_a := transposeTo T a, m_ab_distance := computeDistance T a b,
        m_rejection_threshold := 2 ^ T.bits % computeDistance T a b } g hd,
    no_reuse_call_eq T { m_a := a, m_b := b } g (computeDistance T a b)
      (2 ^ T.bits % computeDistance T a b) rfl hd
      (threshold_eq _ _ (by omega) hlt) (le_of_lt (Nat.mod_lt _ (by omega)))]
  unfold lemireResult
  cases hfa : firstAccept T.bits (fun r => extendedMult T.bits r (computeDistance T a b))
      (2 ^ T.bits % computeDistance T a b) g with
  | error e => simp
  | ok v =>
    rcases v with ⟨emul, g2⟩
    obtain ⟨pre, r, _, _, _, he⟩ := firstAccept_ok _ _ _ g g2 emul hfa
    have hu := extendedMult_upper_lt T.bits (r % 2 ^ T.bits) (computeDistance T a b)
      (Nat.mod_lt _ (Nat.two_pow_pos _)) (Nat.pos_of_ne_zero hd)
    rw [← he] at hu
    refine ⟨by simp, ?_⟩
    intro res g1 h
    simp only [Except.ok.injEq, Prod.mk.injEq] at h
    obtain ⟨h1, h2⟩ := h
    subst h2
    rw [reuse_result_eq T hW a b ha hb hab hd _ hu] at h1
    refine ⟨_, rfl, ?_⟩
    have h2 := two_pow_pred_double T.bits hW
    have h3 : ((2 : Int) ^ (T.bits - 1)) + 2 ^ (T.bits - 1) = 2 ^ T.bits := by exact_mod_cast h2
    have hp : (0 : Int) < 2 ^ (T.bits - 1) := by positivity
    have hc := computeDistance_cast T hW a b ha hb hab hd
    have hua := toUnsignedBits_cast T a
    have hr1 := (holds_iff T hW a).1 ha
    have hr2 := (holds_iff T hW b).1 hb
    have hoff : T.offset = 2 ^ (T.bits - 1) := by unfold IntegerType.offset; simp [hs]
    rw [hoff] at hr1 hr2
    have hu' : ((emul.upper : Nat) : Int) < (computeDistance T a b : Nat) := by exact_mod_cast hu
    have hmodlt : uadd T.bits (toUnsignedBits T a) emul.upper < 2 ^ T.bits :=
      Nat.mod_lt _ (Nat.two_pow_pos _)
    have hback := transposeBack_eq T hW _ hmodlt
    rw [hoff] at hback
    have hsum : ((uadd T.bits (toUnsignedBits T a) emul.upper : Nat) : Int)
        = (a + emul.upper) % 2 ^ T.bits := by
      unfold uadd
      push_cast
      rw [hua, Int.emod_add_emod]
    rw [hback, hsum, ← h1]
    by_cases hneg : a + (emul.upper : Int) < 0
    · have e : (a + (emul.upper : Int)) % 2 ^ T.bits = a + emul.upper + 2 ^ T.bits := by
        rw [← Int.add_emod_self, Int.emod_eq_of_lt (by omega) (by omega)]
      rw [e]
      constructor
      · omega
      · left; omega
    · have e : (a + (emul.upper : Int)) % 2 ^ T.bits = a + emul.upper :=
        Int.emod_eq_of_lt (by omega) (by omega)
      rw [e]
      constructor
      · omega
      · right; omega

/-! ## Thresholds, distances and the transposition round trip -/

theorem no_reuse_threshold (T : IntegerType) (d : Nat) (hd0 : d ≠ 0) (hd : d < 2 ^ T.bits) :
    lemire_algorithm_no_reuse.computeRejectionThreshold T d = .ok (2 ^ T.bits % d) := by
  unfold lemire_algorithm_no_reuse.computeRejectionThreshold
  rw [umod_pos _ _ (by omega), threshold_eq _ _ (by omega) hd]

theorem templated_threshold (d : Nat) (hd0 : d ≠ 0) (hd : d < 2 ^ 64) :
    lemire_plain_templated_mult.computeRejectionThreshold d = .ok (2 ^ 64 % d) ∧
      lemire_reuse_templated_mult.computeRejectionThreshold d = .ok (2 ^ 64 % d) := by
  unfold lemire_plain_templated_mult.computeRejectionThreshold
    lemire_reuse_templated_mult.computeRejectionThreshold
  rw [umod_pos _ _ (by omega), threshold_eq _ _ (by omega) hd]
  exact ⟨rfl, rfl⟩

/-- The distance is zero exactly on the full range of the type. -/
theorem computeDistance_eq_zero_iff (T : IntegerType) (hW : 0 < T.bits) (a b : Int)
    (ha : T.Holds a) (hb : T.Holds b) (hab : a ≤ b) :
    computeDistance T a b = 0 ↔ a = T.minValue ∧ b = T.maxValue := by
  have hde := computeDistance_eq T hW a b ha hb hab
  have hp : (0 : Int) < 2 ^ T.bits := by positivity
  have hm := max_sub_min T hW
  have h1 := ha.1
  have h2 := hb.2
  constructor
  · intro hd
    have hfull : b - a + 1 = 2 ^ T.bits := by
      by_contra hne
      have hlt : b - a + 1 < 2 ^ T.bits := by
        have := ha.1; have := hb.2; omega
      rw [Int.emod_eq_of_lt (by omega) hlt, hd] at hde
      have := Int.toNat_of_nonneg (show 0 ≤ b - a + 1 by omega)
      omega
    constructor <;> omega
  · rintro ⟨rfl, rfl⟩
    exact full_distance T hW

theorem templated_distance_eq_zero_iff (x y : Nat) (hxy : x ≤ y) (hy : y < 2 ^ 64) :
    uadd 64 (usub 64 y x) 1 = 0 ↔ x = 0 ∧ y = 2 ^ 64 - 1 := by
  rw [templated_distance x y hxy]
  omega

theorem offset_signed (T : IntegerType) (hs : T.isSigned = true) :
    T.offset = 2 ^ (T.bits - 1) := by
  unfold IntegerType.offset
  simp [hs]

theorem offset_unsigned (T : IntegerType) (hs : T.isSigned = false) : T.offset = 0 := by
  unfold IntegerType.offset
  simp [hs]

/-! ## Backend independence -/

/-- With a non-zero distance the two templated classes agree call by call,
whatever their backends. -/
theorem templated_call_independent (M M2 : MultImplementation) (a b : Nat) (hab : a ≤ b)
    (hb : b < 2 ^ 64) (hd : lemire_plain_templated_mult.computeDistance a b ≠ 0)
    (g : Generator) :
    lemire_plain_templated_mult.call M { m_a := a, m_b := b } g =
        lemireResult 64 (fun r => extendedMult 64 r (b - a + 1)) (2 ^ 64 % (b - a + 1)) a id g ∧
      lemire_reuse_templated_mult.call M2
          { m_a := a, m_ab_distance := b - a + 1, m_threshold := 2 ^ 64 % (b - a + 1) } g =
        lemireResult 64 (fun r => extendedMult 64 r (b - a + 1)) (2 ^ 64 % (b - a + 1)) a id g := by
  have hdv : lemire_plain_templated_mult.computeDistance a b = b - a + 1 :=
    templated_distance_pos a b hab hb hd
  have hdlt : b - a + 1 < 2 ^ 64 := by
    rw [← hdv]
    unfold lemire_plain_templated_mult.computeDistance uadd
    exact Nat.mod_lt _ (by norm_num)
  exact ⟨plain_templated_call_eq M _ g (b - a + 1) hdv (by omega) hdlt,
    reuse_templated_call_eq M2
      { m_a := a, m_ab_distance := b - a + 1, m_threshold := 2 ^ 64 % (b - a + 1) } g
      (by simp) hdlt⟩

/-! ## The comparator classes -/

/-- The Java-style loop only ever returns a residue modulo the distance. -/
theorem javaLoop_lt (d : Nat) (hd : d ≠ 0) (g : Generator) (x r : Nat) (hr : r < d)
    (r1 : Nat) (g1 : Generator) (h : javaLoop d g x r = .ok (r1, g1)) : r1 < d := by
  induction g generalizing x r with
  | nil =>
    simp only [javaLoop] at h
    split at h
    · simp at h
    · simp only [Except.ok.injEq, Prod.mk.injEq] at h
      omega
  | cons y rest ih =>
    simp only [javaLoop, umod, if_neg hd] at h
    split at h
    · exact ih _ _ (Nat.mod_lt _ (Nat.pos_of_ne_zero hd)) h
    · simp only [Except.ok.injEq, Prod.mk.injEq] at h
      omega

/-- A result of `java_plain` or `java_reuse` is `m_a` plus a residue. -/
theorem java_call_result (a d : Nat) (hd : d ≠ 0) (g g1 : Generator) (res : Nat)
    (h : java_reuse.call { m_a := a, m_distance := d } g = .ok (res, g1)) :
    ∃ r, r < d ∧ res = uadd 64 a r := by
  unfold java_reuse.call at h
  simp only [if_neg hd, umod] at h
  cases g with
  | nil => simp [fillBitsFrom, bind, Except.bind] at h
  | cons y rest =>
    simp only [fillBitsFrom, bind, Except.bind, pure, Except.pure] at h
    cases hl : javaLoop d rest (y % 2 ^ 64) (y % 2 ^ 64 % d) with
    | error e => rw [hl] at h; simp at h
    | ok v =>
      rcases v with ⟨r1, g2⟩
      rw [hl] at h
      simp only [Except.ok.injEq, Prod.mk.injEq] at h
      exact ⟨r1, javaLoop_lt d hd rest _ _ (Nat.mod_lt _ (Nat.pos_of_ne_zero hd)) r1 g2 hl,
        h.1.symm⟩

theorem java_plain_call_eq (a b : Nat) (g : Generator) :
    java_plain.call { m_a := a, m_b := b } g =
      java_reuse.call { m_a := a, m_distance := uadd 64 (usub 64 b a) 1 } g := by
  unfold java_plain.call java_reuse.call
  rfl

/-- A result of `OpenBSD_reuse` is `m_a` plus a residue. -/
theorem openBSD_call_result (a d t : Nat) (hd : d ≠ 0) (g g1 : Generator) (res : Nat)
    (h : OpenBSD_reuse.call { m_a := a, m_distance := d, m_threshold := t } g = .ok (res, g1)) :
    ∃ r, r < d ∧ res = uadd 64 a r := by
  unfold OpenBSD_reuse.call at h
  simp only [if_neg hd] at h
  cases g with
  | nil => simp [fillBitsFrom, bind, Except.bind] at h
  | cons y rest =>
    simp only [fillBitsFrom, bind, Except.bind, pure, Except.pure] at h
    cases hl : openBSDLoop t rest (y % 2 ^ 64) with
    | error e => rw [hl] at h; simp at h
    | ok v =>
      rcases v with ⟨x1, g2⟩
      rw [hl] at h
      simp only [umod, if_neg hd, Except.ok.injEq, Prod.mk.injEq] at h
      exact ⟨x1 % d, Nat.mod_lt _ (Nat.pos_of_ne_zero hd), h.1.symm⟩

theorem openBSD_plain_call_eq (a b : Nat) (g : Generator)
    (hd : uadd 64 (usub 64 b a) 1 ≠ 0) :
    OpenBSD_plain.call { m_a := a, m_b := b } g =
      OpenBSD_reuse.call
        { m_a := a, m_distance := uadd 64 (usub 64 b a) 1,
          m_threshold := uneg 64 (uadd 64 (usub 64 b a) 1) % uadd 64 (usub 64 b a) 1 } g := by
  unfold OpenBSD_plain.call OpenBSD_reuse.call
  simp only [if_neg hd, umod, bind, Except.bind]

theorem openBSD_reuse_ctor_eq (a b : Nat) (hd : uadd 64 (usub 64 b a) 1 ≠ 0) :
    OpenBSD_reuse.ctor a b =
      .ok { m_a := a, m_distance := uadd 64 (usub 64 b a) 1,
            m_threshold := uneg 64 (uadd 64 (usub 64 b a) 1) % uadd 64 (usub 64 b a) 1 } := by
  simp only [OpenBSD_reuse.ctor, umod, if_neg hd, bind, Except.bind, pure, Except.pure]

/-! ## Construction with a reversed range -/

theorem reversed_distance_eq_zero_iff (a b : Nat) (hba : b < a) (_ha : a < 2 ^ 64) :
    uadd 64 (usub 64 b a) 1 = 0 ↔ a = b + 1 := by
  unfold uadd usub
  omega

/-! ## Calls on rejected draws followed by an accepted draw -/

/-- A Lemire result on rejected draws followed by an accepted one. -/
theorem lemireResult_rejected_then_accepted {α : Type} (W : Nat) (mult : Nat → ext_mul_result)
    (t m_a : Nat) (back : Nat → α) (pre : List Nat) (r : Nat) (rest : Generator)
    (hpre : ∀ x ∈ pre, (mult (x % 2 ^ W)).lower < t) (hr : ¬ (mult (r % 2 ^ W)).lower < t) :
    lemireResult W mult t m_a back (pre ++ r :: rest) =
      .ok (back (uadd W m_a (mult (r % 2 ^ W)).upper), rest) := by
  unfold lemireResult
  rw [show firstAccept W mult t (pre ++ r :: rest) = .ok (mult (r % 2 ^ W), rest) from
    firstAccept_of_prefix W mult t pre r rest hpre hr]

/-- The calls of the three variants on rejected draws followed by an accepted
one: all three return and leave the draws after the accepted one; the reuse and
lazy-reuse variants return `a + upper`, the no-reuse variant does so on unsigned
types and returns another value on signed types. -/
theorem calls_rejected_then_accepted (T : IntegerType) (hW : 0 < T.bits) (a b : Int)
    (ha : T.Holds a) (hb : T.Holds b) (hab : a ≤ b) (hd : computeDistance T a b ≠ 0)
    (pre : List Nat) (r : Nat) (rest : Generator)
    (hpre : ∀ x ∈ pre, (extendedMult T.bits (x % 2 ^ T.bits) (computeDistance T a b)).lower
      < 2 ^ T.bits % computeDistance T a b)
    (hr : 2 ^ T.bits % computeDistance T a b
      ≤ (extendedMult T.bits (r % 2 ^ T.bits) (computeDistance T a b)).lower) :
    lemire_algorithm_reuse.call T
        { m_a := transposeTo T a, m_ab_distance := computeDistance T a b,
          m_rejection_threshold := 2 ^ T.bits % computeDistance T a b } (pre ++ r :: rest)
      = .ok (a + ((extendedMult T.bits (r % 2 ^ T.bits) (computeDistance T a b)).upper : Nat),
          rest) ∧
    (∃ sl1, lemire_algorithm_lazy_reuse.call T
        { m_a := transposeTo T a, m_ab_distance := computeDistance T a b,
          m_rejection_threshold := lemire_algorithm_lazy_reuse.NONE T } (pre ++ r :: rest)
      = .ok (a + ((extendedMult T.bits (r % 2 ^ T.bits) (computeDistance T a b)).upper : Nat),
          sl1, rest)) ∧
    (T.isSigned = false →
      lemire_algorithm_no_reuse.call T { m_a := a, m_b := b } (pre ++ r :: rest)
        = .ok (a + ((extendedMult T.bits (r % 2 ^ T.bits) (computeDistance T a b)).upper : Nat),
            rest)) ∧
    (T.isSigned = true →
      ∃ res2, lemire_algorithm_no_reuse.call T { m_a := a, m_b := b } (pre ++ r :: rest)
          = .ok (res2, rest) ∧
        res2 ≠ a + ((extendedMult T.bits (r % 2 ^ T.bits) (computeDistance T a b)).upper : Nat)) := by
  have hu := extendedMult_upper_lt T.bits (r % 2 ^ T.bits) (computeDistance T a b)
    (Nat.mod_lt _ (Nat.two_pow_pos _)) (Nat.pos_of_ne_zero hd)
  have hreuse : lemire_algorithm_reuse.call T
      { m_a := transposeTo T a, m_ab_distance := computeDistance T a b,
        m_rejection_threshold := 2 ^ T.bits % computeDistance T a b } (pre ++ r :: rest)
      = .ok (a + ((extendedMult T.bits (r % 2 ^ T.bits) (computeDistance T a b)).upper : Nat),
          rest) := by
    rw [reuse_call_eq T
      { m_a := transposeTo T a, m_ab_distance := computeDistance T a b,
        m_rejection_threshold := 2 ^ T.bits % computeDistance T a b } _ hd,
      lemireResult_rejected_then_accepted T.bits _ _ _ _ pre r rest hpre (Nat.not_lt.mpr hr),
      reuse_result_eq T hW a b ha hb hab hd _ hu]
  have hthr : (if computeDistance T a b = 0 then 0 else 2 ^ T.bits % computeDistance T a b)
      = 2 ^ T.bits % computeDistance T a b := by rw [if_neg hd]
  refine ⟨hreuse, ?_, ?_, ?_⟩
  · obtain ⟨_, hok⟩ := lazy_call_eq T
      { m_a := transposeTo T a, m_ab_distance := computeDistance T a b,
        m_rejection_threshold := 2 ^ T.bits % computeDistance T a b }
      { m_a := transposeTo T a, m_ab_distance := computeDistance T a b,
        m_rejection_threshold := lemire_algorithm_lazy_reuse.NONE T } (pre ++ r :: rest)
      ⟨rfl, rfl, Or.inl rfl⟩ (computeDistance_lt T a b) (fun _ => rfl)
    obtain ⟨sl1, _, h⟩ := hok _ _ hreuse
    exact ⟨sl1, h⟩
  · intro hs
    rw [unsigned_no_reuse_call_eq T hs a b, hthr]
    exact hreuse
  · intro hs
    obtain ⟨_, hok⟩ := no_reuse_signed_call_shifted T hs hW a b ha hb hab hd (pre ++ r :: rest)
    obtain ⟨res2, h1, h2, _⟩ := hok _ _ hreuse
    exact ⟨res2, h1, h2⟩

/-! ## Counting rejected draws -/

/-- The accepted draws are `d * (2^W / d)` of the `2^W` draws. -/
theorem accepted_total_card (W d : Nat) (hd0 : 0 < d) :
    ((Finset.range (2 ^ W)).filter (fun r => 2 ^ W % d ≤ (extendedMult W r d).lower)).card
      = d * (2 ^ W / d) := by
  have hmaps : ∀ r ∈ (Finset.range (2 ^ W)).filter
      (fun r => 2 ^ W % d ≤ (extendedMult W r d).lower),
      (extendedMult W r d).upper ∈ Finset.range d := by
    intro r hr
    rw [Finset.mem_filter, Finset.mem_range] at hr
    exact Finset.mem_range.2 (extendedMult_upper_lt W r d hr.1 hd0)
  rw [Finset.card_eq_sum_card_fiberwise hmaps]
  have hfib : ∀ k ∈ Finset.range d,
      (((Finset.range (2 ^ W)).filter (fun r => 2 ^ W % d ≤ (extendedMult W r d).lower)).filter
        (fun r => (extendedMult W r d).upper = k)).card = 2 ^ W / d := by
    intro k hk
    rw [Finset.filter_filter]
    exact accepted_card W d k hd0 (Finset.mem_range.1 hk)
  rw [Finset.sum_congr rfl hfib, Finset.sum_const, Finset.card_range, smul_eq_mul]

/-- The rejected draws are exactly `2^W mod d` of the `2^W` draws. -/
theorem rejected_card (W d : Nat) (hd0 : 0 < d) :
    ((Finset.range (2 ^ W)).filter (fun r => (extendedMult W r d).lower < 2 ^ W % d)).card
      = 2 ^ W % d := by
  have hsplit := Finset.filter_card_add_filter_neg_card_eq_card (s := Finset.range (2 ^ W))
    (fun r => 2 ^ W % d ≤ (extendedMult W r d).lower)
  rw [accepted_total_card W d hd0, Finset.card_range] at hsplit
  have hneg : (Finset.range (2 ^ W)).filter (fun r => ¬ 2 ^ W % d ≤ (extendedMult W r d).lower)
      = (Finset.range (2 ^ W)).filter (fun r => (extendedMult W r d).lower < 2 ^ W % d) := by
    apply Finset.filter_congr
    intro r _
    exact not_le
  rw [hneg] at hsplit
  have hdm := Nat.div_add_mod (2 ^ W) d
  omega

/-- The threshold `2^W mod d` of a `W`-bit distance is below `2^(W-1)`. -/
theorem threshold_lt_half (W d : Nat) (hW : 0 < W) (hd0 : 0 < d) (hd : d < 2 ^ W) :
    2 ^ W % d < 2 ^ (W - 1) := by
  have h2 := two_pow_pred_double W hW
  by_cases hle : d ≤ 2 ^ (W - 1)
  · exact lt_of_lt_of_le (Nat.mod_lt _ hd0) hle
  · rw [Nat.mod_eq_sub_mod (le_of_lt hd), Nat.mod_eq_of_lt (by omega)]
    omega

/-! ## The rotation of pcg.hpp -/

theorem and_31 (x : Nat) : x &&& 31 = x % 32 := by
  have h : (31 : Nat) = 2 ^ 5 - 1 := by norm_num
  rw [h, Nat.and_pow_two_sub_one_eq_mod]

theorem left_amount (c : Nat) (hc : c < 32) : uneg 32 c &&& 31 = (32 - c) % 32 := by
  rw [and_31]
  unfold uneg
  omega

theorem pow_split (c : Nat) (hc : c ≤ 32) : 2 ^ c * 2 ^ (32 - c) = 2 ^ 32 := by
  rw [← Nat.pow_add]
  congr 1
  omega

/-- For a shift amount `0 < c < 32`, `rotate_right` is the right rotation. -/
theorem rotate_right_pos (val c : Nat) (hv : val < 2 ^ 32) (hc0 : 0 < c) (hc : c < 32) :
    rotate_right val c = rotr32 val c := by
  have hsplit := pow_split c (le_of_lt hc)
  have hmod : c % 32 = c := Nat.mod_eq_of_lt hc
  have hk : (32 - c) % 32 = 32 - c := Nat.mod_eq_of_lt (by omega)
  unfold rotate_right rotr32
  simp only [and_31, hmod]
  have hleft : uneg 32 c % 32 = 32 - c := by
    have := left_amount c hc
    rw [and_31] at this
    rw [this, hk]
  rw [hleft, Nat.shiftRight_eq_div_pow, Nat.shiftLeft_eq]
  have hmul : val * 2 ^ (32 - c) % 2 ^ 32 = 2 ^ (32 - c) * (val % 2 ^ c) := by
    rw [← hsplit, Nat.mul_mod_mul_right, Nat.mul_comm]
  have hlt : val / 2 ^ c < 2 ^ (32 - c) := by
    rw [Nat.div_lt_iff_lt_mul (Nat.two_pow_pos c), Nat.mul_comm, hsplit]
    exact hv
  rw [hmul, Nat.lor_comm, ← Nat.mul_add_lt_is_or hlt]
  ring

theorem rotate_right_zero (val : Nat) (hv : val < 2 ^ 32) : rotate_right val 0 = val := by
  unfold rotate_right
  simp only [and_31, uneg]
  norm_num
  rw [Nat.mod_eq_of_lt (by norm_num at hv; exact hv), Nat.or_self]

theorem rotate_right_mod (val count : Nat) :
    rotate_right val count = rotate_right val (count % 32) := by
  unfold rotate_right
  simp only [and_31, Nat.mod_mod]

theorem rotr32_lt (val c : Nat) (hv : val < 2 ^ 32) (hc : c ≤ 32) : rotr32 val c < 2 ^ 32 := by
  unfold rotr32
  have hsplit := pow_split c hc
  have h1 : val / 2 ^ c < 2 ^ (32 - c) := by
    rw [Nat.div_lt_iff_lt_mul (Nat.two_pow_pos c), Nat.mul_comm, hsplit]
    exact hv
  have h2 : val % 2 ^ c < 2 ^ c := Nat.mod_lt _ (Nat.two_pow_pos c)
  have h3 : (val % 2 ^ c) * 2 ^ (32 - c) + 2 ^ (32 - c) ≤ 2 ^ c * 2 ^ (32 - c) := by
    rw [← Nat.succ_mul]
    exact Nat.mul_le_mul_right _ h2
  omega

theorem rotr32_zero (val : Nat) : rotr32 val 0 = val := by
  unfold rotr32
  simp [Nat.mod_one]

/-- Rotating right by `c` and then by `32 - c` restores the value. -/
theorem rotr32_inverse (val c : Nat) (hv : val < 2 ^ 32) (hc : c ≤ 32) :
    rotr32 (rotr32 val c) (32 - c) = val := by
  have hsplit := pow_split c hc
  have h1 : val / 2 ^ c < 2 ^ (32 - c) := by
    rw [Nat.div_lt_iff_lt_mul (Nat.two_pow_pos c), Nat.mul_comm, hsplit]
    exact hv
  have hcc : 32 - (32 - c) = c := by omega
  unfold rotr32
  rw [hcc, Nat.add_mul_div_right _ _ (Nat.two_pow_pos _), Nat.add_mul_mod_self_right,
    Nat.div_eq_of_lt h1, Nat.mod_eq_of_lt h1, Nat.zero_add]
  have := Nat.div_add_mod val (2 ^ c)
  rw [Nat.mul_comm] at this
  omega

/-! ## The comparators are unbiased -/

/-- The number of values below `n` with residue `k` modulo `d`. -/
theorem residue_card (n d k : Nat) (hd : 0 < d) (hk : k < d) :
    ((Finset.range n).filter (fun x => x % d = k)).card
      = n / d + if k < n % d then 1 else 0 := by
  have h := Nat.count_modEq_card n hd k
  rw [Nat.count_eq_card_filter_range, Nat.mod_eq_of_lt hk] at h
  rw [← h]
  congr 1
  apply Finset.filter_congr
  intro x _
  unfold Nat.ModEq
  rw [Nat.mod_eq_of_lt hk]

/-- The Java-style acceptance test, as a bound on the draw. -/
theorem java_accept_iff (d x : Nat) (hd0 : 0 < d) (hd : d < 2 ^ 64) (hx : x < 2 ^ 64) :
    ¬ (usub 64 x (x % d) > uneg 64 d) ↔ x < d * (2 ^ 64 / d) := by
  have hdiv := Nat.div_add_mod x d
  have hr := Nat.mod_lt x hd0
  have hle : x % d ≤ x := Nat.mod_le x d
  have hacc : ¬ (usub 64 x (x % d) > uneg 64 d) ↔ d * (x / d) + d ≤ 2 ^ 64 := by
    unfold usub uneg
    rw [Nat.mod_eq_of_lt (show 2 ^ 64 - d < 2 ^ 64 by omega)]
    have e : (x + 2 ^ 64 - x % d) % 2 ^ 64 = x - x % d := by
      rw [show x + 2 ^ 64 - x % d = (x - x % d) + 2 ^ 64 by omega, Nat.add_mod_right,
        Nat.mod_eq_of_lt (by omega)]
    rw [e]
    omega
  rw [hacc]
  constructor
  · intro h
    have h1 : (x / d + 1) * d ≤ 2 ^ 64 := by rw [Nat.add_mul, Nat.mul_comm]; omega
    have h2 : x / d + 1 ≤ 2 ^ 64 / d := (Nat.le_div_iff_mul_le hd0).2 h1
    have h3 : x / d < 2 ^ 64 / d := h2
    rw [Nat.div_lt_iff_lt_mul hd0] at h3
    rw [Nat.mul_comm]
    exact h3
  · intro h
    rw [Nat.mul_comm] at h
    have h3 : x / d < 2 ^ 64 / d := (Nat.div_lt_iff_lt_mul hd0).2 h
    have h4 : (x / d + 1) * d ≤ (2 ^ 64 / d) * d := Nat.mul_le_mul_right d h3
    have h5 : (2 ^ 64 / d) * d ≤ 2 ^ 64 := Nat.div_mul_le_self _ _
    rw [Nat.add_mul, Nat.mul_comm (x / d) d] at h4
    omega

/-! ## The state of the lazy variant -/

theorem lazy_counting_threshold (T : IntegerType) (d : Nat) (hd0 : d ≠ 0)
    (hd : d < 2 ^ T.bits) :
    lemire_algorithm_lazy_reuse.computeRejectionThresholdCounting T d
      = .ok (2 ^ T.bits % d, 1) := by
  unfold lemire_algorithm_lazy_reuse.computeRejectionThresholdCounting
  rw [if_neg hd0, umod_pos _ _ (by omega), threshold_eq _ _ (by omega) hd]

/-- Forgetting the count gives back the call operator. -/
theorem callCounting_forget (T : IntegerType) (s : lemire_algorithm_lazy_reuse.State)
    (g : Generator) (hd : s.m_ab_distance < 2 ^ T.bits) :
    forgetCount (lemire_algorithm_lazy_reuse.callCounting T s g)
      = lemire_algorithm_lazy_reuse.call T s g := by
  unfold lemire_algorithm_lazy_reuse.callCounting lemire_algorithm_lazy_reuse.call
  by_cases hd0 : s.m_ab_distance = 0
  · rw [if_pos hd0, if_pos hd0]
    cases g with
    | nil => rfl
    | cons r rest => rfl
  · rw [if_neg hd0, if_neg hd0]
    cases g with
    | nil => rfl
    | cons r rest =>
      simp only [fillBitsFrom, bind, Except.bind, pure, Except.pure]
      by_cases hlow : (extendedMult T.bits (r % 2 ^ T.bits) s.m_ab_distance).lower
          < s.m_ab_distance
      · simp only [hlow, if_true]
        by_cases hN : s.m_rejection_threshold = lemire_algorithm_lazy_reuse.NONE T
        · simp only [hN, if_true, lazy_counting_threshold T _ hd0 hd,
            lazy_threshold T _ hd0 hd]
          rcases rejectionLoop T.bits (fun r => extendedMult T.bits r s.m_ab_distance)
            (2 ^ T.bits % s.m_ab_distance) rest
            (extendedMult T.bits (r % 2 ^ T.bits) s.m_ab_distance) with e | ⟨v, g1⟩ <;> rfl
        · simp only [hN, if_false]
          rcases rejectionLoop T.bits (fun r => extendedMult T.bits r s.m_ab_distance)
            s.m_rejection_threshold rest
            (extendedMult T.bits (r % 2 ^ T.bits) s.m_ab_distance) with e | ⟨v, g1⟩ <;> rfl
      · simp only [hlow, if_false]
        rfl

/-- The sentinel is not a threshold. -/
theorem threshold_ne_NONE (T : IntegerType) (hW : 0 < T.bits) (d : Nat) (hd : d < 2 ^ T.bits) :
    ∃ t, lemire_algorithm_lazy_reuse.computeRejectionThreshold T d = .ok t ∧
      t ≠ lemire_algorithm_lazy_reuse.NONE T := by
  have h1 : 1 < 2 ^ T.bits := Nat.one_lt_two_pow (by omega)
  by_cases hd0 : d = 0
  · refine ⟨0, by unfold lemire_algorithm_lazy_reuse.computeRejectionThreshold; rw [if_pos hd0],
      ?_⟩
    unfold lemire_algorithm_lazy_reuse.NONE
    omega
  · refine ⟨2 ^ T.bits % d, lazy_threshold T d hd0 hd, ?_⟩
    have := Nat.mod_lt (2 ^ T.bits) (Nat.pos_of_ne_zero hd0)
    unfold lemire_algorithm_lazy_reuse.NONE
    omega

/-- One call of the lazy variant keeps the invariant of its state. -/
theorem lazy_call_invariant (T : IntegerType) (A D : Nat) (hD : D < 2 ^ T.bits)
    (s : lemire_algorithm_lazy_reuse.State) (hs : LazyInvariant T A D s) (g : Generator)
    (x : Int) (s1 : lemire_algorithm_lazy_reuse.State) (g1 : Generator)
    (h : lemire_algorithm_lazy_reuse.call T s g = .ok (x, s1, g1)) :
    LazyInvariant T A D s1 := by
  obtain ⟨ha, hd, hthr⟩ := hs
  have hagree : LazyAgrees T
      { m_a := A, m_ab_distance := D,
        m_rejection_threshold :=
          if D = 0 then lemire_algorithm_lazy_reuse.NONE T else 2 ^ T.bits % D } s := by
    refine ⟨ha, hd, ?_⟩
    rcases hthr with h1 | ⟨h0, h1⟩
    · exact Or.inl h1
    · right
      simp only [h0, if_false]
      exact h1
  obtain ⟨herr, hok⟩ := lazy_call_eq T
    { m_a := A, m_ab_distance := D,
      m_rejection_threshold :=
        if D = 0 then lemire_algorithm_lazy_reuse.NONE T else 2 ^ T.bits % D } s g hagree hD
    (fun h0 => by simp only at h0 ⊢; rw [if_neg h0])
  cases hc : lemire_algorithm_reuse.call T
      { m_a := A, m_ab_distance := D,
        m_rejection_threshold :=
          if D = 0 then lemire_algorithm_lazy_reuse.NONE T else 2 ^ T.bits % D } g with
  | error e =>
    rw [herr e hc] at h
    simp at h
  | ok v =>
    rcases v with ⟨x2, g2⟩
    obtain ⟨sl1, hag, hl⟩ := hok x2 g2 hc
    rw [hl] at h
    simp only [Except.ok.injEq, Prod.mk.injEq] at h
    rw [← h.2.1]
    obtain ⟨ha1, hd1, hthr1⟩ := hag
    refine ⟨ha1, hd1, ?_⟩
    rcases hthr1 with h1 | h1
    · exact Or.inl h1
    · by_cases h0 : D = 0
      · left
        rw [h1]
        simp only [h0, if_true]
      · right
        rw [h1]
        simp only [h0, if_false]
        exact ⟨h0, trivial⟩

/-- A property kept by every call holds after any number of consecutive calls. -/
theorem consecutive_calls_invariant {σ α : Type}
    (call : σ → Generator → Except Fault (α × σ × Generator)) (P : σ → Prop)
    (hstep : ∀ s g x s1 g1, P s → call s g = .ok (x, s1, g1) → P s1)
    (n : Nat) (s : σ) (g : Generator) (hs : P s) (xs : List α) (s1 : σ) (g1 : Generator)
    (h : consecutive_calls call n s g = .ok (xs, s1, g1)) : P s1 := by
  induction n generalizing s g xs with
  | zero =>
    simp only [consecutive_calls, Except.ok.injEq, Prod.mk.injEq] at h
    rw [← h.2.1]
    exact hs
  | succ n ih =>
    simp only [consecutive_calls] at h
    rcases hc : call s g with e | ⟨x, s2, g2⟩
    · rw [hc] at h; simp at h
    · rw [hc] at h
      simp only at h
      rcases hn : consecutive_calls call n s2 g2 with e | ⟨ys, s3, g3⟩
      · rw [hn] at h; simp at h
      · rw [hn] at h
        simp only [Except.ok.injEq, Prod.mk.injEq] at h
        obtain ⟨_, h3, h4⟩ := h
        subst h3 h4
        exact ih s2 g2 (hstep s g x s2 g2 hs hc) ys hn

/-! ## No division by zero in the main variants -/

theorem firstAccept_error (W : Nat) (mult : Nat → ext_mul_result) (t : Nat) (g : Generator)
    (e : Fault) (h : firstAccept W mult t g = .error e) : e = .outOfDraws := by
  induction g with
  | nil =>
    simp only [firstAccept, Except.error.injEq] at h
    exact h.symm
  | cons r rest ih =>
    simp only [firstAccept] at h
    split at h
    · exact ih h
    · simp at h

theorem lemireResult_error {α : Type} (W : Nat) (mult : Nat → ext_mul_result) (t m_a : Nat)
    (back : Nat → α) (g : Generator) (e : Fault)
    (h : lemireResult W mult t m_a back g = .error e) : e = .outOfDraws := by
  unfold lemireResult at h
  cases hfa : firstAccept W mult t g with
  | error e1 =>
    rw [hfa] at h
    simp only [Except.error.injEq] at h
    rw [← h]
    exact firstAccept_error W mult t g e1 hfa
  | ok v =>
    rw [hfa] at h
    simp at h

theorem fillBitsFrom_error (W : Nat) (g : Generator) (e : Fault)
    (h : fillBitsFrom W g = .error e) : e = .outOfDraws := by
  cases g with
  | nil =>
    simp only [fillBitsFrom, Except.error.injEq] at h
    exact h.symm
  | cons r rest => simp [fillBitsFrom] at h

/-- A call of `lemire_algorithm_reuse` can only stop for lack of draws. -/
theorem reuse_call_error (T : IntegerType) (s : lemire_algorithm_reuse.State) (g : Generator)
    (e : Fault) (h : lemire_algorithm_reuse.call T s g = .error e) : e = .outOfDraws := by
  by_cases hd : s.m_ab_distance = 0
  · unfold lemire_algorithm_reuse.call at h
    rw [if_pos hd] at h
    cases g with
    | nil =>
      simp only [fillBitsFrom, bind, Except.bind, Except.error.injEq] at h
      exact h.symm
    | cons r rest => simp [fillBitsFrom, bind, Except.bind, pure, Except.pure] at h
  · rw [reuse_call_eq T s g hd] at h
    exact lemireResult_error _ _ _ _ _ g e h

/-- A call of `lemire_algorithm_no_reuse` can only stop for lack of draws. -/
theorem no_reuse_call_error (T : IntegerType) (s : lemire_algorithm_no_reuse.State)
    (g : Generator) (e : Fault) (h : lemire_algorithm_no_reuse.call T s g = .error e) :
    e = .outOfDraws := by
  by_cases hd : computeDistance T s.m_a s.m_b = 0
  · unfold lemire_algorithm_no_reuse.call at h
    simp only [hd, if_true] at h
    cases g with
    | nil =>
      simp only [fillBitsFrom, bind, Except.bind, Except.error.injEq] at h
      exact h.symm
    | cons r rest => simp [fillBitsFrom, bind, Except.bind, pure, Except.pure] at h
  · have hlt := computeDistance_lt T s.m_a s.m_b
    rw [no_reuse_call_eq T s g (computeDistance T s.m_a s.m_b)
      (2 ^ T.bits % computeDistance T s.m_a s.m_b) rfl hd
      (threshold_eq _ _ (by omega) hlt) (le_of_lt (Nat.mod_lt _ (by omega)))] at h
    exact lemireResult_error _ _ _ _ _ g e h

/-- A call of `lemire_algorithm_lazy_reuse` on a state that keeps its invariant
can only stop for lack of draws. -/
theorem lazy_call_error (T : IntegerType) (A D : Nat) (hD : D < 2 ^ T.bits)
    (s : lemire_algorithm_lazy_reuse.State) (hs : LazyInvariant T A D s) (g : Generator)
    (e : Fault) (h : lemire_algorithm_lazy_reuse.call T s g = .error e) :
    e = .outOfDraws := by
  obtain ⟨ha, hd, hthr⟩ := hs
  have hagree : LazyAgrees T
      { m_a := A, m_ab_distance := D,
        m_rejection_threshold :=
          if D = 0 then lemire_algorithm_lazy_reuse.NONE T else 2 ^ T.bits % D } s := by
    refine ⟨ha, hd, ?_⟩
    rcases hthr with h1 | ⟨h0, h1⟩
    · exact Or.inl h1
    · right
      simp only [h0, if_false]
      exact h1
  obtain ⟨herr, hok⟩ := lazy_call_eq T
    { m_a := A, m_ab_distance := D,
      m_rejection_threshold :=
        if D = 0 then lemire_algorithm_lazy_reuse.NONE T else 2 ^ T.bits % D } s g hagree hD
    (fun h0 => by simp only at h0 ⊢; rw [if_neg h0])
  cases hc : lemire_algorithm_reuse.call T
      { m_a := A, m_ab_distance := D,
        m_rejection_threshold :=
          if D = 0 then lemire_algorithm_lazy_reuse.NONE T else 2 ^ T.bits % D } g with
  | error e1 =>
    rw [herr e1 hc] at h
    simp only [Except.error.injEq] at h
    rw [← h]
    exact reuse_call_error T _ g e1 hc
  | ok v =>
    rcases v with ⟨x2, g2⟩
    obtain ⟨sl1, _, hl⟩ := hok x2 g2 hc
    rw [hl] at h
    simp at h

/-- Consecutive calls stop only for a reason for which a single call stops. -/
theorem consecutive_calls_error {σ α : Type}
    (call : σ → Generator → Except Fault (α × σ × Generator)) (P : σ → Prop)
    (hstep : ∀ s g x s1 g1, P s → call s g = .ok (x, s1, g1) → P s1)
    (herr : ∀ s g e, P s → call s g = .error e → e = .outOfDraws)
    (n : Nat) (s : σ) (g : Generator) (hs : P s) (e : Fault)
    (h : consecutive_calls call n s g = .error e) : e = .outOfDraws := by
  induction n generalizing s g with
  | zero => simp [consecutive_calls] at h
  | succ n ih =>
    simp only [consecutive_calls] at h
    rcases hc : call s g with e1 | ⟨x, s2, g2⟩
    · rw [hc] at h
      simp only [Except.error.injEq] at h
      rw [← h]
      exact herr s g e1 hs hc
    · rw [hc] at h
      simp only at h
      rcases hn : consecutive_calls call n s2 g2 with e1 | ⟨ys, s3, g3⟩
      · rw [hn] at h
        simp only [Except.error.injEq] at h
        subst h
        exact ih s2 g2 (hstep s g x s2 g2 hs hc) hn
      · rw [hn] at h
        simp at h

theorem constCall_error {σ α : Type} (call : σ → Generator → Except Fault (α × Generator))
    (s : σ) (g : Generator) (e : Fault) (h : constCall call s g = .error e) :
    call s g = .error e := by
  unfold constCall at h
  rcases hc : call s g with e1 | ⟨x, g1⟩
  · rw [hc] at h
    simp only [Except.error.injEq] at h
    rw [h]
  · rw [hc] at h
    simp at h

/-! ## The claims -/

/-- C1: for a type of width 32 or 64 and every non-zero distance `d`, the
rejection threshold of `lemire_algorithm_reuse` is defined, and for every offset
`k < d` exactly `floor(2^W / d)` of the `2^W` draws are accepted (low product
word not below the threshold) with high product word `k`; hence every value `v`
of a range `[a, b]` of distance `d` is returned for exactly `floor(2^W / d)`
accepted draws. -/
theorem lemire_accepted_draws_per_value (T : IntegerType) (hW : T.bits = 32 ∨ T.bits = 64)
    (d : Nat) (hd0 : d ≠ 0) (hd : d < 2 ^ T.bits) :
    ∃ t, lemire_algorithm_reuse.computeRejectionThreshold T d = .ok t ∧
      (∀ k, k < d →
        ((Finset.range (2 ^ T.bits)).filter (fun r =>
          t ≤ (extendedMult T.bits r d).lower ∧ (extendedMult T.bits r d).upper = k)).card
          = 2 ^ T.bits / d) ∧
      (∀ a b v : Int, T.Holds a → T.Holds b → a ≤ b → computeDistance T a b = d →
        a ≤ v → v ≤ b →
        ((Finset.range (2 ^ T.bits)).filter (fun r =>
          t ≤ (extendedMult T.bits r d).lower ∧
            transposeBack T (uadd T.bits (transposeTo T a) (extendedMult T.bits r d).upper) = v)).card
          = 2 ^ T.bits / d) := by
  have hpos := bits_pos T hW
  refine ⟨2 ^ T.bits % d, reuse_threshold T d hd0 hd, ?_, ?_⟩
  · intro k hk
    exact accepted_card T.bits d k (by omega) hk
  · intro a b v ha hb hab hdist hav hvb
    subst hdist
    have hc := computeDistance_cast T hpos a b ha hb hab hd0
    have hk : (v - a).toNat < computeDistance T a b := by
      have : (((v - a).toNat : Nat) : Int) < (computeDistance T a b : Nat) := by
        rw [Int.toNat_of_nonneg (by omega)]; omega
      exact_mod_cast this
    rw [← accepted_card T.bits (computeDistance T a b) (v - a).toNat (by omega) hk]
    congr 1
    apply Finset.filter_congr
    intro r hr
    rw [Finset.mem_range] at hr
    have hu := extendedMult_upper_lt T.bits r (computeDistance T a b) hr (by omega)
    rw [reuse_result_eq T hpos a b ha hb hab hd0 _ hu]
    constructor
    · rintro ⟨h1, h2⟩
      refine ⟨h1, ?_⟩
      have : (((extendedMult T.bits r (computeDistance T a b)).upper : Nat) : Int) = v - a := by
        omega
      rw [← this, Int.toNat_ofNat]
    · rintro ⟨h1, h2⟩
      refine ⟨h1, ?_⟩
      rw [h2, Int.toNat_of_nonneg (by omega)]
      ring

theorem lemire_accepted_draws_per_value_witness :
    ∃ t, lemire_algorithm_reuse.computeRejectionThreshold ⟨false, 64⟩ 3 = .ok t ∧
      (∀ k, k < 3 →
        ((Finset.range (2 ^ 64)).filter (fun r =>
          t ≤ (extendedMult 64 r 3).lower ∧ (extendedMult 64 r 3).upper = k)).card
          = 2 ^ 64 / 3) ∧
      (∀ a b v : Int, IntegerType.Holds ⟨false, 64⟩ a → IntegerType.Holds ⟨false, 64⟩ b → a ≤ b →
        computeDistance ⟨false, 64⟩ a b = 3 → a ≤ v → v ≤ b →
        ((Finset.range (2 ^ 64)).filter (fun r =>
          t ≤ (extendedMult 64 r 3).lower ∧
            transposeBack ⟨false, 64⟩
              (uadd 64 (transposeTo ⟨false, 64⟩ a) (extendedMult 64 r 3).upper) = v)).card
          = 2 ^ 64 / 3) :=
  lemire_accepted_draws_per_value ⟨false, 64⟩ (Or.inr rfl) 3 (by decide) (by norm_num)

/-- C2: for all 64-bit `lhs` and `rhs`, `ext_mul_naive` returns two 64-bit words
`(upper, lower)` with `upper * 2^64 + lower = lhs * rhs` as natural numbers. -/
theorem ext_mul_naive_is_product (lhs rhs : Nat) (hl : lhs < 2 ^ 64) (hr : rhs < 2 ^ 64) :
    (ext_mul_naive lhs rhs).upper * 2 ^ 64 + (ext_mul_naive lhs rhs).lower = lhs * rhs ∧
      (ext_mul_naive lhs rhs).upper < 2 ^ 64 ∧ (ext_mul_naive lhs rhs).lower < 2 ^ 64 :=
  ext_mul_naive_exact lhs rhs hl hr

theorem ext_mul_naive_is_product_witness :
    (ext_mul_naive (2 ^ 64 - 1) 12298110947468241578).upper * 2 ^ 64
        + (ext_mul_naive (2 ^ 64 - 1) 12298110947468241578).lower
        = (2 ^ 64 - 1) * 12298110947468241578 ∧
      (ext_mul_naive (2 ^ 64 - 1) 12298110947468241578).upper < 2 ^ 64 ∧
      (ext_mul_naive (2 ^ 64 - 1) 12298110947468241578).lower < 2 ^ 64 :=
  ext_mul_naive_is_product (2 ^ 64 - 1) 12298110947468241578 (by norm_num) (by norm_num)

/-- C3: for all 64-bit `lhs` and `rhs`, `ext_mul_optimized` returns two 64-bit
words `(upper, lower)` with `upper * 2^64 + lower = lhs * rhs` as natural numbers. -/
theorem ext_mul_optimized_is_product (lhs rhs : Nat) (hl : lhs < 2 ^ 64) (hr : rhs < 2 ^ 64) :
    (ext_mul_optimized lhs rhs).upper * 2 ^ 64 + (ext_mul_optimized lhs rhs).lower = lhs * rhs ∧
      (ext_mul_optimized lhs rhs).upper < 2 ^ 64 ∧ (ext_mul_optimized lhs rhs).lower < 2 ^ 64 :=
  ext_mul_optimized_exact lhs rhs hl hr

theorem ext_mul_optimized_is_product_witness :
    (ext_mul_optimized (2 ^ 64 - 1) (2 ^ 64 - 1)).upper * 2 ^ 64
        + (ext_mul_optimized (2 ^ 64 - 1) (2 ^ 64 - 1)).lower
        = (2 ^ 64 - 1) * (2 ^ 64 - 1) ∧
      (ext_mul_optimized (2 ^ 64 - 1) (2 ^ 64 - 1)).upper < 2 ^ 64 ∧
      (ext_mul_optimized (2 ^ 64 - 1) (2 ^ 64 - 1)).lower < 2 ^ 64 :=
  ext_mul_optimized_is_product (2 ^ 64 - 1) (2 ^ 64 - 1) (by norm_num) (by norm_num)

/-- C4: for every pair of 64-bit inputs, `ext_mul_naive`, `ext_mul_optimized` and
`ext_mul_intrinsic` return the same `(upper, lower)` pair. -/
theorem ext_mul_strategies_agree (x y : Nat) (hx : x < 2 ^ 64) (hy : y < 2 ^ 64) :
    ext_mul_naive x y = ext_mul_optimized x y ∧
      ext_mul_optimized x y = ext_mul_intrinsic x y := by
  have h1 := Mult_eq_extendedMult .NaiveMult x y hx hy
  have h2 := Mult_eq_extendedMult .OptimizedMult x y hx hy
  have h3 := Mult_eq_extendedMult .IntrinsicMult x y hx hy
  simp only [MultImplementation.Mult] at h1 h2 h3
  rw [h1, h2, h3]
  exact ⟨rfl, rfl⟩

theorem ext_mul_strategies_agree_witness :
    ext_mul_naive 12298110947468241578 (2 ^ 64 - 1)
        = ext_mul_optimized 12298110947468241578 (2 ^ 64 - 1) ∧
      ext_mul_optimized 12298110947468241578 (2 ^ 64 - 1)
        = ext_mul_intrinsic 12298110947468241578 (2 ^ 64 - 1) :=
  ext_mul_strategies_agree 12298110947468241578 (2 ^ 64 - 1) (by norm_num) (by norm_num)

/-- C5: on an unsigned type of width 32 or 64, for every `a <= b` the three
variants can be constructed, and for every draw sequence and every `n`, `n`
consecutive calls of `lemire_algorithm_reuse` and of `lemire_algorithm_lazy_reuse`
give the same results and leave the same draws as `n` consecutive calls of
`lemire_algorithm_no_reuse`; a run that returns has `n` results. -/
theorem unsigned_variants_agree (T : IntegerType) (hs : T.isSigned = false)
    (_hW : T.bits = 32 ∨ T.bits = 64) (a b : Int) (_ha : T.Holds a) (_hb : T.Holds b)
    (hab : a ≤ b) :
    ∃ sn sr sl, lemire_algorithm_no_reuse.ctor T a b = .ok sn ∧
      lemire_algorithm_reuse.ctor T a b = .ok sr ∧
      lemire_algorithm_lazy_reuse.ctor T a b = .ok sl ∧
      ∀ (n : Nat) (g : Generator),
        observed (consecutive_calls (constCall (lemire_algorithm_reuse.call T)) n sr g) =
            observed (consecutive_calls (constCall (lemire_algorithm_no_reuse.call T)) n sn g) ∧
          observed (consecutive_calls (lemire_algorithm_lazy_reuse.call T) n sl g) =
            observed (consecutive_calls (constCall (lemire_algorithm_no_reuse.call T)) n sn g) ∧
          ∀ xs g1,
            observed (consecutive_calls (constCall (lemire_algorithm_no_reuse.call T)) n sn g)
              = .ok (xs, g1) → xs.length = n := by
  refine ⟨_, _, _, by unfold lemire_algorithm_no_reuse.ctor; rw [if_pos hab],
    reuse_ctor_eq T a b hab, by unfold lemire_algorithm_lazy_reuse.ctor; rw [if_pos hab], ?_⟩
  intro n g
  have h1 := const_consecutive_eq (lemire_algorithm_reuse.call T) (lemire_algorithm_no_reuse.call T)
    _ _ (fun g => (unsigned_no_reuse_call_eq T hs a b g).symm) n g
  refine ⟨h1, ?_, fun xs g1 h => consecutive_calls_length _ n _ g xs g1 h⟩
  rw [← h1]
  apply lazy_consecutive_eq T _ (computeDistance_lt T a b)
  · intro hd
    simp only at hd
    simp only [hd, if_false]
  · exact ⟨rfl, rfl, Or.inl rfl⟩

theorem unsigned_variants_agree_witness :
    ∃ sn sr sl, lemire_algorithm_no_reuse.ctor ⟨false, 32⟩ 0 1000000 = .ok sn ∧
      lemire_algorithm_reuse.ctor ⟨false, 32⟩ 0 1000000 = .ok sr ∧
      lemire_algorithm_lazy_reuse.ctor ⟨false, 32⟩ 0 1000000 = .ok sl ∧
      ∀ (n : Nat) (g : Generator),
        observed (consecutive_calls (constCall (lemire_algorithm_reuse.call ⟨false, 32⟩)) n sr g) =
            observed
              (consecutive_calls (constCall (lemire_algorithm_no_reuse.call ⟨false, 32⟩)) n sn g) ∧
          observed (consecutive_calls (lemire_algorithm_lazy_reuse.call ⟨false, 32⟩) n sl g) =
            observed
              (consecutive_calls (constCall (lemire_algorithm_no_reuse.call ⟨false, 32⟩)) n sn g) ∧
          ∀ xs g1,
            observed
                (consecutive_calls (constCall (lemire_algorithm_no_reuse.call ⟨false, 32⟩)) n sn g)
              = .ok (xs, g1) → xs.length = n :=
  unsigned_variants_agree ⟨false, 32⟩ rfl (Or.inl rfl) 0 1000000 (by decide) (by decide)
    (by decide)

/-- C6: for 64-bit `a <= b` with non-zero distance and every multiply backend,
both templated generators can be constructed, and whenever a call of
`lemire_plain_templated_mult` or of `lemire_reuse_templated_mult` returns, the
result lies in `[a, b]` and equals `a + upper` for the high product word of a
consumed draw, the sum being below `2^64` (no wraparound). -/
theorem templated_range_containment (M : MultImplementation) (a b : Nat) (hab : a ≤ b)
    (hb : b < 2 ^ 64) (hd : lemire_plain_templated_mult.computeDistance a b ≠ 0) :
    lemire_plain_templated_mult.ctor a b = .ok { m_a := a, m_b := b } ∧
      lemire_reuse_templated_mult.ctor a b =
        .ok { m_a := a, m_ab_distance := b - a + 1, m_threshold := 2 ^ 64 % (b - a + 1) } ∧
      ∀ (g : Generator) (res : Nat) (g1 : Generator),
        (lemire_plain_templated_mult.call M { m_a := a, m_b := b } g = .ok (res, g1) ∨
          lemire_reuse_templated_mult.call M
            { m_a := a, m_ab_distance := b - a + 1, m_threshold := 2 ^ 64 % (b - a + 1) } g
              = .ok (res, g1)) →
        a ≤ res ∧ res ≤ b ∧
          ∃ pre r, g = pre ++ r :: g1 ∧
            a + (M.Mult (r % 2 ^ 64) (b - a + 1)).upper < 2 ^ 64 ∧
            res = a + (M.Mult (r % 2 ^ 64) (b - a + 1)).upper := by
  have hdv : lemire_plain_templated_mult.computeDistance a b = b - a + 1 :=
    templated_distance_pos a b hab hb hd
  have hdv2 : lemire_reuse_templated_mult.computeDistance a b = b - a + 1 := hdv
  have hdlt : b - a + 1 < 2 ^ 64 := by
    rw [← hdv]
    unfold lemire_plain_templated_mult.computeDistance uadd
    exact Nat.mod_lt _ (by norm_num)
  refine ⟨by unfold lemire_plain_templated_mult.ctor; rw [if_pos hab], ?_, ?_⟩
  · rw [reuse_templated_ctor_eq a b hab (by rw [hdv2]; omega), hdv2]
  · intro g res g1 h
    have hM : ∀ r, M.Mult (r % 2 ^ 64) (b - a + 1) = extendedMult 64 (r % 2 ^ 64) (b - a + 1) :=
      fun r => Mult_eq_extendedMult M _ _ (Nat.mod_lt _ (by norm_num)) hdlt
    simp only [hM]
    rcases h with h | h
    · rw [plain_templated_call_eq M _ g (b - a + 1) hdv (by omega) hdlt] at h
      exact lemireResult_range a b _ _ hab hb rfl g g1 res h
    · rw [reuse_templated_call_eq M _ g (by simp) hdlt] at h
      exact lemireResult_range a b _ _ hab hb rfl g g1 res h

theorem templated_range_containment_witness :
    7 ≤ 15 ∧ 15 ≤ 22 ∧
      ∃ pre r, [2 ^ 63, 9] = pre ++ r :: [9] ∧
        7 + (MultImplementation.NaiveMult.Mult (r % 2 ^ 64) (22 - 7 + 1)).upper < 2 ^ 64 ∧
        15 = 7 + (MultImplementation.NaiveMult.Mult (r % 2 ^ 64) (22 - 7 + 1)).upper :=
  (templated_range_containment .NaiveMult 7 22 (by decide) (by norm_num) (by decide)).2.2
    [2 ^ 63, 9] 15 [9] (Or.inl (by rfl))

/-- C7: for every 64-bit `a` and every draw `r`, each of the ten tested generator
classes constructed with `(a, a)` can be constructed and its call consumes the
single draw `r` and returns `a`. -/
theorem degenerate_range_returns_a (a : Nat) (ha : a < 2 ^ 64) (r : Nat) (g : Generator) :
    (∃ s, OpenBSD_plain.ctor a a = .ok s ∧ OpenBSD_plain.call s (r :: g) = .ok (a, g)) ∧
    (∃ s, OpenBSD_reuse.ctor a a = .ok s ∧ OpenBSD_reuse.call s (r :: g) = .ok (a, g)) ∧
    (∃ s, java_plain.ctor a a = .ok s ∧ java_plain.call s (r :: g) = .ok (a, g)) ∧
    (∃ s, java_reuse.ctor a a = .ok s ∧ java_reuse.call s (r :: g) = .ok (a, g)) ∧
    (∀ M : MultImplementation,
      (∃ s, lemire_plain_templated_mult.ctor a a = .ok s ∧
        lemire_plain_templated_mult.call M s (r :: g) = .ok (a, g)) ∧
      (∃ s, lemire_reuse_templated_mult.ctor a a = .ok s ∧
        lemire_reuse_templated_mult.call M s (r :: g) = .ok (a, g))) := by
  have hd := unit_distance a ha
  have hx : r % 2 ^ 64 < 2 ^ 64 := Nat.mod_lt _ (by norm_num)
  have h10 : ¬ ((1 : Nat) = 0) := by decide
  refine ⟨⟨_, rfl, ?_⟩, ⟨⟨a, 1, 0⟩, ?_, ?_⟩, ⟨_, rfl, ?_⟩, ⟨⟨a, 1⟩, ?_, ?_⟩, ?_⟩
  · simp only [OpenBSD_plain.call, hd, umod, fillBitsFrom, bind, Except.bind, pure, Except.pure,
      Nat.mod_one, h10, if_false, openBSDLoop_zero, uadd_zero a ha]
  · simp only [OpenBSD_reuse.ctor, hd, umod, bind, Except.bind, pure, Except.pure, Nat.mod_one,
      h10, if_false]
  · simp only [OpenBSD_reuse.call, umod, fillBitsFrom, bind, Except.bind, pure, Except.pure,
      Nat.mod_one, h10, if_false, openBSDLoop_zero, uadd_zero a ha]
  · simp only [java_plain.call, hd, umod, fillBitsFrom, bind, Except.bind, pure, Except.pure,
      Nat.mod_one, h10, if_false, javaLoop_unit g _ hx, uadd_zero a ha]
  · simp only [java_reuse.ctor, hd]
  · simp only [java_reuse.call, umod, fillBitsFrom, bind, Except.bind, pure, Except.pure,
      Nat.mod_one, h10, if_false, javaLoop_unit g _ hx, uadd_zero a ha]
  · intro M
    refine ⟨⟨⟨a, a⟩, ?_, ?_⟩, ⟨⟨a, 1, 0⟩, ?_, ?_⟩⟩
    · simp only [lemire_plain_templated_mult.ctor, le_refl, if_true]
    · rw [plain_templated_call_eq M ⟨a, a⟩ (r :: g) 1 hd (by decide) (by norm_num)]
      exact lemireResult_unit a ha r g
    · rw [reuse_templated_ctor_eq a a le_rfl (by rw [show
        lemire_reuse_templated_mult.computeDistance a a = 1 from hd]; decide)]
      rw [show lemire_reuse_templated_mult.computeDistance a a = 1 from hd, Nat.mod_one]
    · rw [reuse_templated_call_eq M ⟨a, 1, 0⟩ (r :: g) h10 (by norm_num)]
      exact lemireResult_unit a ha r g

theorem degenerate_range_returns_a_witness :
    (∃ s, OpenBSD_plain.ctor 42 42 = .ok s ∧ OpenBSD_plain.call s (7 :: [3]) = .ok (42, [3])) ∧
    (∃ s, OpenBSD_reuse.ctor 42 42 = .ok s ∧ OpenBSD_reuse.call s (7 :: [3]) = .ok (42, [3])) ∧
    (∃ s, java_plain.ctor 42 42 = .ok s ∧ java_plain.call s (7 :: [3]) = .ok (42, [3])) ∧
    (∃ s, java_reuse.ctor 42 42 = .ok s ∧ java_reuse.call s (7 :: [3]) = .ok (42, [3])) ∧
    (∀ M : MultImplementation,
      (∃ s, lemire_plain_templated_mult.ctor 42 42 = .ok s ∧
        lemire_plain_templated_mult.call M s (7 :: [3]) = .ok (42, [3])) ∧
      (∃ s, lemire_reuse_templated_mult.ctor 42 42 = .ok s ∧
        lemire_reuse_templated_mult.call M s (7 :: [3]) = .ok (42, [3]))) :=
  degenerate_range_returns_a 42 (by norm_num) 7 [3]

/-- C8: for a type of width 32 or 64 with `a` its minimum and `b` its maximum,
the distance is 0, the three variants can be constructed, and each call consumes
exactly one draw `r` and returns `transposeBack(r)`; this is `r` itself on an
unsigned type, it is always a value of the type, and every value of the type is
returned for exactly one `W`-bit draw. -/
theorem full_width_range_returns_draw (T : IntegerType) (hW : T.bits = 32 ∨ T.bits = 64) :
    computeDistance T T.minValue T.maxValue = 0 ∧
      (∃ sn sr sl, lemire_algorithm_no_reuse.ctor T T.minValue T.maxValue = .ok sn ∧
        lemire_algorithm_reuse.ctor T T.minValue T.maxValue = .ok sr ∧
        lemire_algorithm_lazy_reuse.ctor T T.minValue T.maxValue = .ok sl ∧
        ∀ (r : Nat) (g : Generator),
          lemire_algorithm_no_reuse.call T sn (r :: g)
              = .ok (transposeBack T (r % 2 ^ T.bits), g) ∧
            lemire_algorithm_reuse.call T sr (r :: g)
              = .ok (transposeBack T (r % 2 ^ T.bits), g) ∧
            lemire_algorithm_lazy_reuse.call T sl (r :: g)
              = .ok (transposeBack T (r % 2 ^ T.bits), sl, g)) ∧
      (T.isSigned = false → ∀ r, r < 2 ^ T.bits → transposeBack T r = r) ∧
      (∀ r, r < 2 ^ T.bits → T.Holds (transposeBack T r)) ∧
      (∀ v, T.Holds v → ∃! r, r < 2 ^ T.bits ∧ transposeBack T r = v) := by
  have hpos := bits_pos T hW
  have hd := full_distance T hpos
  have hle : T.minValue ≤ T.maxValue := by
    have := max_sub_min T hpos
    have hp : (0 : Int) < 2 ^ T.bits := by positivity
    omega
  refine ⟨hd, ⟨⟨T.minValue, T.maxValue⟩, ⟨transposeTo T T.minValue, 0, 0⟩,
    ⟨transposeTo T T.minValue, 0, lemire_algorithm_lazy_reuse.NONE T⟩, ?_, ?_, ?_, ?_⟩, ?_,
    fun r hr => transposeBack_holds T hpos r hr, fun v hv => transposeBack_bijective T hpos v hv⟩
  · unfold lemire_algorithm_no_reuse.ctor
    rw [if_pos hle]
  · rw [reuse_ctor_eq T _ _ hle, hd]
    rfl
  · unfold lemire_algorithm_lazy_reuse.ctor
    rw [if_pos hle, hd]
  · intro r g
    refine ⟨?_, ?_, ?_⟩
    · unfold lemire_algorithm_no_reuse.call
      simp only [hd, if_true]
      rfl
    · unfold lemire_algorithm_reuse.call
      simp only [if_true]
      rfl
    · unfold lemire_algorithm_lazy_reuse.call
      simp only [if_true]
      rfl
  · intro hs r hr
    unfold transposeBack fromUnsignedBits transposeToNaturalOrder
    simp [hs]

theorem full_width_range_returns_draw_witness :
    computeDistance ⟨true, 64⟩ (IntegerType.minValue ⟨true, 64⟩) (IntegerType.maxValue ⟨true, 64⟩)
        = 0 ∧
      ∀ v, IntegerType.Holds ⟨true, 64⟩ v →
        ∃! r, r < 2 ^ 64 ∧ transposeBack ⟨true, 64⟩ r = v :=
  ⟨(full_width_range_returns_draw ⟨true, 64⟩ (Or.inr rfl)).1,
    (full_width_range_returns_draw ⟨true, 64⟩ (Or.inr rfl)).2.2.2.2⟩

/-- C9 (evaluation at the failing input): on `int32_t` with `a = 0`, `b = 10` and
the single draw `2^31`, `lemire_algorithm_reuse` and `lemire_algorithm_lazy_reuse`
return `5`, while `lemire_algorithm_no_reuse`, which adds the high word to the
untransposed `m_a` and then transposes back, returns `5 - 2^31`. -/
theorem no_reuse_signed_call_differs :
    lemire_algorithm_no_reuse.ctor ⟨true, 32⟩ 0 10 = .ok ⟨0, 10⟩ ∧
      lemire_algorithm_no_reuse.call ⟨true, 32⟩ ⟨0, 10⟩ [2 ^ 31] = .ok (-2147483643, []) ∧
      lemire_algorithm_reuse.ctor ⟨true, 32⟩ 0 10 = .ok ⟨2 ^ 31, 11, 4⟩ ∧
      lemire_algorithm_reuse.call ⟨true, 32⟩ ⟨2 ^ 31, 11, 4⟩ [2 ^ 31] = .ok (5, []) ∧
      lemire_algorithm_lazy_reuse.ctor ⟨true, 32⟩ 0 10 = .ok ⟨2 ^ 31, 11, 2 ^ 32 - 1⟩ ∧
      lemire_algorithm_lazy_reuse.call ⟨true, 32⟩ ⟨2 ^ 31, 11, 2 ^ 32 - 1⟩ [2 ^ 31]
        = .ok (5, ⟨2 ^ 31, 11, 2 ^ 32 - 1⟩, []) := by
  refine ⟨by rfl, by rfl, by rfl, by rfl, by rfl, by rfl⟩

/-- C10: for a signed type of width 32 or 64 and every `a <= b`,
`lemire_algorithm_reuse` can be constructed, and whenever a call returns, the
result lies in `[a, b]` in signed order; when the distance is non-zero the call
has consumed rejected draws followed by one accepted draw, and the result is
`a + upper` as a mathematical integer, `upper` being the high word of the
accepted draw times the distance. -/
theorem reuse_signed_range_containment (T : IntegerType) (_hs : T.isSigned = true)
    (hW : T.bits = 32 ∨ T.bits = 64) (a b : Int) (ha : T.Holds a) (hb : T.Holds b)
    (hab : a ≤ b) :
    lemire_algorithm_reuse.ctor T a b =
        .ok { m_a := transposeTo T a, m_ab_distance := computeDistance T a b,
              m_rejection_threshold :=
                if computeDistance T a b = 0 then 0 else 2 ^ T.bits % computeDistance T a b } ∧
      ∀ (g : Generator) (res : Int) (g1 : Generator),
        lemire_algorithm_reuse.call T
            { m_a := transposeTo T a, m_ab_distance := computeDistance T a b,
              m_rejection_threshold :=
                if computeDistance T a b = 0 then 0 else 2 ^ T.bits % computeDistance T a b } g
          = .ok (res, g1) →
        a ≤ res ∧ res ≤ b ∧
          (computeDistance T a b ≠ 0 →
            ∃ pre r, g = pre ++ r :: g1 ∧
              (∀ x ∈ pre, (extendedMult T.bits (x % 2 ^ T.bits) (computeDistance T a b)).lower
                < 2 ^ T.bits % computeDistance T a b) ∧
              2 ^ T.bits % computeDistance T a b
                ≤ (extendedMult T.bits (r % 2 ^ T.bits) (computeDistance T a b)).lower ∧
              res = a + ((extendedMult T.bits (r % 2 ^ T.bits) (computeDistance T a b)).upper
                : Nat)) := by
  have hpos := bits_pos T hW
  refine ⟨reuse_ctor_eq T a b hab, ?_⟩
  intro g res g1 h
  by_cases hd : computeDistance T a b = 0
  · have hde := computeDistance_eq T hpos a b ha hb hab
    have h1 := (holds_iff T hpos a).1 ha
    have h2 := (holds_iff T hpos b).1 hb
    have hp : (0 : Int) < 2 ^ T.bits := by positivity
    have hfull : b - a + 1 = 2 ^ T.bits := by
      by_contra hne
      rw [Int.emod_eq_of_lt (by omega) (by omega), hd] at hde
      have := Int.toNat_of_nonneg (show 0 ≤ b - a + 1 by omega)
      omega
    unfold lemire_algorithm_reuse.call at h
    simp only [hd, if_true] at h
    cases g with
    | nil => simp [fillBitsFrom, bind, Except.bind] at h
    | cons r rest =>
      simp only [fillBitsFrom, bind, Except.bind, pure, Except.pure, Except.ok.injEq,
        Prod.mk.injEq] at h
      have hr := transposeBack_holds T hpos (r % 2 ^ T.bits) (Nat.mod_lt _ (Nat.two_pow_pos _))
      rw [h.1] at hr
      have h3 := (holds_iff T hpos res).1 hr
      exact ⟨by omega, by omega, fun hne => absurd hd hne⟩
  · rw [reuse_call_eq T _ g hd] at h
    simp only [hd, if_false] at h
    obtain ⟨pre, r, hg, hpre, hr, hres⟩ := lemireResult_ok _ _ _ _ _ g g1 res h
    have hu := extendedMult_upper_lt T.bits (r % 2 ^ T.bits) (computeDistance T a b)
      (Nat.mod_lt _ (Nat.two_pow_pos _)) (Nat.pos_of_ne_zero hd)
    rw [reuse_result_eq T hpos a b ha hb hab hd _ hu] at hres
    have hc := computeDistance_cast T hpos a b ha hb hab hd
    have hu' : (((extendedMult T.bits (r % 2 ^ T.bits) (computeDistance T a b)).upper : Nat) : Int)
        < (computeDistance T a b : Nat) := by exact_mod_cast hu
    refine ⟨by omega, by omega, fun _ => ⟨pre, r, hg, hpre, by omega, hres⟩⟩

theorem reuse_signed_range_containment_witness :
    (-5 : Int) ≤ 0 ∧ (0 : Int) ≤ 5 ∧
      (computeDistance ⟨true, 32⟩ (-5) 5 ≠ 0 →
        ∃ pre r, [0, 2 ^ 31, 7] = pre ++ r :: [7] ∧
          (∀ x ∈ pre, (extendedMult 32 (x % 2 ^ 32) (computeDistance ⟨true, 32⟩ (-5) 5)).lower
            < 2 ^ 32 % computeDistance ⟨true, 32⟩ (-5) 5) ∧
          2 ^ 32 % computeDistance ⟨true, 32⟩ (-5) 5
            ≤ (extendedMult 32 (r % 2 ^ 32) (computeDistance ⟨true, 32⟩ (-5) 5)).lower ∧
          (0 : Int) = -5 + ((extendedMult 32 (r % 2 ^ 32) (computeDistance ⟨true, 32⟩ (-5) 5)).upper
            : Nat)) :=
  (reuse_signed_range_containment ⟨true, 32⟩ rfl (Or.inl rfl) (-5) 5 (by decide) (by decide)
    (by decide)).2 [0, 2 ^ 31, 7] 0 [7] (by rfl)

/-- C11 (evaluation at the failing input): constructing
`lemire_reuse_templated_mult` or `OpenBSD_reuse` with `a = 0`, `b = 2^64 - 1`
makes the distance wrap to 0 and the member initialiser of the threshold then
evaluates `%` with a zero divisor; the guarded `lemire_algorithm_reuse` is
constructed on the same range and its calls return the raw draw. -/
theorem precomputing_ctor_divides_by_zero :
    lemire_reuse_templated_mult.computeDistance 0 (2 ^ 64 - 1) = 0 ∧
      lemire_reuse_templated_mult.ctor 0 (2 ^ 64 - 1) = .error .divByZero ∧
      OpenBSD_reuse.ctor 0 (2 ^ 64 - 1) = .error .divByZero ∧
      lemire_algorithm_reuse.ctor ⟨false, 64⟩ 0 (2 ^ 64 - 1) = .ok ⟨0, 0, 0⟩ ∧
      lemire_algorithm_reuse.call ⟨false, 64⟩ ⟨0, 0, 0⟩ [12345, 7] = .ok (12345, [7]) := by
  refine ⟨by rfl, by rfl, by rfl, by rfl, by rfl⟩

/-- C12: for a type of width 32 or 64 and every non-zero `W`-bit distance `d`,
`computeRejectionThreshold(d) = (~d + 1) % d` in each of the three
`lemire_algorithm_*` classes (and, for `W = 64`, in the two templated classes)
is `2^W mod d` as a natural number, which is strictly less than `d`. -/
theorem rejection_threshold_value (T : IntegerType) (_hW : T.bits = 32 ∨ T.bits = 64)
    (d : Nat) (hd0 : d ≠ 0) (hd : d < 2 ^ T.bits) :
    lemire_algorithm_no_reuse.computeRejectionThreshold T d = .ok (2 ^ T.bits % d) ∧
      lemire_algorithm_reuse.computeRejectionThreshold T d = .ok (2 ^ T.bits % d) ∧
      lemire_algorithm_lazy_reuse.computeRejectionThreshold T d = .ok (2 ^ T.bits % d) ∧
      (T.bits = 64 →
        lemire_plain_templated_mult.computeRejectionThreshold d = .ok (2 ^ 64 % d) ∧
          lemire_reuse_templated_mult.computeRejectionThreshold d = .ok (2 ^ 64 % d)) ∧
      2 ^ T.bits % d < d := by
  refine ⟨no_reuse_threshold T d hd0 hd, reuse_threshold T d hd0 hd, lazy_threshold T d hd0 hd,
    ?_, Nat.mod_lt _ (by omega)⟩
  intro h64
  rw [h64] at hd
  exact templated_threshold d hd0 hd

theorem rejection_threshold_value_witness :
    lemire_algorithm_no_reuse.computeRejectionThreshold ⟨false, 32⟩ 1000001
        = .ok (2 ^ 32 % 1000001) ∧
      lemire_algorithm_reuse.computeRejectionThreshold ⟨false, 32⟩ 1000001
        = .ok (2 ^ 32 % 1000001) ∧
      lemire_algorithm_lazy_reuse.computeRejectionThreshold ⟨false, 32⟩ 1000001
        = .ok (2 ^ 32 % 1000001) ∧
      ((32 : Nat) = 64 →
        lemire_plain_templated_mult.computeRejectionThreshold 1000001 = .ok (2 ^ 64 % 1000001) ∧
          lemire_reuse_templated_mult.computeRejectionThreshold 1000001
            = .ok (2 ^ 64 % 1000001)) ∧
      2 ^ 32 % 1000001 < 1000001 :=
  rejection_threshold_value ⟨false, 32⟩ (Or.inl rfl) 1000001 (by decide) (by norm_num)

/-- C13: for an integer type of any width `W > 0` (signed or unsigned) and every
`a <= b`, `computeDistance(a, b)` is the count `b - a + 1` whenever that count
is below `2^W`, and it is 0 exactly when `a` is the minimum and `b` the maximum
of the type; the same holds for `b - a + 1` on `uint64_t` in the two templated
classes. -/
theorem distance_is_range_size (T : IntegerType) (hW : 0 < T.bits) (a b : Int)
    (ha : T.Holds a) (hb : T.Holds b) (hab : a ≤ b) :
    (b - a + 1 < 2 ^ T.bits → ((computeDistance T a b : Nat) : Int) = b - a + 1) ∧
      (computeDistance T a b = 0 ↔ a = T.minValue ∧ b = T.maxValue) ∧
      (∀ x y : Nat, x ≤ y → y < 2 ^ 64 →
        (y - x + 1 < 2 ^ 64 →
          lemire_plain_templated_mult.computeDistance x y = y - x + 1 ∧
            lemire_reuse_templated_mult.computeDistance x y = y - x + 1) ∧
        (lemire_plain_templated_mult.computeDistance x y = 0 ↔ x = 0 ∧ y = 2 ^ 64 - 1) ∧
        (lemire_reuse_templated_mult.computeDistance x y = 0 ↔ x = 0 ∧ y = 2 ^ 64 - 1)) := by
  have hiff := computeDistance_eq_zero_iff T hW a b ha hb hab
  refine ⟨?_, hiff, ?_⟩
  · intro hlt
    have hde := computeDistance_eq T hW a b ha hb hab
    rw [Int.emod_eq_of_lt (by omega) hlt] at hde
    rw [hde, Int.toNat_of_nonneg (by omega)]
  · intro x y hxy hy
    have e : uadd 64 (usub 64 y x) 1 = (y - x + 1) % 2 ^ 64 := templated_distance x y hxy
    refine ⟨fun hlt => ?_, templated_distance_eq_zero_iff x y hxy hy,
      templated_distance_eq_zero_iff x y hxy hy⟩
    unfold lemire_plain_templated_mult.computeDistance lemire_reuse_templated_mult.computeDistance
    rw [e, Nat.mod_eq_of_lt hlt]
    exact ⟨rfl, rfl⟩

theorem distance_is_range_size_witness :
    ((10 : Int) - (-5) + 1 < 2 ^ 32 →
        ((computeDistance ⟨true, 32⟩ (-5) 10 : Nat) : Int) = 10 - (-5) + 1) ∧
      (computeDistance ⟨true, 32⟩ (-5) 10 = 0 ↔
        (-5 : Int) = IntegerType.minValue ⟨true, 32⟩ ∧
          (10 : Int) = IntegerType.maxValue ⟨true, 32⟩) ∧
      (∀ x y : Nat, x ≤ y → y < 2 ^ 64 →
        (y - x + 1 < 2 ^ 64 →
          lemire_plain_templated_mult.computeDistance x y = y - x + 1 ∧
            lemire_reuse_templated_mult.computeDistance x y = y - x + 1) ∧
        (lemire_plain_templated_mult.computeDistance x y = 0 ↔ x = 0 ∧ y = 2 ^ 64 - 1) ∧
        (lemire_reuse_templated_mult.computeDistance x y = 0 ↔ x = 0 ∧ y = 2 ^ 64 - 1)) :=
  distance_is_range_size ⟨true, 32⟩ (by decide) (-5) 10 (by decide) (by decide) (by decide)

/-- C14: for an integer type of width `W > 0` and values `v1`, `v2` of the type,
`v1 <= v2` holds if and only if `transposeTo(v1) <= transposeTo(v2)` in unsigned
order; on a signed type `transposeTo` is the unsigned reinterpretation with the
top bit flipped, which is `v + 2^(W-1)`, and on an unsigned type it is the
identity. -/
theorem transposeTo_order_preserving (T : IntegerType) (hW : 0 < T.bits) (v1 v2 : Int)
    (h1 : T.Holds v1) (h2 : T.Holds v2) :
    (v1 ≤ v2 ↔ transposeTo T v1 ≤ transposeTo T v2) ∧
      (T.isSigned = true →
        transposeTo T v1 = toUnsignedBits T v1 ^^^ 2 ^ (T.bits - 1) ∧
          ((transposeTo T v1 : Nat) : Int) = v1 + 2 ^ (T.bits - 1)) ∧
      (T.isSigned = false → ((transposeTo T v1 : Nat) : Int) = v1) := by
  have e1 := transposeTo_eq T hW v1 h1
  have e2 := transposeTo_eq T hW v2 h2
  refine ⟨?_, ?_, ?_⟩
  · rw [← Int.ofNat_le, e1, e2]
    omega
  · intro hs
    refine ⟨?_, by rw [e1, offset_signed T hs]⟩
    unfold transposeTo transposeToNaturalOrder
    rw [if_pos hs, Nat.one_shiftLeft]
  · intro hs
    rw [e1, offset_unsigned T hs]
    ring

theorem transposeTo_order_preserving_witness :
    ((-3 : Int) ≤ 4 ↔ transposeTo ⟨true, 32⟩ (-3) ≤ transposeTo ⟨true, 32⟩ 4) ∧
      ((⟨true, 32⟩ : IntegerType).isSigned = true →
        transposeTo ⟨true, 32⟩ (-3) = toUnsignedBits ⟨true, 32⟩ (-3) ^^^ 2 ^ (32 - 1) ∧
          ((transposeTo ⟨true, 32⟩ (-3) : Nat) : Int) = -3 + 2 ^ (32 - 1)) ∧
      ((⟨true, 32⟩ : IntegerType).isSigned = false →
        ((transposeTo ⟨true, 32⟩ (-3) : Nat) : Int) = -3) :=
  transposeTo_order_preserving ⟨true, 32⟩ (by decide) (-3) 4 (by decide) (by decide)

/-- C15: for an integer type of width `W > 0`, `transposeBack(transposeTo(v)) = v`
for every value `v` of the type and `transposeTo(transposeBack(u)) = u` for every
`W`-bit `u`; both maps land in the other domain, so they are mutually inverse
bijections. -/
theorem transpose_round_trip (T : IntegerType) (hW : 0 < T.bits) :
    (∀ v, T.Holds v → transposeTo T v < 2 ^ T.bits ∧ transposeBack T (transposeTo T v) = v) ∧
      (∀ u, u < 2 ^ T.bits →
        T.Holds (transposeBack T u) ∧ transposeTo T (transposeBack T u) = u) := by
  constructor
  · intro v hv
    have hlt := transposeTo_lt T hW v hv
    refine ⟨hlt, ?_⟩
    rw [transposeBack_eq T hW _ hlt, transposeTo_eq T hW v hv]
    ring
  · intro u hu
    have hh := transposeBack_holds T hW u hu
    refine ⟨hh, ?_⟩
    have e := transposeTo_eq T hW _ hh
    rw [transposeBack_eq T hW u hu] at e
    have : ((transposeTo T (transposeBack T u) : Nat) : Int) = u := by
      rw [transposeBack_eq T hW u hu, e]
      ring
    exact_mod_cast this

theorem transpose_round_trip_witness :
    (∀ v, IntegerType.Holds ⟨true, 64⟩ v →
        transposeTo ⟨true, 64⟩ v < 2 ^ 64 ∧
          transposeBack ⟨true, 64⟩ (transposeTo ⟨true, 64⟩ v) = v) ∧
      (∀ u, u < 2 ^ 64 →
        IntegerType.Holds ⟨true, 64⟩ (transposeBack ⟨true, 64⟩ u) ∧
          transposeTo ⟨true, 64⟩ (transposeBack ⟨true, 64⟩ u) = u) :=
  transpose_round_trip ⟨true, 64⟩ (by decide)

/-- C16: for 64-bit `a <= b` with non-zero distance and all backends `M`, `M2`,
both templated generators can be constructed, and on every draw sequence `n`
consecutive calls of `lemire_plain_templated_mult<M>` and of
`lemire_reuse_templated_mult<M2>` give the same results and leave the same
draws; so do the same class with two backends. -/
theorem templated_backend_independence (M M2 : MultImplementation) (a b : Nat) (hab : a ≤ b)
    (hb : b < 2 ^ 64) (hd : lemire_plain_templated_mult.computeDistance a b ≠ 0) :
    lemire_plain_templated_mult.ctor a b = .ok { m_a := a, m_b := b } ∧
      lemire_reuse_templated_mult.ctor a b =
        .ok { m_a := a, m_ab_distance := b - a + 1, m_threshold := 2 ^ 64 % (b - a + 1) } ∧
      ∀ (n : Nat) (g : Generator),
        observed (consecutive_calls (constCall (lemire_plain_templated_mult.call M)) n
            { m_a := a, m_b := b } g) =
          observed (consecutive_calls (constCall (lemire_reuse_templated_mult.call M2)) n
            { m_a := a, m_ab_distance := b - a + 1, m_threshold := 2 ^ 64 % (b - a + 1) } g) ∧
        observed (consecutive_calls (constCall (lemire_plain_templated_mult.call M)) n
            { m_a := a, m_b := b } g) =
          observed (consecutive_calls (constCall (lemire_plain_templated_mult.call M2)) n
            { m_a := a, m_b := b } g) ∧
        observed (consecutive_calls (constCall (lemire_reuse_templated_mult.call M)) n
            { m_a := a, m_ab_distance := b - a + 1, m_threshold := 2 ^ 64 % (b - a + 1) } g) =
          observed (consecutive_calls (constCall (lemire_reuse_templated_mult.call M2)) n
            { m_a := a, m_ab_distance := b - a + 1, m_threshold := 2 ^ 64 % (b - a + 1) } g) := by
  have hdv2 : lemire_reuse_templated_mult.computeDistance a b = b - a + 1 :=
    templated_distance_pos a b hab hb hd
  refine ⟨by unfold lemire_plain_templated_mult.ctor; rw [if_pos hab], ?_, ?_⟩
  · rw [reuse_templated_ctor_eq a b hab (by rw [hdv2]; omega), hdv2]
  · intro n g
    refine ⟨?_, ?_, ?_⟩
    · apply const_consecutive_eq
      intro g1
      rw [(templated_call_independent M M2 a b hab hb hd g1).1,
        (templated_call_independent M M2 a b hab hb hd g1).2]
    · apply const_consecutive_eq
      intro g1
      rw [(templated_call_independent M M2 a b hab hb hd g1).1,
        (templated_call_independent M2 M a b hab hb hd g1).1]
    · apply const_consecutive_eq
      intro g1
      rw [(templated_call_independent M M a b hab hb hd g1).2,
        (templated_call_independent M M2 a b hab hb hd g1).2]

theorem templated_backend_independence_witness :
    observed (consecutive_calls
        (constCall (lemire_plain_templated_mult.call MultImplementation.NaiveMult)) 2
        { m_a := 7, m_b := 9 } [0, 5, 2 ^ 63, 11]) =
      observed (consecutive_calls
        (constCall (lemire_reuse_templated_mult.call MultImplementation.IntrinsicMult)) 2
        { m_a := 7, m_ab_distance := 9 - 7 + 1, m_threshold := 2 ^ 64 % (9 - 7 + 1) }
        [0, 5, 2 ^ 63, 11]) :=
  ((templated_backend_independence .NaiveMult .IntrinsicMult 7 9 (by decide) (by norm_num)
    (by decide)).2.2 2 [0, 5, 2 ^ 63, 11]).1

/-- C17: for 64-bit `a <= b` with non-zero distance, the four comparator classes
can be constructed with `(a, b)`, and whenever a call of `OpenBSD_plain`,
`OpenBSD_reuse`, `java_plain` or `java_reuse` returns, the result lies in
`[a, b]`. -/
theorem comparator_range_containment (a b : Nat) (hab : a ≤ b) (hb : b < 2 ^ 64)
    (hd : uadd 64 (usub 64 b a) 1 ≠ 0) :
    OpenBSD_plain.ctor a b = .ok { m_a := a, m_b := b } ∧
      OpenBSD_reuse.ctor a b =
        .ok { m_a := a, m_distance := b - a + 1,
              m_threshold := uneg 64 (b - a + 1) % (b - a + 1) } ∧
      java_plain.ctor a b = .ok { m_a := a, m_b := b } ∧
      java_reuse.ctor a b = .ok { m_a := a, m_distance := b - a + 1 } ∧
      ∀ (g : Generator) (res : Nat) (g1 : Generator),
        (OpenBSD_plain.call { m_a := a, m_b := b } g = .ok (res, g1) ∨
          OpenBSD_reuse.call
            { m_a := a, m_distance := b - a + 1,
              m_threshold := uneg 64 (b - a + 1) % (b - a + 1) } g = .ok (res, g1) ∨
          java_plain.call { m_a := a, m_b := b } g = .ok (res, g1) ∨
          java_reuse.call { m_a := a, m_distance := b - a + 1 } g = .ok (res, g1)) →
        a ≤ res ∧ res ≤ b := by
  have hdv : uadd 64 (usub 64 b a) 1 = b - a + 1 := templated_distance_pos a b hab hb hd
  have hd0 : b - a + 1 ≠ 0 := by omega
  have hbound : ∀ res, (∃ r, r < b - a + 1 ∧ res = uadd 64 a r) → a ≤ res ∧ res ≤ b := by
    rintro res ⟨r, hr, rfl⟩
    unfold uadd
    rw [Nat.mod_eq_of_lt (by omega)]
    omega
  refine ⟨rfl, ?_, rfl, ?_, ?_⟩
  · rw [openBSD_reuse_ctor_eq a b hd, hdv]
  · unfold java_reuse.ctor
    rw [hdv]
  · intro g res g1 h
    apply hbound
    rcases h with h | h | h | h
    · rw [openBSD_plain_call_eq a b g hd, hdv] at h
      exact openBSD_call_result a _ _ hd0 g g1 res h
    · exact openBSD_call_result a _ _ hd0 g g1 res h
    · rw [java_plain_call_eq a b g, hdv] at h
      exact java_call_result a _ hd0 g g1 res h
    · exact java_call_result a _ hd0 g g1 res h

theorem comparator_range_containment_witness :
    java_reuse.call { m_a := 7, m_distance := 22 - 7 + 1 } [2 ^ 64 - 1, 5, 3] = .ok (22, [5, 3]) ∧
      7 ≤ 22 ∧ 22 ≤ 22 :=
  ⟨by rfl,
    (comparator_range_containment 7 22 (by decide) (by norm_num) (by decide)).2.2.2.2
      [2 ^ 64 - 1, 5, 3] 22 [5, 3] (Or.inr (Or.inr (Or.inr (by rfl))))⟩

/-- C18 (evaluation at the failing input): `lemire_reuse_templated_mult(5, 4)`
stops with a division by zero in the member initialiser of the threshold, before
`assert(a <= b)` is reached; this happens exactly when `a = b + 1`.  For every
other pair with `a > b`, and for the four other classes on every pair with
`a > b`, construction stops at the assertion. -/
theorem reversed_range_ctor :
    lemire_reuse_templated_mult.ctor 5 4 = .error .divByZero ∧
      (∀ (a b : Nat), b < a → a < 2 ^ 64 →
        (a = b + 1 → lemire_reuse_templated_mult.ctor a b = .error .divByZero) ∧
        (a ≠ b + 1 → lemire_reuse_templated_mult.ctor a b = .error .assertion) ∧
        lemire_plain_templated_mult.ctor a b = .error .assertion) ∧
      (∀ (T : IntegerType) (a b : Int), b < a →
        lemire_algorithm_no_reuse.ctor T a b = .error .assertion ∧
        lemire_algorithm_reuse.ctor T a b = .error .assertion ∧
        lemire_algorithm_lazy_reuse.ctor T a b = .error .assertion) := by
  refine ⟨by rfl, ?_, ?_⟩
  · intro a b hba ha
    have hiff := reversed_distance_eq_zero_iff a b hba ha
    have hnle : ¬ a ≤ b := by omega
    refine ⟨?_, ?_, ?_⟩
    · intro h
      have hd := hiff.2 h
      simp only [lemire_reuse_templated_mult.ctor, lemire_reuse_templated_mult.computeDistance,
        lemire_reuse_templated_mult.computeRejectionThreshold, hd, umod, bind, Except.bind,
        if_true]
    · intro h
      have hd : ¬ uadd 64 (usub 64 b a) 1 = 0 := fun h0 => h (hiff.1 h0)
      simp only [lemire_reuse_templated_mult.ctor, lemire_reuse_templated_mult.computeDistance,
        lemire_reuse_templated_mult.computeRejectionThreshold, hd, umod, bind, Except.bind,
        if_false, hnle, throw, throwThe, MonadExceptOf.throw]
    · unfold lemire_plain_templated_mult.ctor
      rw [if_neg hnle]
  · intro T a b hba
    have hnle : ¬ a ≤ b := by omega
    refine ⟨?_, ?_, ?_⟩
    · unfold lemire_algorithm_no_reuse.ctor
      rw [if_neg hnle]
    · by_cases hd : computeDistance T a b = 0
      · simp only [lemire_algorithm_reuse.ctor, lemire_algorithm_reuse.computeRejectionThreshold,
          hd, if_true, bind, Except.bind, hnle, if_false, throw, throwThe, MonadExceptOf.throw]
      · simp only [lemire_algorithm_reuse.ctor, lemire_algorithm_reuse.computeRejectionThreshold,
          hd, umod, if_false, bind, Except.bind, hnle, throw, throwThe, MonadExceptOf.throw]
    · unfold lemire_algorithm_lazy_reuse.ctor
      rw [if_neg hnle]

/-- C19 (evaluation at the failing input): on `int32_t` with `a = 0`, `b = 10`
the draw `2^31` is accepted with high word 5, and the call of
`lemire_algorithm_no_reuse` returns after this one draw, but with `5 - 2^31`
instead of `a + upper = 5`.  In general, for a type of width 32 or 64, `a <= b`
with non-zero distance and draws made of rejected draws followed by an accepted
one, every variant returns and leaves exactly the draws after the accepted one;
`lemire_algorithm_reuse` and `lemire_algorithm_lazy_reuse` return `a + upper`
for the accepted draw, `lemire_algorithm_no_reuse` does so on unsigned types
and returns a different value on signed types. -/
theorem call_on_first_accepted_draw :
    (2 ^ 32 % 11 ≤ (extendedMult 32 (2 ^ 31) 11).lower ∧
      (extendedMult 32 (2 ^ 31) 11).upper = 5 ∧
      lemire_algorithm_no_reuse.call ⟨true, 32⟩ ⟨0, 10⟩ [2 ^ 31, 7] = .ok (-2147483643, [7]) ∧
      lemire_algorithm_reuse.call ⟨true, 32⟩ ⟨2 ^ 31, 11, 4⟩ [2 ^ 31, 7] = .ok (5, [7])) ∧
    ∀ (T : IntegerType), (T.bits = 32 ∨ T.bits = 64) → ∀ (a b : Int), T.Holds a → T.Holds b →
      a ≤ b → computeDistance T a b ≠ 0 → ∀ (pre : List Nat) (r : Nat) (rest : Generator),
      (∀ x ∈ pre, (extendedMult T.bits (x % 2 ^ T.bits) (computeDistance T a b)).lower
        < 2 ^ T.bits % computeDistance T a b) →
      2 ^ T.bits % computeDistance T a b
        ≤ (extendedMult T.bits (r % 2 ^ T.bits) (computeDistance T a b)).lower →
      lemire_algorithm_reuse.ctor T a b =
          .ok { m_a := transposeTo T a, m_ab_distance := computeDistance T a b,
                m_rejection_threshold := 2 ^ T.bits % computeDistance T a b } ∧
      lemire_algorithm_reuse.call T
          { m_a := transposeTo T a, m_ab_distance := computeDistance T a b,
            m_rejection_threshold := 2 ^ T.bits % computeDistance T a b } (pre ++ r :: rest)
        = .ok (a + ((extendedMult T.bits (r % 2 ^ T.bits) (computeDistance T a b)).upper : Nat),
            rest) ∧
      (∃ sl1, lemire_algorithm_lazy_reuse.call T
          { m_a := transposeTo T a, m_ab_distance := computeDistance T a b,
            m_rejection_threshold := lemire_algorithm_lazy_reuse.NONE T } (pre ++ r :: rest)
        = .ok (a + ((extendedMult T.bits (r % 2 ^ T.bits) (computeDistance T a b)).upper : Nat),
            sl1, rest)) ∧
      (T.isSigned = false →
        lemire_algorithm_no_reuse.call T { m_a := a, m_b := b } (pre ++ r :: rest)
          = .ok (a + ((extendedMult T.bits (r % 2 ^ T.bits) (computeDistance T a b)).upper : Nat),
              rest)) ∧
      (T.isSigned = true →
        ∃ res2, lemire_algorithm_no_reuse.call T { m_a := a, m_b := b } (pre ++ r :: rest)
            = .ok (res2, rest) ∧
          res2 ≠ a + ((extendedMult T.bits (r % 2 ^ T.bits) (computeDistance T a b)).upper
            : Nat)) := by
  refine ⟨⟨by decide, by rfl, by rfl, by rfl⟩, ?_⟩
  intro T hW a b ha hb hab hd pre r rest hpre hr
  have hctor := reuse_ctor_eq T a b hab
  rw [if_neg hd] at hctor
  exact ⟨hctor, calls_rejected_then_accepted T (bits_pos T hW) a b ha hb hab hd pre r rest hpre hr⟩

/-- C20: for a type of width 32 or 64 and every non-zero `W`-bit distance `d`, the
number of `W`-bit draws that are rejected (low product word strictly below the
threshold) is exactly the threshold `2^W mod d`; it is strictly less than
`2^(W-1)`, so fewer than half of all draws are rejected, and at least one draw
is accepted. -/
theorem rejected_draws_count (T : IntegerType) (hW : T.bits = 32 ∨ T.bits = 64)
    (d : Nat) (hd0 : d ≠ 0) (hd : d < 2 ^ T.bits) :
    ∃ t, lemire_algorithm_reuse.computeRejectionThreshold T d = .ok t ∧
      t = 2 ^ T.bits % d ∧
      ((Finset.range (2 ^ T.bits)).filter
        (fun r => (extendedMult T.bits r d).lower < t)).card = t ∧
      t < 2 ^ (T.bits - 1) ∧
      2 * ((Finset.range (2 ^ T.bits)).filter
        (fun r => (extendedMult T.bits r d).lower < t)).card < 2 ^ T.bits ∧
      0 < ((Finset.range (2 ^ T.bits)).filter
        (fun r => t ≤ (extendedMult T.bits r d).lower)).card := by
  have hpos := bits_pos T hW
  have hd1 : 0 < d := Nat.pos_of_ne_zero hd0
  have hrej := rejected_card T.bits d hd1
  have hhalf := threshold_lt_half T.bits d hpos hd1 hd
  have h2 := two_pow_pred_double T.bits hpos
  refine ⟨2 ^ T.bits % d, reuse_threshold T d hd0 hd, rfl, hrej, hhalf, ?_, ?_⟩
  · rw [hrej]
    omega
  · rw [accepted_total_card T.bits d hd1]
    exact Nat.mul_pos hd1 (Nat.div_pos (le_of_lt hd) hd1)

theorem rejected_draws_count_witness :
    ∃ t, lemire_algorithm_reuse.computeRejectionThreshold ⟨false, 64⟩ 12298110947468241578
        = .ok t ∧
      t = 2 ^ 64 % 12298110947468241578 ∧
      ((Finset.range (2 ^ 64)).filter
        (fun r => (extendedMult 64 r 12298110947468241578).lower < t)).card = t ∧
      t < 2 ^ (64 - 1) ∧
      2 * ((Finset.range (2 ^ 64)).filter
        (fun r => (extendedMult 64 r 12298110947468241578).lower < t)).card < 2 ^ 64 ∧
      0 < ((Finset.range (2 ^ 64)).filter
        (fun r => t ≤ (extendedMult 64 r 12298110947468241578).lower)).card :=
  rejected_draws_count ⟨false, 64⟩ (Or.inr rfl) 12298110947468241578 (by decide) (by norm_num)

/-- C21: for a type of width 32 or 64, every `W`-bit draw `r` and every non-zero
`W`-bit distance `d`, the high word of the product `r * d` is
`floor(r * d / 2^W)` and is strictly below `d`, whether or not the draw is
accepted; for `W = 64` this holds for the high word returned by each multiply
backend. -/
theorem scaled_draw_is_valid_offset (T : IntegerType) (_hW : T.bits = 32 ∨ T.bits = 64)
    (r d : Nat) (hr : r < 2 ^ T.bits) (hd0 : d ≠ 0) (hd : d < 2 ^ T.bits) :
    (extendedMult T.bits r d).upper = r * d / 2 ^ T.bits ∧
      (extendedMult T.bits r d).upper < d ∧
      (T.bits = 64 → ∀ M : MultImplementation,
        (M.Mult r d).upper = r * d / 2 ^ 64 ∧ (M.Mult r d).upper < d) := by
  have hu := extendedMult_upper_lt T.bits r d hr (Nat.pos_of_ne_zero hd0)
  refine ⟨rfl, hu, ?_⟩
  intro h64 M
  rw [h64] at hr hd hu
  rw [Mult_eq_extendedMult M r d hr hd]
  exact ⟨rfl, hu⟩

theorem scaled_draw_is_valid_offset_witness :
    (extendedMult 64 (2 ^ 64 - 1) 16).upper = (2 ^ 64 - 1) * 16 / 2 ^ 64 ∧
      (extendedMult 64 (2 ^ 64 - 1) 16).upper < 16 ∧
      ((64 : Nat) = 64 → ∀ M : MultImplementation,
        (M.Mult (2 ^ 64 - 1) 16).upper = (2 ^ 64 - 1) * 16 / 2 ^ 64 ∧
          (M.Mult (2 ^ 64 - 1) 16).upper < 16) :=
  scaled_draw_is_valid_offset ⟨false, 64⟩ (Or.inr rfl) (2 ^ 64 - 1) 16 (by norm_num)
    (by decide) (by norm_num)

/-- C24: for all 64-bit `lhs` and `rhs`, the products and the three sums of
`ext_mul_optimized` (for `high_low`, for `low_high` and for the returned upper
word) are below `2^64` as natural numbers, so no 64-bit addition wraps: the
function returns the exact upper sum, and the exact `low_high` shifted into the
lower word. -/
theorem ext_mul_optimized_no_wraparound (lhs rhs : Nat) (hl : lhs < 2 ^ 64)
    (hr : rhs < 2 ^ 64) :
    Digits lhs * Digits rhs < 2 ^ 64 ∧
      CarryBits lhs * CarryBits rhs < 2 ^ 64 ∧
      CarryBits lhs * Digits rhs < 2 ^ 64 ∧
      Digits lhs * CarryBits rhs < 2 ^ 64 ∧
      ext_mul_optimized_high_low lhs rhs < 2 ^ 64 ∧
      ext_mul_optimized_low_high lhs rhs < 2 ^ 64 ∧
      CarryBits lhs * CarryBits rhs + CarryBits (ext_mul_optimized_high_low lhs rhs) < 2 ^ 64 ∧
      ext_mul_optimized_upper_sum lhs rhs < 2 ^ 64 ∧
      ext_mul_optimized lhs rhs =
        { upper := ext_mul_optimized_upper_sum lhs rhs,
          lower := u64 (ext_mul_optimized_low_high lhs rhs <<< 32)
            ||| Digits (Digits lhs * Digits rhs) } := by
  have hL1 : lhs / 2 ^ 32 < 2 ^ 32 := by omega
  have hL2 : lhs % 2 ^ 32 < 2 ^ 32 := by omega
  have hR1 : rhs / 2 ^ 32 < 2 ^ 32 := by omega
  have hR2 : rhs % 2 ^ 32 < 2 ^ 32 := by omega
  have b22 : (lhs % 2 ^ 32) * (rhs % 2 ^ 32) ≤ (2 ^ 32 - 1) * (2 ^ 32 - 1) :=
    Nat.mul_le_mul (by omega) (by omega)
  have b21 : (lhs / 2 ^ 32) * (rhs % 2 ^ 32) ≤ (2 ^ 32 - 1) * (2 ^ 32 - 1) :=
    Nat.mul_le_mul (by omega) (by omega)
  have b12 : (lhs % 2 ^ 32) * (rhs / 2 ^ 32) ≤ (2 ^ 32 - 1) * (2 ^ 32 - 1) :=
    Nat.mul_le_mul (by omega) (by omega)
  have b11 : (lhs / 2 ^ 32) * (rhs / 2 ^ 32) ≤ (2 ^ 32 - 1) * (2 ^ 32 - 1) :=
    Nat.mul_le_mul (by omega) (by omega)
  have hsums : ext_mul_optimized_high_low lhs rhs < 2 ^ 64 ∧
      ext_mul_optimized_low_high lhs rhs < 2 ^ 64 ∧
      CarryBits lhs * CarryBits rhs + CarryBits (ext_mul_optimized_high_low lhs rhs) < 2 ^ 64 ∧
      ext_mul_optimized_upper_sum lhs rhs < 2 ^ 64 := by
    simp only [ext_mul_optimized_upper_sum, ext_mul_optimized_low_high,
      ext_mul_optimized_high_low, Digits_eq, CarryBits_eq]
    generalize (lhs % 2 ^ 32) * (rhs % 2 ^ 32) = p22 at b22 ⊢
    generalize (lhs / 2 ^ 32) * (rhs % 2 ^ 32) = p21 at b21 ⊢
    generalize (lhs % 2 ^ 32) * (rhs / 2 ^ 32) = p12 at b12 ⊢
    generalize (lhs / 2 ^ 32) * (rhs / 2 ^ 32) = p11 at b11 ⊢
    refine ⟨?_, ?_, ?_, ?_⟩ <;> omega
  obtain ⟨h1, h2, h3, h4⟩ := hsums
  have e22 : Digits lhs * Digits rhs < 2 ^ 64 := by
    rw [Digits_eq, Digits_eq]; omega
  have e11 : CarryBits lhs * CarryBits rhs < 2 ^ 64 := by
    rw [CarryBits_eq, CarryBits_eq]; omega
  have e21 : CarryBits lhs * Digits rhs < 2 ^ 64 := by
    rw [CarryBits_eq, Digits_eq]; omega
  have e12 : Digits lhs * CarryBits rhs < 2 ^ 64 := by
    rw [Digits_eq, CarryBits_eq]; omega
  refine ⟨e22, e11, e21, e12, h1, h2, h3, h4, ?_⟩
  have w22 : u64 (Digits lhs * Digits rhs) = Digits lhs * Digits rhs := Nat.mod_eq_of_lt e22
  have w11 : u64 (CarryBits lhs * CarryBits rhs) = CarryBits lhs * CarryBits rhs :=
    Nat.mod_eq_of_lt e11
  have w21 : u64 (CarryBits lhs * Digits rhs) = CarryBits lhs * Digits rhs :=
    Nat.mod_eq_of_lt e21
  have w12 : u64 (Digits lhs * CarryBits rhs) = Digits lhs * CarryBits rhs :=
    Nat.mod_eq_of_lt e12
  have whl : u64 (CarryBits lhs * Digits rhs + CarryBits (Digits lhs * Digits rhs))
      = ext_mul_optimized_high_low lhs rhs := Nat.mod_eq_of_lt h1
  have wlh : u64 (Digits lhs * CarryBits rhs + Digits (ext_mul_optimized_high_low lhs rhs))
      = ext_mul_optimized_low_high lhs rhs := Nat.mod_eq_of_lt h2
  have wu1 : u64 (CarryBits lhs * CarryBits rhs
      + CarryBits (ext_mul_optimized_high_low lhs rhs))
      = CarryBits lhs * CarryBits rhs + CarryBits (ext_mul_optimized_high_low lhs rhs) :=
    Nat.mod_eq_of_lt h3
  have wu2 : u64 (CarryBits lhs * CarryBits rhs
      + CarryBits (ext_mul_optimized_high_low lhs rhs)
      + CarryBits (ext_mul_optimized_low_high lhs rhs))
      = ext_mul_optimized_upper_sum lhs rhs := Nat.mod_eq_of_lt h4
  simp only [ext_mul_optimized, w22, w11, w21, w12, whl, wlh, wu1, wu2]

theorem ext_mul_optimized_no_wraparound_witness :
    ext_mul_optimized_high_low (2 ^ 64 - 1) (2 ^ 64 - 1) < 2 ^ 64 ∧
      ext_mul_optimized_low_high (2 ^ 64 - 1) (2 ^ 64 - 1) < 2 ^ 64 ∧
      ext_mul_optimized_upper_sum (2 ^ 64 - 1) (2 ^ 64 - 1) < 2 ^ 64 ∧
      ext_mul_optimized (2 ^ 64 - 1) (2 ^ 64 - 1) =
        { upper := ext_mul_optimized_upper_sum (2 ^ 64 - 1) (2 ^ 64 - 1),
          lower := u64 (ext_mul_optimized_low_high (2 ^ 64 - 1) (2 ^ 64 - 1) <<< 32)
            ||| Digits (Digits (2 ^ 64 - 1) * Digits (2 ^ 64 - 1)) } :=
  ⟨(ext_mul_optimized_no_wraparound (2 ^ 64 - 1) (2 ^ 64 - 1) (by norm_num)
      (by norm_num)).2.2.2.2.1,
    (ext_mul_optimized_no_wraparound (2 ^ 64 - 1) (2 ^ 64 - 1) (by norm_num)
      (by norm_num)).2.2.2.2.2.1,
    (ext_mul_optimized_no_wraparound (2 ^ 64 - 1) (2 ^ 64 - 1) (by norm_num)
      (by norm_num)).2.2.2.2.2.2.2.1,
    (ext_mul_optimized_no_wraparound (2 ^ 64 - 1) (2 ^ 64 - 1) (by norm_num)
      (by norm_num)).2.2.2.2.2.2.2.2⟩

/-- C28: for all 32-bit `val` and `count`, both shift amounts of `rotate_right`
are at most 31, the result depends on `count` only through `count mod 32`,
`rotate_right(val, 0) = val`, the result is a 32-bit value, for `c = count mod 32`
it is the right rotation of `val` by `c` bits, and
`rotate_right(rotate_right(val, c), 32 - c) = val`. -/
theorem rotate_right_is_rotation (val count : Nat) (hv : val < 2 ^ 32)
    (_hcount : count < 2 ^ 32) :
    count &&& 31 ≤ 31 ∧ uneg 32 (count &&& 31) &&& 31 ≤ 31 ∧
      rotate_right val count = rotate_right val (count % 32) ∧
      rotate_right val 0 = val ∧
      rotate_right val count < 2 ^ 32 ∧
      rotate_right val count = rotr32 val (count % 32) ∧
      rotate_right (rotate_right val (count % 32)) (32 - count % 32) = val := by
  have hc : count % 32 < 32 := Nat.mod_lt _ (by norm_num)
  have hrot : ∀ v c, v < 2 ^ 32 → c < 32 → rotate_right v c = rotr32 v c := by
    intro v c hv1 hc1
    rcases Nat.eq_zero_or_pos c with rfl | hpos
    · rw [rotate_right_zero v hv1, rotr32_zero]
    · exact rotate_right_pos v c hv1 hpos hc1
  have hres : rotate_right val count = rotr32 val (count % 32) := by
    rw [rotate_right_mod, hrot val _ hv hc]
  refine ⟨?_, ?_, rotate_right_mod val count, rotate_right_zero val hv, ?_, hres, ?_⟩
  · rw [and_31]; omega
  · rw [and_31]; omega
  · rw [hres]
    exact rotr32_lt val _ hv (le_of_lt hc)
  · rw [hrot val _ hv hc]
    have hlt := rotr32_lt val (count % 32) hv (le_of_lt hc)
    rcases Nat.eq_zero_or_pos (count % 32) with h0 | hpos
    · rw [h0, rotr32_zero, rotate_right_mod]
      exact rotate_right_zero val hv
    · rw [hrot _ _ hlt (by omega)]
      exact rotr32_inverse val _ hv (le_of_lt hc)

theorem rotate_right_is_rotation_witness :
    37 &&& 31 ≤ 31 ∧ uneg 32 (37 &&& 31) &&& 31 ≤ 31 ∧
      rotate_right 0x80000001 37 = rotate_right 0x80000001 (37 % 32) ∧
      rotate_right 0x80000001 0 = 0x80000001 ∧
      rotate_right 0x80000001 37 < 2 ^ 32 ∧
      rotate_right 0x80000001 37 = rotr32 0x80000001 (37 % 32) ∧
      rotate_right (rotate_right 0x80000001 (37 % 32)) (32 - 37 % 32) = 0x80000001 :=
  rotate_right_is_rotation 0x80000001 37 (by norm_num) (by norm_num)

/-- C26: for every non-zero 64-bit distance `d` and every residue `k < d`, the
number of 64-bit draws `x` that the loop of `java_plain` and `java_reuse`
accepts (its condition `x - (x % d) > (-d)` in 64-bit wrapping arithmetic is
false) and for which `x % d = k` is exactly `floor(2^64 / d)`; an accepted first
draw ends the call with `m_a + x % d`, a rejected one is dropped. -/
theorem java_accepted_draws_per_residue (d k : Nat) (hd0 : d ≠ 0) (hd : d < 2 ^ 64)
    (hk : k < d) :
    ((Finset.range (2 ^ 64)).filter
        (fun x => ¬ (usub 64 x (x % d) > uneg 64 d) ∧ x % d = k)).card = 2 ^ 64 / d ∧
      (∀ (x : Nat) (g : Generator), x < 2 ^ 64 →
        (¬ (usub 64 x (x % d) > uneg 64 d) → javaLoop d g x (x % d) = .ok (x % d, g)) ∧
        (usub 64 x (x % d) > uneg 64 d → ∀ (y : Nat) (g1 : Generator),
          javaLoop d (y :: g1) x (x % d) = javaLoop d g1 (y % 2 ^ 64) (y % 2 ^ 64 % d))) := by
  have hdpos : 0 < d := Nat.pos_of_ne_zero hd0
  constructor
  · have hset : (Finset.range (2 ^ 64)).filter
          (fun x => ¬ (usub 64 x (x % d) > uneg 64 d) ∧ x % d = k)
        = (Finset.range (d * (2 ^ 64 / d))).filter (fun x => x % d = k) := by
      ext x
      simp only [Finset.mem_filter, Finset.mem_range]
      have hle : d * (2 ^ 64 / d) ≤ 2 ^ 64 := Nat.mul_div_le _ _
      constructor
      · rintro ⟨hx, hacc, hres⟩
        exact ⟨(java_accept_iff d x hdpos hd hx).1 hacc, hres⟩
      · rintro ⟨hx, hres⟩
        have hx2 : x < 2 ^ 64 := lt_of_lt_of_le hx hle
        exact ⟨hx2, (java_accept_iff d x hdpos hd hx2).2 hx, hres⟩
    rw [hset, residue_card _ d k hdpos hk, Nat.mul_div_cancel_left _ hdpos,
      Nat.mul_mod_right, if_neg (Nat.not_lt_zero k)]
    rfl
  · intro x g _
    constructor
    · intro hacc
      cases g <;> simp only [javaLoop, if_neg hacc]
    · intro hrej y g1
      simp only [javaLoop, if_pos hrej, umod, if_neg hd0]

theorem java_accepted_draws_per_residue_witness :
    ((Finset.range (2 ^ 64)).filter
        (fun x => ¬ (usub 64 x (x % 3) > uneg 64 3) ∧ x % 3 = 2)).card = 2 ^ 64 / 3 :=
  (java_accepted_draws_per_residue 3 2 (by decide) (by norm_num) (by decide)).1

/-- C27: for every non-zero 64-bit distance `d` and every residue `k < d`, the
threshold `(-d) % d` of `OpenBSD_plain` and `OpenBSD_reuse` is `2^64 mod d`, and
the number of 64-bit draws `x` that are accepted (`x >= threshold`) and for which
`x % d = k` is exactly `floor(2^64 / d)`; an accepted draw ends the loop, a
rejected one is dropped. -/
theorem openBSD_accepted_draws_per_residue (d k : Nat) (hd0 : d ≠ 0) (hd : d < 2 ^ 64)
    (hk : k < d) :
    ∃ t, umod (uneg 64 d) d = .ok t ∧ t = 2 ^ 64 % d ∧
      ((Finset.range (2 ^ 64)).filter (fun x => ¬ (x < t) ∧ x % d = k)).card = 2 ^ 64 / d ∧
      (∀ (x : Nat) (g : Generator),
        (¬ (x < t) → openBSDLoop t g x = .ok (x, g)) ∧
        (x < t → ∀ (y : Nat) (g1 : Generator),
          openBSDLoop t (y :: g1) x = openBSDLoop t g1 (y % 2 ^ 64))) := by
  have hdpos : 0 < d := Nat.pos_of_ne_zero hd0
  have ht : uneg 64 d % d = 2 ^ 64 % d := by
    unfold uneg
    rw [Nat.mod_eq_of_lt (show 2 ^ 64 - d < 2 ^ 64 by omega), sub_self_mod _ _ (le_of_lt hd)]
  have htlt : 2 ^ 64 % d < d := Nat.mod_lt _ hdpos
  refine ⟨2 ^ 64 % d, by rw [umod_pos _ _ hdpos, ht], rfl, ?_, ?_⟩
  · have hsplit := Finset.filter_card_add_filter_neg_card_eq_card
      (s := (Finset.range (2 ^ 64)).filter (fun x => x % d = k)) (fun x => x < 2 ^ 64 % d)
    rw [Finset.filter_filter, Finset.filter_filter, residue_card _ d k hdpos hk] at hsplit
    have hlow : (Finset.range (2 ^ 64)).filter (fun x => x % d = k ∧ x < 2 ^ 64 % d)
        = (Finset.range (2 ^ 64 % d)).filter (fun x => x % d = k) := by
      ext x
      simp only [Finset.mem_filter, Finset.mem_range]
      constructor
      · rintro ⟨_, hres, hx⟩
        exact ⟨hx, hres⟩
      · rintro ⟨hx, hres⟩
        exact ⟨by omega, hres, hx⟩
    have hhigh : (Finset.range (2 ^ 64)).filter (fun x => x % d = k ∧ ¬ x < 2 ^ 64 % d)
        = (Finset.range (2 ^ 64)).filter (fun x => ¬ (x < 2 ^ 64 % d) ∧ x % d = k) := by
      apply Finset.filter_congr
      intro x _
      exact and_comm
    rw [hlow, hhigh, residue_card _ d k hdpos hk, Nat.div_eq_of_lt htlt,
      Nat.mod_eq_of_lt htlt] at hsplit
    omega
  · intro x g
    constructor
    · intro hacc
      cases g <;> simp only [openBSDLoop, if_neg hacc]
    · intro hrej y g1
      simp only [openBSDLoop, if_pos hrej]

theorem openBSD_accepted_draws_per_residue_witness :
    ∃ t, umod (uneg 64 3) 3 = .ok t ∧ t = 2 ^ 64 % 3 ∧
      ((Finset.range (2 ^ 64)).filter (fun x => ¬ (x < t) ∧ x % 3 = 0)).card = 2 ^ 64 / 3 ∧
      (∀ (x : Nat) (g : Generator),
        (¬ (x < t) → openBSDLoop t g x = .ok (x, g)) ∧
        (x < t → ∀ (y : Nat) (g1 : Generator),
          openBSDLoop t (y :: g1) x = openBSDLoop t g1 (y % 2 ^ 64))) :=
  openBSD_accepted_draws_per_residue 3 0 (by decide) (by norm_num) (by decide)

/-- C22: for a type of width 32 or 64 and `a <= b`, `lemire_algorithm_lazy_reuse`
is constructed with the sentinel `NONE`, and after any number of consecutive
calls on any draws `m_a` and `m_ab_distance` hold their constructed values and
`m_rejection_threshold` is `NONE` or, the distance being non-zero, exactly
`2^W mod m_ab_distance`; `computeRejectionThreshold(d)` is defined and different
from `NONE` for every `W`-bit `d`. -/
theorem lazy_reuse_state_invariant (T : IntegerType) (hW : T.bits = 32 ∨ T.bits = 64)
    (a b : Int) (hab : a ≤ b) :
    lemire_algorithm_lazy_reuse.ctor T a b =
        .ok { m_a := transposeTo T a, m_ab_distance := computeDistance T a b,
              m_rejection_threshold := lemire_algorithm_lazy_reuse.NONE T } ∧
      (∀ (n : Nat) (g : Generator) (xs : List Int) (s1 : lemire_algorithm_lazy_reuse.State)
          (g1 : Generator),
        consecutive_calls (lemire_algorithm_lazy_reuse.call T) n
            { m_a := transposeTo T a, m_ab_distance := computeDistance T a b,
              m_rejection_threshold := lemire_algorithm_lazy_reuse.NONE T } g
          = .ok (xs, s1, g1) →
        s1.m_a = transposeTo T a ∧ s1.m_ab_distance = computeDistance T a b ∧
          (s1.m_rejection_threshold = lemire_algorithm_lazy_reuse.NONE T ∨
            (computeDistance T a b ≠ 0 ∧
              s1.m_rejection_threshold = 2 ^ T.bits % computeDistance T a b))) ∧
      (∀ d, d < 2 ^ T.bits →
        ∃ t, lemire_algorithm_lazy_reuse.computeRejectionThreshold T d = .ok t ∧
          t ≠ lemire_algorithm_lazy_reuse.NONE T) := by
  refine ⟨by unfold lemire_algorithm_lazy_reuse.ctor; rw [if_pos hab], ?_,
    fun d hd => threshold_ne_NONE T (bits_pos T hW) d hd⟩
  intro n g xs s1 g1 h
  exact consecutive_calls_invariant (lemire_algorithm_lazy_reuse.call T)
    (LazyInvariant T (transposeTo T a) (computeDistance T a b))
    (fun s g x s2 g2 hs hc =>
      lazy_call_invariant T _ _ (computeDistance_lt T a b) s hs g x s2 g2 hc)
    n _ g ⟨rfl, rfl, Or.inl rfl⟩ xs s1 g1 h

theorem lazy_reuse_state_invariant_witness :
    (⟨2 ^ 31, 11, 4⟩ : lemire_algorithm_lazy_reuse.State).m_a = transposeTo ⟨true, 32⟩ 0 ∧
      (⟨2 ^ 31, 11, 4⟩ : lemire_algorithm_lazy_reuse.State).m_ab_distance
        = computeDistance ⟨true, 32⟩ 0 10 ∧
      ((⟨2 ^ 31, 11, 4⟩ : lemire_algorithm_lazy_reuse.State).m_rejection_threshold
          = lemire_algorithm_lazy_reuse.NONE ⟨true, 32⟩ ∨
        (computeDistance ⟨true, 32⟩ 0 10 ≠ 0 ∧
          (⟨2 ^ 31, 11, 4⟩ : lemire_algorithm_lazy_reuse.State).m_rejection_threshold
            = 2 ^ 32 % computeDistance ⟨true, 32⟩ 0 10)) :=
  (lazy_reuse_state_invariant ⟨true, 32⟩ (Or.inl rfl) 0 10 (by decide)).2.1 2
    [2 ^ 31, 0, 1, 9] [5, 0] ⟨2 ^ 31, 11, 4⟩ [9] (by rfl)

/-- C23: for a type of width 32 or 64 and a lazy state with a `W`-bit distance:
forgetting the count, `callCounting` is the call operator; on a call whose first
draw has `lower >= m_ab_distance`, or whose distance is 0, exactly one draw is
consumed, no `%` is evaluated and the state is unchanged; on a call whose first
draw has `lower < m_ab_distance` while the threshold is `NONE`, one `%` is
evaluated and the threshold becomes `2^W mod m_ab_distance`, which is not
`NONE`; once the threshold is not `NONE`, no call evaluates `%` or changes the
state. -/
theorem lazy_reuse_fast_path (T : IntegerType) (_hW : T.bits = 32 ∨ T.bits = 64)
    (s : lemire_algorithm_lazy_reuse.State) (hd : s.m_ab_distance < 2 ^ T.bits) :
    (∀ g, forgetCount (lemire_algorithm_lazy_reuse.callCounting T s g)
        = lemire_algorithm_lazy_reuse.call T s g) ∧
      (∀ (r : Nat) (rest : Generator),
        (s.m_ab_distance = 0 ∨
          s.m_ab_distance ≤ (extendedMult T.bits (r % 2 ^ T.bits) s.m_ab_distance).lower) →
        ∃ res, lemire_algorithm_lazy_reuse.callCounting T s (r :: rest)
          = .ok (res, s, rest, 0)) ∧
      (∀ (r : Nat) (rest : Generator), s.m_ab_distance ≠ 0 →
        (extendedMult T.bits (r % 2 ^ T.bits) s.m_ab_distance).lower < s.m_ab_distance →
        s.m_rejection_threshold = lemire_algorithm_lazy_reuse.NONE T →
        ∀ res s1 g1 n, lemire_algorithm_lazy_reuse.callCounting T s (r :: rest)
            = .ok (res, s1, g1, n) →
          n = 1 ∧ s1.m_rejection_threshold = 2 ^ T.bits % s.m_ab_distance ∧
            s1.m_rejection_threshold ≠ lemire_algorithm_lazy_reuse.NONE T ∧
            s1.m_a = s.m_a ∧ s1.m_ab_distance = s.m_ab_distance) ∧
      (s.m_rejection_threshold ≠ lemire_algorithm_lazy_reuse.NONE T →
        ∀ g res s1 g1 n, lemire_algorithm_lazy_reuse.callCounting T s g
            = .ok (res, s1, g1, n) →
          n = 0 ∧ s1 = s) := by
  refine ⟨fun g => callCounting_forget T s g hd, ?_, ?_, ?_⟩
  · intro r rest hfast
    unfold lemire_algorithm_lazy_reuse.callCounting
    by_cases hd0 : s.m_ab_distance = 0
    · rw [if_pos hd0]
      exact ⟨_, rfl⟩
    · rw [if_neg hd0]
      have hlow : ¬ (extendedMult T.bits (r % 2 ^ T.bits) s.m_ab_distance).lower
          < s.m_ab_distance := by
        rcases hfast with h | h
        · exact absurd h hd0
        · omega
      simp only [fillBitsFrom, bind, Except.bind, pure, Except.pure, hlow, if_false]
      exact ⟨_, rfl⟩
  · intro r rest hd0 hlow hN res s1 g1 n h
    have hne : 2 ^ T.bits % s.m_ab_distance ≠ lemire_algorithm_lazy_reuse.NONE T := by
      have := Nat.mod_lt (2 ^ T.bits) (Nat.pos_of_ne_zero hd0)
      unfold lemire_algorithm_lazy_reuse.NONE
      omega
    unfold lemire_algorithm_lazy_reuse.callCounting at h
    rw [if_neg hd0] at h
    simp only [fillBitsFrom, bind, Except.bind, pure, Except.pure, hlow, if_true, hN,
      lazy_counting_threshold T _ hd0 hd] at h
    rcases hl : rejectionLoop T.bits (fun r => extendedMult T.bits r s.m_ab_distance)
      (2 ^ T.bits % s.m_ab_distance) rest
      (extendedMult T.bits (r % 2 ^ T.bits) s.m_ab_distance) with e | ⟨v, g2⟩
    · rw [hl] at h; simp at h
    · rw [hl] at h
      simp only [Except.ok.injEq, Prod.mk.injEq] at h
      obtain ⟨_, h2, _, h4⟩ := h
      subst h2
      exact ⟨h4.symm, rfl, hne, rfl, rfl⟩
  · intro hN g res s1 g1 n h
    unfold lemire_algorithm_lazy_reuse.callCounting at h
    by_cases hd0 : s.m_ab_distance = 0
    · rw [if_pos hd0] at h
      cases g with
      | nil => simp [fillBitsFrom, bind, Except.bind] at h
      | cons r rest =>
        simp only [fillBitsFrom, bind, Except.bind, pure, Except.pure, Except.ok.injEq,
          Prod.mk.injEq] at h
        exact ⟨h.2.2.2.symm, h.2.1.symm⟩
    · rw [if_neg hd0] at h
      cases g with
      | nil => simp [fillBitsFrom, bind, Except.bind] at h
      | cons r rest =>
        simp only [fillBitsFrom, bind, Except.bind, pure, Except.pure, hN, if_false] at h
        by_cases hlow : (extendedMult T.bits (r % 2 ^ T.bits) s.m_ab_distance).lower
            < s.m_ab_distance
        · simp only [hlow, if_true] at h
          rcases hl : rejectionLoop T.bits (fun r => extendedMult T.bits r s.m_ab_distance)
            s.m_rejection_threshold rest
            (extendedMult T.bits (r % 2 ^ T.bits) s.m_ab_distance) with e | ⟨v, g2⟩
          · rw [hl] at h; simp at h
          · rw [hl] at h
            simp only [Except.ok.injEq, Prod.mk.injEq] at h
            exact ⟨h.2.2.2.symm, h.2.1.symm⟩
        · simp only [hlow, if_false, Except.ok.injEq, Prod.mk.injEq] at h
          exact ⟨h.2.2.2.symm, h.2.1.symm⟩

theorem lazy_reuse_fast_path_witness :
    (∃ res, lemire_algorithm_lazy_reuse.callCounting ⟨false, 32⟩
        ⟨0, 11, lemire_algorithm_lazy_reuse.NONE ⟨false, 32⟩⟩ (2 ^ 31 :: [0, 1, 9])
        = .ok (res, ⟨0, 11, lemire_algorithm_lazy_reuse.NONE ⟨false, 32⟩⟩, [0, 1, 9], 0)) ∧
      ((1 : Nat) = 1 ∧
        (⟨0, 11, 4⟩ : lemire_algorithm_lazy_reuse.State).m_rejection_threshold = 2 ^ 32 % 11 ∧
        (⟨0, 11, 4⟩ : lemire_algorithm_lazy_reuse.State).m_rejection_threshold
          ≠ lemire_algorithm_lazy_reuse.NONE ⟨false, 32⟩ ∧
        (⟨0, 11, 4⟩ : lemire_algorithm_lazy_reuse.State).m_a = 0 ∧
        (⟨0, 11, 4⟩ : lemire_algorithm_lazy_reuse.State).m_ab_distance = 11) :=
  ⟨(lazy_reuse_fast_path ⟨false, 32⟩ (Or.inl rfl)
      ⟨0, 11, lemire_algorithm_lazy_reuse.NONE ⟨false, 32⟩⟩ (by norm_num)).2.1
      (2 ^ 31) [0, 1, 9] (Or.inr (by decide)),
    (lazy_reuse_fast_path ⟨false, 32⟩ (Or.inl rfl)
      ⟨0, 11, lemire_algorithm_lazy_reuse.NONE ⟨false, 32⟩⟩ (by norm_num)).2.2.1
      0 [1, 9] (by decide) (by decide) rfl 0 ⟨0, 11, 4⟩ [9] 1 (by rfl)⟩

/-- C25: for a type of width 32 or 64 and every `a <= b`, the full-width range
included, the three main variants are constructed without any fault, and any
number of consecutive calls of each of them either returns or stops for lack of
draws: no call stops on a `%` with a zero divisor. -/
theorem main_variants_never_divide_by_zero (T : IntegerType)
    (_hW : T.bits = 32 ∨ T.bits = 64) (a b : Int) (_ha : T.Holds a) (_hb : T.Holds b)
    (hab : a ≤ b) :
    lemire_algorithm_no_reuse.ctor T a b = .ok { m_a := a, m_b := b } ∧
      lemire_algorithm_reuse.ctor T a b =
        .ok { m_a := transposeTo T a, m_ab_distance := computeDistance T a b,
              m_rejection_threshold :=
                if computeDistance T a b = 0 then 0 else 2 ^ T.bits % computeDistance T a b } ∧
      lemire_algorithm_lazy_reuse.ctor T a b =
        .ok { m_a := transposeTo T a, m_ab_distance := computeDistance T a b,
              m_rejection_threshold := lemire_algorithm_lazy_reuse.NONE T } ∧
      ∀ (n : Nat) (g : Generator) (e : Fault),
        (consecutive_calls (constCall (lemire_algorithm_no_reuse.call T)) n
            { m_a := a, m_b := b } g = .error e → e = .outOfDraws) ∧
        (consecutive_calls (constCall (lemire_algorithm_reuse.call T)) n
            { m_a := transposeTo T a, m_ab_distance := computeDistance T a b,
              m_rejection_threshold :=
                if computeDistance T a b = 0 then 0 else 2 ^ T.bits % computeDistance T a b } g
            = .error e → e = .outOfDraws) ∧
        (consecutive_calls (lemire_algorithm_lazy_reuse.call T) n
            { m_a := transposeTo T a, m_ab_distance := computeDistance T a b,
              m_rejection_threshold := lemire_algorithm_lazy_reuse.NONE T } g
            = .error e → e = .outOfDraws) := by
  refine ⟨by unfold lemire_algorithm_no_reuse.ctor; rw [if_pos hab], reuse_ctor_eq T a b hab,
    by unfold lemire_algorithm_lazy_reuse.ctor; rw [if_pos hab], ?_⟩
  intro n g e
  refine ⟨?_, ?_, ?_⟩
  · intro h
    exact consecutive_calls_error (constCall (lemire_algorithm_no_reuse.call T))
      (fun _ => True) (fun _ _ _ _ _ _ _ => trivial)
      (fun s g1 e1 _ h1 => no_reuse_call_error T s g1 e1 (constCall_error _ s g1 e1 h1))
      n _ g trivial e h
  · intro h
    exact consecutive_calls_error (constCall (lemire_algorithm_reuse.call T))
      (fun _ => True) (fun _ _ _ _ _ _ _ => trivial)
      (fun s g1 e1 _ h1 => reuse_call_error T s g1 e1 (constCall_error _ s g1 e1 h1))
      n _ g trivial e h
  · intro h
    exact consecutive_calls_error (lemire_algorithm_lazy_reuse.call T)
      (LazyInvariant T (transposeTo T a) (computeDistance T a b))
      (fun s g1 x s2 g2 hs hc =>
        lazy_call_invariant T _ _ (computeDistance_lt T a b) s hs g1 x s2 g2 hc)
      (fun s g1 e1 hs h1 => lazy_call_error T _ _ (computeDistance_lt T a b) s hs g1 e1 h1)
      n _ g ⟨rfl, rfl, Or.inl rfl⟩ e h

theorem main_variants_never_divide_by_zero_witness :
    consecutive_calls (lemire_algorithm_lazy_reuse.call ⟨false, 64⟩) 2
        { m_a := 0, m_ab_distance := 0,
          m_rejection_threshold := lemire_algorithm_lazy_reuse.NONE ⟨false, 64⟩ } [5]
        = .error .outOfDraws ∧
      lemire_algorithm_reuse.ctor ⟨false, 64⟩ 0 (2 ^ 64 - 1) =
        .ok { m_a := transposeTo ⟨false, 64⟩ 0,
              m_ab_distance := computeDistance ⟨false, 64⟩ 0 (2 ^ 64 - 1),
              m_rejection_threshold :=
                if computeDistance ⟨false, 64⟩ 0 (2 ^ 64 - 1) = 0 then 0
                else 2 ^ 64 % computeDistance ⟨false, 64⟩ 0 (2 ^ 64 - 1) } :=
  ⟨by rfl,
    (main_variants_never_divide_by_zero ⟨false, 64⟩ (Or.inr rfl) 0 (2 ^ 64 - 1) (by decide)
      (by decide) (by decide)).2.1⟩

end Lemire
